import Mathlib

/-!
# A verification model of the `regc` scoped garbage collector

This file gives a shallow embedding of the collector in `src/lib.rs` and
proves properties of its operations.

Correspondence with the source:

* `GcState`     — the four-state lifecycle `enum GcState` (lib.rs:13-19).
* `Header`      — the per-object metadata `GcInfo` plus the payload of a
  `GcBox` (lib.rs:21-34).  The payload is represented by the list of managed
  handles (`GcObject`/`GcRoot`) it owns, which is all the collector ever
  observes of a payload: its trace hook reports the weak handles, and its
  destructor drops all of them.  Headers are addressed by `Nat` identifiers.
* `Ctx`         — `GcContextRaw` (lib.rs:547-553): the heap maps identifiers
  to headers whose storage has not been freed, `registry` is the intrusive
  doubly-linked list between the two sentinels in insertion order, and
  `destroyed` / `freed` / `danglingOps` record the events the source logs
  (`trace!("drop …")`, `trace!("free …")`) plus any access the source would
  make to a header whose storage has already been freed (which the model
  skips and records instead of performing, since in Rust it is a
  use-after-free).
* `dropStepFn` / `runDrops` — handle `Drop` impls and `GcBox::check_ref`
  (lib.rs:84-97, 175-183, 242-250, 320-328, 385-393), with the recursive
  destructor cascade linearised as an explicit work list in depth-first
  (source recursion) order.
* `acceptStep`  — `GcTraceToken::accept_box` (lib.rs:471-481).
* `markPhase`, `closure`, `sweepWalk`, `gcRun` — `GcContextRaw::gc`
  (lib.rs:612-698).
* `allocObj`, `setAutoGc` — `GcContextRaw::alloc` / `set_auto_gc`
  (lib.rs:574-610).
* `upgradeFn`   — `GcObject::upgrade` (lib.rs:406-412); it returns `none`
  when the target header's storage has been freed, because the source would
  then read freed memory and no result can be produced from live storage.
-/

namespace Regc

/-- `enum GcState` (lib.rs:13-19). -/
inductive GcState where
  | Active
  | Dropped
  | Tracked
  | Untracked
deriving DecidableEq, Repr

/-- One managed handle owned by a payload: `GcObject` (weak) or `GcRoot`
(strong) stored in a user value's fields, identified by the header it
targets. -/
inductive GcField where
  | weak (t : Nat)
  | strong (t : Nat)
deriving DecidableEq, Repr

/-- `GcInfo` together with the payload of a `GcBox` (lib.rs:21-34).
`root` is `info.root` (strong count), `count` is `info.count` (weak count),
`fields` is the payload's owned managed handles. -/
structure Header where
  state : GcState
  root : Nat
  count : Nat
  fields : List GcField
deriving DecidableEq, Repr

abbrev Heap := List (Nat × Header)

/-- Identifiers of all headers whose storage is still allocated. -/
def keys (h : Heap) : List Nat := h.map (·.1)

/-- Read the header at an address (the `.as_ref()` of the source). -/
def hLookup : Heap → Nat → Option Header
  | [], _ => none
  | (j, hd) :: rest, i => if j = i then some hd else hLookup rest i

/-- Overwrite the header at an address. -/
def hSet : Heap → Nat → Header → Heap
  | [], _, _ => []
  | (j, hd) :: rest, i, hd' => if j = i then (j, hd') :: rest else (j, hd) :: hSet rest i hd'

/-- Deallocate the header at an address (`GcBox::free`, lib.rs:65-68). -/
def hErase : Heap → Nat → Heap
  | [], _ => []
  | (j, hd) :: rest, i => if j = i then rest else (j, hd) :: hErase rest i

@[simp] theorem hLookup_nil (i : Nat) : hLookup [] i = none := rfl

@[simp] theorem hLookup_cons (j : Nat) (hd : Header) (rest : Heap) (i : Nat) :
    hLookup ((j, hd) :: rest) i = if j = i then some hd else hLookup rest i := rfl

@[simp] theorem hSet_nil (i : Nat) (hd : Header) : hSet [] i hd = [] := rfl

@[simp] theorem hSet_cons (j : Nat) (hd : Header) (rest : Heap) (i : Nat) (hd' : Header) :
    hSet ((j, hd) :: rest) i hd' =
      if j = i then (j, hd') :: rest else (j, hd) :: hSet rest i hd' := rfl

@[simp] theorem hErase_nil (i : Nat) : hErase [] i = [] := rfl

@[simp] theorem hErase_cons (j : Nat) (hd : Header) (rest : Heap) (i : Nat) :
    hErase ((j, hd) :: rest) i = if j = i then rest else (j, hd) :: hErase rest i := rfl

@[simp] theorem keys_nil : keys [] = [] := rfl

@[simp] theorem keys_cons (e : Nat × Header) (rest : Heap) :
    keys (e :: rest) = e.1 :: keys rest := rfl

theorem keys_hSet (h : Heap) (i : Nat) (hd : Header) : keys (hSet h i hd) = keys h := by
  induction h with
  | nil => rfl
  | cons e rest ih =>
    obtain ⟨j, hdj⟩ := e
    simp only [hSet_cons]
    split
    · rfl
    · simp [ih]

theorem keys_hErase (h : Heap) (i : Nat) : keys (hErase h i) = (keys h).erase i := by
  induction h with
  | nil => rfl
  | cons e rest ih =>
    obtain ⟨j, hdj⟩ := e
    simp only [hErase_cons]
    by_cases hj : j = i
    · subst hj
      simp [List.erase_cons_head]
    · rw [if_neg hj]
      simp only [keys_cons, ih]
      rw [List.erase_cons_tail]
      simp [hj]

theorem hLookup_hSet_self (h : Heap) (i : Nat) (hd' : Header) :
    (hLookup h i).isSome → hLookup (hSet h i hd') i = some hd' := by
  induction h with
  | nil => simp
  | cons e rest ih =>
    obtain ⟨j, hdj⟩ := e
    by_cases hj : j = i
    · subst hj
      simp
    · rw [hSet_cons, if_neg hj, hLookup_cons, if_neg hj, hLookup_cons, if_neg hj]
      exact ih

theorem hLookup_hSet_ne (h : Heap) (i s : Nat) (hd' : Header) (hne : i ≠ s) :
    hLookup (hSet h i hd') s = hLookup h s := by
  induction h with
  | nil => rfl
  | cons e rest ih =>
    obtain ⟨j, hdj⟩ := e
    by_cases hj : j = i
    · subst hj
      rw [hSet_cons, if_pos rfl, hLookup_cons, if_neg hne, hLookup_cons, if_neg hne]
    · rw [hSet_cons, if_neg hj, hLookup_cons, hLookup_cons]
      split
      · rfl
      · exact ih

theorem hLookup_hErase_ne (h : Heap) (i s : Nat) (hne : i ≠ s) (hnd : (keys h).Nodup) :
    hLookup (hErase h i) s = hLookup h s := by
  induction h with
  | nil => rfl
  | cons e rest ih =>
    obtain ⟨j, hdj⟩ := e
    simp only [keys_cons, List.nodup_cons] at hnd
    by_cases hj : j = i
    · subst hj
      rw [hErase_cons, if_pos rfl, hLookup_cons, if_neg hne]
    · rw [hErase_cons, if_neg hj, hLookup_cons, hLookup_cons]
      split
      · rfl
      · exact ih hnd.2

theorem hLookup_mem (h : Heap) (i : Nat) (hd : Header) :
    hLookup h i = some hd → (i, hd) ∈ h := by
  induction h with
  | nil => simp
  | cons e rest ih =>
    obtain ⟨j, hdj⟩ := e
    rw [hLookup_cons]
    split
    · rename_i hj
      subst hj
      intro he
      simp_all
    · intro he
      exact List.mem_cons_of_mem _ (ih he)

theorem hLookup_isSome_of_mem (h : Heap) (i : Nat) :
    i ∈ keys h → (hLookup h i).isSome := by
  induction h with
  | nil => simp
  | cons e rest ih =>
    obtain ⟨j, hdj⟩ := e
    simp only [keys_cons, List.mem_cons]
    intro hm
    rw [hLookup_cons]
    split
    · rfl
    · rename_i hne
      exact ih (by
        rcases hm with hm | hm
        · exact absurd hm.symm hne
        · exact hm)

theorem mem_keys_of_hLookup (h : Heap) (i : Nat) (hd : Header) :
    hLookup h i = some hd → i ∈ keys h := by
  intro hl
  have := hLookup_mem h i hd hl
  simpa [keys] using List.mem_map_of_mem (·.1) this

theorem hLookup_none_of_not_mem (h : Heap) (i : Nat) :
    i ∉ keys h → hLookup h i = none := by
  intro hn
  cases hl : hLookup h i with
  | none => rfl
  | some hd => exact absurd (mem_keys_of_hLookup h i hd hl) hn

theorem hLookup_hErase_self (h : Heap) (i : Nat) (hnd : (keys h).Nodup) :
    hLookup (hErase h i) i = none := by
  apply hLookup_none_of_not_mem
  rw [keys_hErase]
  exact hnd.not_mem_erase

theorem keys_nodup_hSet (h : Heap) (i : Nat) (hd : Header) (hnd : (keys h).Nodup) :
    (keys (hSet h i hd)).Nodup := by
  rw [keys_hSet]
  exact hnd

theorem keys_nodup_hErase (h : Heap) (i : Nat) (hnd : (keys h).Nodup) :
    (keys (hErase h i)).Nodup := by
  rw [keys_hErase]
  exact hnd.erase i

theorem hErase_of_not_mem (h : Heap) (i : Nat) (hn : i ∉ keys h) : hErase h i = h := by
  induction h with
  | nil => rfl
  | cons e rest ih =>
    obtain ⟨j, hdj⟩ := e
    simp only [keys_cons, List.mem_cons] at hn
    rw [hErase_cons, if_neg (by tauto)]
    rw [ih (by tauto)]

theorem hSet_of_not_mem (h : Heap) (i : Nat) (hd : Header) (hn : i ∉ keys h) :
    hSet h i hd = h := by
  induction h with
  | nil => rfl
  | cons e rest ih =>
    obtain ⟨j, hdj⟩ := e
    simp only [keys_cons, List.mem_cons] at hn
    rw [hSet_cons, if_neg (by tauto)]
    rw [ih (by tauto)]

/-- `enum GcContextState { Normal, Gc }` (lib.rs:541-545). -/
inductive GcContextState where
  | Normal
  | Gc
deriving DecidableEq, Repr

/-- `GcContextRaw` (lib.rs:547-553).  `heap` holds every header whose backing
storage is currently allocated; `registry` is the interior of the intrusive
list between the two sentinels, in insertion order.  `destroyed`, `freed` and
`danglingOps` are event logs (most recent first): payload destructors run,
header storage deallocations, and accesses the source would perform on
already-freed header storage (use-after-free; the model records and skips
them). -/
structure Ctx where
  heap : Heap
  registry : List Nat
  ctxState : GcContextState
  autoGc : Nat
  allocCount : Nat
  nextId : Nat
  destroyed : List Nat
  freed : List Nat
  danglingOps : List Nat
  gcCount : Nat
deriving DecidableEq, Repr

/-- A unit of work in the linearised destructor cascade: dropping one weak
handle, dropping one strong handle, or deallocating one header whose payload
destruction has finished (`GcBox::remove`'s final `free`). -/
inductive DropStep where
  | weakDrop (t : Nat)
  | strongDrop (t : Nat)
  | removeStep (t : Nat)
deriving DecidableEq, Repr

def stepWeight : DropStep → Nat
  | .weakDrop _ => 1
  | .strongDrop _ => 1
  | .removeStep _ => 0

def pendingWeight (l : List DropStep) : Nat := (l.map stepWeight).sum

@[simp] theorem pendingWeight_nil : pendingWeight [] = 0 := rfl

@[simp] theorem pendingWeight_cons (it : DropStep) (rest : List DropStep) :
    pendingWeight (it :: rest) = stepWeight it + pendingWeight rest := rfl

@[simp] theorem pendingWeight_append (a b : List DropStep) :
    pendingWeight (a ++ b) = pendingWeight a + pendingWeight b := by
  simp [pendingWeight]

/-- Dropping a payload drops the handles it owns, in field order
(`ManuallyDrop::drop` running the user value's destructor). -/
def fieldsToDrops : List GcField → List DropStep
  | [] => []
  | .weak t :: fs => .weakDrop t :: fieldsToDrops fs
  | .strong t :: fs => .strongDrop t :: fieldsToDrops fs

@[simp] theorem fieldsToDrops_nil : fieldsToDrops [] = [] := rfl

@[simp] theorem fieldsToDrops_weak (t : Nat) (fs : List GcField) :
    fieldsToDrops (.weak t :: fs) = .weakDrop t :: fieldsToDrops fs := rfl

@[simp] theorem fieldsToDrops_strong (t : Nat) (fs : List GcField) :
    fieldsToDrops (.strong t :: fs) = .strongDrop t :: fieldsToDrops fs := rfl

theorem length_fieldsToDrops (fs : List GcField) : (fieldsToDrops fs).length = fs.length := by
  induction fs with
  | nil => rfl
  | cons f fs ih => cases f <;> simp [ih]

theorem pendingWeight_fieldsToDrops (fs : List GcField) :
    pendingWeight (fieldsToDrops fs) = fs.length := by
  induction fs with
  | nil => rfl
  | cons f fs ih => cases f <;> simp [ih, stepWeight] <;> omega

def totalFields : Heap → Nat
  | [] => 0
  | (_, hd) :: rest => hd.fields.length + totalFields rest

@[simp] theorem totalFields_nil : totalFields [] = 0 := rfl

@[simp] theorem totalFields_cons (e : Nat × Header) (rest : Heap) :
    totalFields (e :: rest) = e.2.fields.length + totalFields rest := rfl

theorem totalFields_hSet (h : Heap) (i : Nat) (hd hd' : Header)
    (hl : hLookup h i = some hd) :
    totalFields (hSet h i hd') + hd.fields.length = totalFields h + hd'.fields.length := by
  induction h with
  | nil => simp at hl
  | cons e rest ih =>
    obtain ⟨j, hdj⟩ := e
    rw [hLookup_cons] at hl
    rw [hSet_cons]
    by_cases hj : j = i
    · rw [if_pos hj] at hl ⊢
      cases hl
      simp only [totalFields_cons]
      omega
    · rw [if_neg hj] at hl ⊢
      simp only [totalFields_cons]
      have := ih hl
      omega

theorem totalFields_hErase_le (h : Heap) (i : Nat) :
    totalFields (hErase h i) ≤ totalFields h := by
  induction h with
  | nil => simp
  | cons e rest ih =>
    obtain ⟨j, hdj⟩ := e
    rw [hErase_cons]
    split
    · simp only [totalFields_cons]
      omega
    · simp only [totalFields_cons]
      omega

/-- `GcBox::check_ref` (lib.rs:84-97), entered after the caller has already
decremented the affected counter and stored the result (`hd` is the header
with the new counter values).  Returns the updated context and the cascade
work the source would perform next, in order: on eager destruction the
payload's handles are dropped (`drop_value`) and then the header is unlinked
and freed (`remove`). -/
def checkRefAfter (ctx : Ctx) (t : Nat) (hd : Header) : Ctx × List DropStep :=
  match hd.state with
  | .Active =>
    if hd.root = 0 ∧ hd.count = 0 then
      ({ctx with heap := hSet ctx.heap t {hd with state := .Dropped, fields := []},
                 destroyed := t :: ctx.destroyed},
       fieldsToDrops hd.fields ++ [.removeStep t])
    else ({ctx with heap := hSet ctx.heap t hd}, [])
  | .Dropped =>
    ({ctx with heap := hErase ctx.heap t, registry := ctx.registry.erase t,
               freed := t :: ctx.freed}, [])
  | .Tracked | .Untracked => ({ctx with heap := hSet ctx.heap t hd}, [])

/-- One unit of the drop cascade.  `weakDrop`/`strongDrop` are the bodies of
`GcObject::drop` / `GcRoot::drop` (lib.rs:385-393, 242-250): decrement the
counter, then `check_ref`.  `removeStep` is the deallocation at the end of
`GcBox::remove` (lib.rs:70-77) for a header whose payload destruction has
finished.  A drop whose target header has already been freed is recorded in
`danglingOps`: the source would dereference freed memory there. -/
def dropStepFn (ctx : Ctx) (it : DropStep) : Ctx × List DropStep :=
  match it with
  | .weakDrop t =>
    match hLookup ctx.heap t with
    | none => ({ctx with danglingOps := t :: ctx.danglingOps}, [])
    | some hd => checkRefAfter ctx t {hd with count := hd.count - 1}
  | .strongDrop t =>
    match hLookup ctx.heap t with
    | none => ({ctx with danglingOps := t :: ctx.danglingOps}, [])
    | some hd => checkRefAfter ctx t {hd with root := hd.root - 1}
  | .removeStep t =>
    ({ctx with heap := hErase ctx.heap t, registry := ctx.registry.erase t,
               freed := t :: ctx.freed}, [])

theorem checkRefAfter_measure (ctx : Ctx) (t : Nat) (hd₀ hd : Header)
    (hl : hLookup ctx.heap t = some hd₀) (hf : hd.fields = hd₀.fields) :
    2 * totalFields (checkRefAfter ctx t hd).1.heap
      + pendingWeight (checkRefAfter ctx t hd).2
      + (checkRefAfter ctx t hd).2.length
      ≤ 2 * totalFields ctx.heap + 1 := by
  unfold checkRefAfter
  cases hst : hd.state
  · -- Active
    simp only
    split
    · have h1 := totalFields_hSet ctx.heap t hd₀ {hd with state := .Dropped, fields := []} hl
      simp only [List.length_nil] at h1
      simp [pendingWeight_fieldsToDrops, length_fieldsToDrops, stepWeight, hf]
      omega
    · have h1 := totalFields_hSet ctx.heap t hd₀ hd hl
      rw [hf] at h1
      simp
      omega
  · -- Dropped
    have := totalFields_hErase_le ctx.heap t
    simp
    omega
  · -- Tracked
    have h1 := totalFields_hSet ctx.heap t hd₀ hd hl
    rw [hf] at h1
    simp
    omega
  · -- Untracked
    have h1 := totalFields_hSet ctx.heap t hd₀ hd hl
    rw [hf] at h1
    simp
    omega

theorem dropStepFn_measure (ctx : Ctx) (it : DropStep) :
    2 * totalFields (dropStepFn ctx it).1.heap + pendingWeight (dropStepFn ctx it).2
      + (dropStepFn ctx it).2.length < 2 * totalFields ctx.heap + stepWeight it + 1 := by
  cases it with
  | weakDrop t =>
    simp only [dropStepFn]
    cases hl : hLookup ctx.heap t with
    | none =>
      simp [hl, stepWeight]
      omega
    | some hd =>
      simp only [hl, stepWeight]
      have := checkRefAfter_measure ctx t hd {hd with count := hd.count - 1} hl rfl
      omega
  | strongDrop t =>
    simp only [dropStepFn]
    cases hl : hLookup ctx.heap t with
    | none =>
      simp [hl, stepWeight]
      omega
    | some hd =>
      simp only [hl, stepWeight]
      have := checkRefAfter_measure ctx t hd {hd with root := hd.root - 1} hl rfl
      omega
  | removeStep t =>
    simp only [dropStepFn, stepWeight, pendingWeight_nil, List.length_nil]
    have := totalFields_hErase_le ctx.heap t
    omega

/-- Run the drop cascade to completion.  Each `DropStep` is executed in
order; the follow-up work a step generates (recursive field drops plus the
final free on eager destruction) is prepended, which is exactly the
depth-first order of the source's recursive `drop` calls. -/
def runDrops (ctx : Ctx) (pend : List DropStep) : Ctx :=
  match pend with
  | [] => ctx
  | it :: rest => runDrops (dropStepFn ctx it).1 ((dropStepFn ctx it).2 ++ rest)
termination_by 2 * totalFields ctx.heap + pendingWeight pend + pend.length
decreasing_by
  simp only [pendingWeight_append, pendingWeight_cons, List.length_append, List.length_cons]
  have := dropStepFn_measure ctx it
  omega

@[simp] theorem runDrops_nil (ctx : Ctx) : runDrops ctx [] = ctx := by
  rw [runDrops]

theorem runDrops_cons (ctx : Ctx) (it : DropStep) (rest : List DropStep) :
    runDrops ctx (it :: rest) = runDrops (dropStepFn ctx it).1 ((dropStepFn ctx it).2 ++ rest) := by
  rw [runDrops]

/-- Generic invariant-preservation principle for the drop cascade. -/
theorem runDrops_preserve (Inv : Ctx → List DropStep → Prop)
    (hstep : ∀ ctx it rest, Inv ctx (it :: rest) →
      Inv (dropStepFn ctx it).1 ((dropStepFn ctx it).2 ++ rest)) :
    ∀ (ctx : Ctx) (pend : List DropStep), Inv ctx pend → Inv (runDrops ctx pend) [] := by
  intro ctx pend
  generalize hm : 2 * totalFields ctx.heap + pendingWeight pend + pend.length = n
  induction n using Nat.strong_induction_on generalizing ctx pend with
  | _ n ih =>
    cases pend with
    | nil =>
      intro h
      simpa using h
    | cons it rest =>
      intro h
      rw [runDrops_cons]
      refine ih _ ?_ _ _ rfl (hstep ctx it rest h)
      subst hm
      simp only [pendingWeight_append, pendingWeight_cons, List.length_append, List.length_cons]
      have := dropStepFn_measure ctx it
      omega

/-- Entry point of `GcRoot::drop` / `GcRootThin::drop` (lib.rs:242-250,
175-183): decrement `root`, then `check_ref`, running the whole resulting
destructor cascade. -/
def dropRootHandle (ctx : Ctx) (i : Nat) : Ctx := runDrops ctx [.strongDrop i]

/-- Entry point of `GcObject::drop` / `GcObjectThin::drop` (lib.rs:385-393,
320-328): decrement `count`, then `check_ref`, running the cascade. -/
def dropWeakHandle (ctx : Ctx) (i : Nat) : Ctx := runDrops ctx [.weakDrop i]

/-- `GcObject::upgrade` / `GcObjectThin::upgrade` (lib.rs:406-412, 344-352).
Returns the updated context and whether a strong handle was produced.  When
the target header's storage has already been freed the source reads freed
memory; no result can be computed from live storage, so the model returns
`none` there. -/
def upgradeFn (ctx : Ctx) (i : Nat) : Option (Ctx × Bool) :=
  match hLookup ctx.heap i with
  | none => none
  | some hd =>
    match hd.state with
    | .Active | .Tracked =>
      some ({ctx with heap := hSet ctx.heap i {hd with root := hd.root + 1}}, true)
    | .Dropped | .Untracked => some (ctx, false)

/-- The shared no-op trace implementation of the strong handles:
`impl GcTarget for GcRoot` and `impl GcTarget for GcRootThin`
(lib.rs:295-299, 218-222): `fn trace(&self, token) { let _ = token; }`. -/
def rootTraceFn (h : Heap) (tok : List Nat) (_t : Nat) : Heap × List Nat := (h, tok)

/-- `GcTraceToken::accept_box` (lib.rs:471-481): promote an `Untracked`
target to `Tracked` and prepend it to the work list through its `next` field
(the token's list); in every other state do nothing.  During a sweep every
reported target is still allocated, so a missing target cannot occur there;
it is modelled as a no-op. -/
def acceptStep (h : Heap) (tok : List Nat) (t : Nat) : Heap × List Nat :=
  match hLookup h t with
  | none => (h, tok)
  | some hd =>
    match hd.state with
    | .Untracked => (hSet h t {hd with state := .Tracked}, t :: tok)
    | .Tracked | .Active | .Dropped => (h, tok)

/-- Tracing one payload: `value.trace(&mut token)`.  Weak handles call
`token.accept` (lib.rs:438-442); strong handles use the no-op trace
(lib.rs:295-299). -/
def traceFields : Heap → List Nat → List GcField → Heap × List Nat
  | h, tok, [] => (h, tok)
  | h, tok, .weak t :: fs => traceFields (acceptStep h tok t).1 (acceptStep h tok t).2 fs
  | h, tok, .strong t :: fs => traceFields (rootTraceFn h tok t).1 (rootTraceFn h tok t).2 fs

/-- One iteration of the closure loop body (lib.rs:651-655): dereference the
popped node and invoke its trace hook. -/
def traceNode (h : Heap) (tok : List Nat) (n : Nat) : Heap × List Nat :=
  match hLookup h n with
  | none => (h, tok)
  | some hd => traceFields h tok hd.fields

def untrackedCount : Heap → Nat
  | [] => 0
  | (_, hd) :: rest => (if hd.state = .Untracked then 1 else 0) + untrackedCount rest

@[simp] theorem untrackedCount_nil : untrackedCount [] = 0 := rfl

@[simp] theorem untrackedCount_cons (e : Nat × Header) (rest : Heap) :
    untrackedCount (e :: rest) =
      (if e.2.state = .Untracked then 1 else 0) + untrackedCount rest := rfl

theorem untrackedCount_hSet (h : Heap) (t : Nat) (hd hd' : Header)
    (hl : hLookup h t = some hd) :
    untrackedCount (hSet h t hd') + (if hd.state = .Untracked then 1 else 0)
      = untrackedCount h + (if hd'.state = .Untracked then 1 else 0) := by
  induction h with
  | nil => simp at hl
  | cons e rest ih =>
    obtain ⟨j, hdj⟩ := e
    rw [hLookup_cons] at hl
    rw [hSet_cons]
    by_cases hj : j = t
    · rw [if_pos hj] at hl ⊢
      cases hl
      simp only [untrackedCount_cons]
      omega
    · rw [if_neg hj] at hl ⊢
      simp only [untrackedCount_cons]
      have := ih hl
      omega

theorem acceptStep_measure (h : Heap) (tok : List Nat) (t : Nat) :
    untrackedCount (acceptStep h tok t).1 + (acceptStep h tok t).2.length
      ≤ untrackedCount h + tok.length := by
  unfold acceptStep
  cases hl : hLookup h t with
  | none => simp [hl]
  | some hd =>
    simp only [hl]
    cases hst : hd.state
    · simp [hst]
    · simp [hst]
    · simp [hst]
    · -- Untracked
      simp only [hst, List.length_cons]
      have := untrackedCount_hSet h t hd {hd with state := .Tracked} hl
      rw [hst] at this
      simp at this
      omega

theorem traceFields_measure (fs : List GcField) (h : Heap) (tok : List Nat) :
    untrackedCount (traceFields h tok fs).1 + (traceFields h tok fs).2.length
      ≤ untrackedCount h + tok.length := by
  induction fs generalizing h tok with
  | nil => simp [traceFields]
  | cons f fs ih =>
    cases f with
    | weak t =>
      rw [traceFields]
      exact le_trans (ih _ _) (acceptStep_measure h tok t)
    | strong t =>
      rw [traceFields]
      exact ih _ _

theorem traceNode_measure (h : Heap) (tok : List Nat) (n : Nat) :
    untrackedCount (traceNode h tok n).1 + (traceNode h tok n).2.length
      ≤ untrackedCount h + tok.length := by
  unfold traceNode
  cases hl : hLookup h n with
  | none => simp
  | some hd => exact traceFields_measure hd.fields h tok

/-- The closure loop (lib.rs:651-655): pop a node from the token and trace
its payload until the work list is exhausted. -/
def closure (h : Heap) (tok : List Nat) : Heap :=
  match tok with
  | [] => h
  | n :: rest => closure (traceNode h rest n).1 (traceNode h rest n).2
termination_by untrackedCount h + tok.length
decreasing_by
  have := traceNode_measure h rest n
  simp only [List.length_cons]
  omega

@[simp] theorem closure_nil (h : Heap) : closure h [] = h := by rw [closure]

theorem closure_cons (h : Heap) (n : Nat) (rest : List Nat) :
    closure h (n :: rest) = closure (traceNode h rest n).1 (traceNode h rest n).2 := by
  rw [closure]

/-- The initial marking pass (lib.rs:636-647): every stolen node is asserted
`Active`; nodes with nonzero `root` become `Tracked` and are pushed onto the
token, the rest become `Untracked`. -/
def markPhase : Heap → List Nat → List Nat → Heap × List Nat
  | h, tok, [] => (h, tok)
  | h, tok, i :: rest =>
    match hLookup h i with
    | none => markPhase h tok rest
    | some hd =>
      if hd.root ≠ 0 then
        markPhase (hSet h i {hd with state := .Tracked}) (i :: tok) rest
      else
        markPhase (hSet h i {hd with state := .Untracked}) tok rest

/-- The reclamation walk (lib.rs:657-693) over the stolen iterator:
`Tracked` survivors are relinked at the front of the registry interior and
set back to `Active`; `Untracked` victims have their payload destroyed
(`drop_value`, cascading into the handles the payload owned) and their
header freed.  The source marks `Active`/`Dropped` here `unreachable!()`;
the model skips such nodes, and likewise nodes whose storage is already
gone. -/
def sweepWalk : Ctx → List Nat → Ctx
  | ctx, [] => ctx
  | ctx, i :: rest =>
    match hLookup ctx.heap i with
    | none => sweepWalk ctx rest
    | some hd =>
      match hd.state with
      | .Tracked =>
        sweepWalk {ctx with heap := hSet ctx.heap i {hd with state := .Active},
                            registry := i :: ctx.registry} rest
      | .Untracked =>
        sweepWalk (runDrops {ctx with heap := hSet ctx.heap i {hd with fields := []},
                                      destroyed := i :: ctx.destroyed}
                    (fieldsToDrops hd.fields ++ [.removeStep i])) rest
      | .Active | .Dropped => sweepWalk ctx rest

/-- `GcContextRaw::gc` (lib.rs:612-698).  A re-entrant call (state already
`Gc`) returns unchanged.  Otherwise: enter the sweep state (`gcCount`
models the source's begin-gc log line), steal the registry interior
(returning early if it is empty), run the initial marking over the stolen
nodes in reverse insertion order, run the trace closure, then the
reclamation walk, and finally restore the `Normal` state (the scope
guard). -/
def gcRun (ctx : Ctx) : Ctx :=
  match ctx.ctxState with
  | .Gc => ctx
  | .Normal =>
    let ctx1 : Ctx := {ctx with ctxState := .Gc, gcCount := ctx.gcCount + 1}
    if ctx1.registry = [] then {ctx1 with ctxState := .Normal}
    else
      let iter := ctx1.registry.reverse
      let ctx2 : Ctx := {ctx1 with registry := []}
      let mres := markPhase ctx2.heap [] iter
      let ctx3 := sweepWalk {ctx2 with heap := closure mres.1 mres.2} iter
      {ctx3 with ctxState := .Normal}

/-- The header built by `GcBox::new` followed by `GcRoot::from_box`
(lib.rs:37-51, 253-257): freshly `Active`, one strong holder, no weak
holders. -/
def newHeader (fs : List GcField) : Header :=
  { state := .Active, root := 1, count := 0, fields := fs }

/-- `GcContextRaw::set_auto_gc` (lib.rs:574-577). -/
def setAutoGc (ctx : Ctx) (n : Nat) : Ctx := {ctx with autoGc := n, allocCount := 0}

/-- `GcContextRaw::alloc` (lib.rs:579-610): when auto-GC is enabled and the
incremented allocation counter reaches the threshold, reset the counter and
sweep first; then allocate the new header and link it immediately before the
tail sentinel (the end of the registry).  Returns the new identifier. -/
def allocObj (ctx : Ctx) (fs : List GcField) : Ctx × Nat :=
  let ctx1 :=
    if ctx.autoGc ≠ 0 then
      if ctx.allocCount + 1 = ctx.autoGc then gcRun {ctx with allocCount := 0}
      else {ctx with allocCount := ctx.allocCount + 1}
    else ctx
  ({ctx1 with heap := ctx1.heap ++ [(ctx1.nextId, newHeader fs)],
              registry := ctx1.registry ++ [ctx1.nextId],
              nextId := ctx1.nextId + 1}, ctx1.nextId)

def isWeakField : GcField → Bool
  | .weak _ => true
  | .strong _ => false

/-! ## Frame and monotonicity lemmas for the drop cascade -/

theorem dropStepFn_frame (ctx : Ctx) (it : DropStep) :
    (dropStepFn ctx it).1.ctxState = ctx.ctxState ∧
    (dropStepFn ctx it).1.autoGc = ctx.autoGc ∧
    (dropStepFn ctx it).1.allocCount = ctx.allocCount ∧
    (dropStepFn ctx it).1.nextId = ctx.nextId ∧
    (dropStepFn ctx it).1.gcCount = ctx.gcCount := by
  cases it with
  | weakDrop t =>
    simp only [dropStepFn]
    cases hl : hLookup ctx.heap t with
    | none => simp [hl]
    | some hd =>
      simp only [hl]
      unfold checkRefAfter
      cases ({hd with count := hd.count - 1} : Header).state <;> simp only
      · split <;> simp
      · simp
      · simp
      · simp
  | strongDrop t =>
    simp only [dropStepFn]
    cases hl : hLookup ctx.heap t with
    | none => simp [hl]
    | some hd =>
      simp only [hl]
      unfold checkRefAfter
      cases ({hd with root := hd.root - 1} : Header).state <;> simp only
      · split <;> simp
      · simp
      · simp
      · simp
  | removeStep t => simp [dropStepFn]

theorem runDrops_frame (ctx : Ctx) (pend : List DropStep) :
    (runDrops ctx pend).ctxState = ctx.ctxState ∧
    (runDrops ctx pend).autoGc = ctx.autoGc ∧
    (runDrops ctx pend).allocCount = ctx.allocCount ∧
    (runDrops ctx pend).nextId = ctx.nextId ∧
    (runDrops ctx pend).gcCount = ctx.gcCount := by
  have := runDrops_preserve
    (fun c _ => c.ctxState = ctx.ctxState ∧ c.autoGc = ctx.autoGc ∧
      c.allocCount = ctx.allocCount ∧ c.nextId = ctx.nextId ∧ c.gcCount = ctx.gcCount)
    (by
      intro c it rest h
      have hf := dropStepFn_frame c it
      exact ⟨hf.1.trans h.1, hf.2.1.trans h.2.1, hf.2.2.1.trans h.2.2.1,
        hf.2.2.2.1.trans h.2.2.2.1, hf.2.2.2.2.trans h.2.2.2.2⟩)
    ctx pend ⟨rfl, rfl, rfl, rfl, rfl⟩
  exact this

theorem checkRefAfter_shape (ctx : Ctx) (t : Nat) (hd : Header) :
    (∃ l, (checkRefAfter ctx t hd).1.destroyed = l ++ ctx.destroyed) ∧
    (∃ l, (checkRefAfter ctx t hd).1.freed = l ++ ctx.freed) ∧
    (checkRefAfter ctx t hd).1.danglingOps = ctx.danglingOps ∧
    ((checkRefAfter ctx t hd).1.registry = ctx.registry ∨
      (checkRefAfter ctx t hd).1.registry = ctx.registry.erase t) ∧
    (∀ j, j ∈ keys (checkRefAfter ctx t hd).1.heap → j ∈ keys ctx.heap) := by
  unfold checkRefAfter
  cases hd.state
  · simp only
    split
    · exact ⟨⟨[t], rfl⟩, ⟨[], rfl⟩, rfl, Or.inl rfl, by simp [keys_hSet]⟩
    · exact ⟨⟨[], rfl⟩, ⟨[], rfl⟩, rfl, Or.inl rfl, by simp [keys_hSet]⟩
  · refine ⟨⟨[], rfl⟩, ⟨[t], rfl⟩, rfl, Or.inr rfl, ?_⟩
    intro j
    simp only [keys_hErase]
    exact fun hj => (List.erase_subset _ _) hj
  · exact ⟨⟨[], rfl⟩, ⟨[], rfl⟩, rfl, Or.inl rfl, by simp [keys_hSet]⟩
  · exact ⟨⟨[], rfl⟩, ⟨[], rfl⟩, rfl, Or.inl rfl, by simp [keys_hSet]⟩

theorem dropStepFn_shape (ctx : Ctx) (it : DropStep) :
    (∃ l, (dropStepFn ctx it).1.destroyed = l ++ ctx.destroyed) ∧
    (∃ l, (dropStepFn ctx it).1.freed = l ++ ctx.freed) ∧
    (∃ l, (dropStepFn ctx it).1.danglingOps = l ++ ctx.danglingOps) ∧
    ((dropStepFn ctx it).1.registry = ctx.registry ∨
      ∃ t, (dropStepFn ctx it).1.registry = ctx.registry.erase t) ∧
    (∀ j, j ∈ keys (dropStepFn ctx it).1.heap → j ∈ keys ctx.heap) := by
  cases it with
  | weakDrop t =>
    simp only [dropStepFn]
    cases hl : hLookup ctx.heap t with
    | none => exact ⟨⟨[], rfl⟩, ⟨[], rfl⟩, ⟨[t], rfl⟩, Or.inl rfl, fun j hj => hj⟩
    | some hd =>
      simp only [hl]
      have h := checkRefAfter_shape ctx t {hd with count := hd.count - 1}
      exact ⟨h.1, h.2.1, ⟨[], h.2.2.1.symm ▸ rfl⟩,
        h.2.2.2.1.elim Or.inl (fun he => Or.inr ⟨t, he⟩), h.2.2.2.2⟩
  | strongDrop t =>
    simp only [dropStepFn]
    cases hl : hLookup ctx.heap t with
    | none => exact ⟨⟨[], rfl⟩, ⟨[], rfl⟩, ⟨[t], rfl⟩, Or.inl rfl, fun j hj => hj⟩
    | some hd =>
      simp only [hl]
      have h := checkRefAfter_shape ctx t {hd with root := hd.root - 1}
      exact ⟨h.1, h.2.1, ⟨[], h.2.2.1.symm ▸ rfl⟩,
        h.2.2.2.1.elim Or.inl (fun he => Or.inr ⟨t, he⟩), h.2.2.2.2⟩
  | removeStep t =>
    refine ⟨⟨[], rfl⟩, ⟨[t], rfl⟩, ⟨[], rfl⟩, Or.inr ⟨t, rfl⟩, ?_⟩
    intro j
    simp only [dropStepFn, keys_hErase]
    exact fun hj => (List.erase_subset _ _) hj

theorem runDrops_monotone (ctx : Ctx) (pend : List DropStep) :
    (∀ j, j ∈ ctx.destroyed → j ∈ (runDrops ctx pend).destroyed) ∧
    (∀ j, j ∈ ctx.freed → j ∈ (runDrops ctx pend).freed) ∧
    (∀ j, j ∉ keys ctx.heap → j ∉ keys (runDrops ctx pend).heap) ∧
    (∀ j, j ∉ ctx.registry → j ∉ (runDrops ctx pend).registry) := by
  have := runDrops_preserve
    (fun c _ => (∀ j, j ∈ ctx.destroyed → j ∈ c.destroyed) ∧
      (∀ j, j ∈ ctx.freed → j ∈ c.freed) ∧
      (∀ j, j ∉ keys ctx.heap → j ∉ keys c.heap) ∧
      (∀ j, j ∉ ctx.registry → j ∉ c.registry))
    (by
      intro c it rest h
      obtain ⟨hd1, hf1, ⟨l, hg1⟩, hr1, hk1⟩ := dropStepFn_shape c it
      obtain ⟨ld, hld⟩ := hd1
      obtain ⟨lf, hlf⟩ := hf1
      refine ⟨?_, ?_, ?_, ?_⟩
      · intro j hj
        rw [hld]
        exact List.mem_append_right _ (h.1 j hj)
      · intro j hj
        rw [hlf]
        exact List.mem_append_right _ (h.2.1 j hj)
      · intro j hj hmem
        exact h.2.2.1 j hj (hk1 j hmem)
      · intro j hj
        rcases hr1 with he | ⟨t, he⟩
        · rw [he]
          exact h.2.2.2 j hj
        · rw [he]
          intro hmem
          exact h.2.2.2 j hj ((List.erase_subset _ _) hmem))
    ctx pend ⟨fun _ h => h, fun _ h => h, fun _ h => h, fun _ h => h⟩
  exact this

/-- Targets of the weak handles in a payload: exactly the headers its trace
hook reports (`token.accept`, §C10). -/
def weakTargets : List GcField → List Nat
  | [] => []
  | .weak t :: fs => t :: weakTargets fs
  | .strong _ :: fs => weakTargets fs

@[simp] theorem weakTargets_nil : weakTargets [] = [] := rfl

@[simp] theorem weakTargets_weak (t : Nat) (fs : List GcField) :
    weakTargets (.weak t :: fs) = t :: weakTargets fs := rfl

@[simp] theorem weakTargets_strong (t : Nat) (fs : List GcField) :
    weakTargets (.strong t :: fs) = weakTargets fs := rfl

/-- Reachability as the sweep discovers it: a header with a positive root
count is reachable, and so is every weak-edge target of a reachable header
(spec §3.2). -/
inductive Reach (h : Heap) : Nat → Prop where
  | root (i : Nat) (hd : Header) : hLookup h i = some hd → hd.root ≠ 0 → Reach h i
  | step (a b : Nat) (hd : Header) :
      Reach h a → hLookup h a = some hd → b ∈ weakTargets hd.fields → Reach h b

/-! ## Branch characterisations of the eager check -/

theorem checkRefAfter_cases (c : Ctx) (t : Nat) (hd : Header) :
    (hd.state = .Active ∧ hd.root = 0 ∧ hd.count = 0 ∧
      checkRefAfter c t hd =
        ({c with heap := hSet c.heap t {hd with state := .Dropped, fields := []},
                 destroyed := t :: c.destroyed},
         fieldsToDrops hd.fields ++ [.removeStep t])) ∨
    (hd.state = .Active ∧ ¬(hd.root = 0 ∧ hd.count = 0) ∧
      checkRefAfter c t hd = ({c with heap := hSet c.heap t hd}, [])) ∨
    (hd.state = .Dropped ∧
      checkRefAfter c t hd =
        ({c with heap := hErase c.heap t, registry := c.registry.erase t,
                 freed := t :: c.freed}, [])) ∨
    ((hd.state = .Tracked ∨ hd.state = .Untracked) ∧
      checkRefAfter c t hd = ({c with heap := hSet c.heap t hd}, [])) := by
  unfold checkRefAfter
  cases hst : hd.state
  · by_cases hc : hd.root = 0 ∧ hd.count = 0
    · exact Or.inl ⟨rfl, hc.1, hc.2, by simp only [if_pos hc]⟩
    · exact Or.inr (Or.inl ⟨rfl, hc, by simp only [if_neg hc]⟩)
  · exact Or.inr (Or.inr (Or.inl ⟨rfl, rfl⟩))
  · exact Or.inr (Or.inr (Or.inr ⟨Or.inl rfl, rfl⟩))
  · exact Or.inr (Or.inr (Or.inr ⟨Or.inr rfl, rfl⟩))

theorem dropStepFn_cases (c : Ctx) (it : DropStep) :
    (∃ t, it = .removeStep t ∧
      dropStepFn c it = ({c with heap := hErase c.heap t,
                                 registry := c.registry.erase t,
                                 freed := t :: c.freed}, [])) ∨
    (∃ t, (it = .weakDrop t ∨ it = .strongDrop t) ∧ hLookup c.heap t = none ∧
      dropStepFn c it = ({c with danglingOps := t :: c.danglingOps}, [])) ∨
    (∃ t hdt, it = .weakDrop t ∧ hLookup c.heap t = some hdt ∧
      dropStepFn c it = checkRefAfter c t {hdt with count := hdt.count - 1}) ∨
    (∃ t hdt, it = .strongDrop t ∧ hLookup c.heap t = some hdt ∧
      dropStepFn c it = checkRefAfter c t {hdt with root := hdt.root - 1}) := by
  cases it with
  | weakDrop t =>
    cases hl : hLookup c.heap t with
    | none =>
      refine Or.inr (Or.inl ⟨t, Or.inl rfl, hl, ?_⟩)
      simp only [dropStepFn, hl]
    | some hd =>
      refine Or.inr (Or.inr (Or.inl ⟨t, hd, rfl, hl, ?_⟩))
      simp only [dropStepFn, hl]
  | strongDrop t =>
    cases hl : hLookup c.heap t with
    | none =>
      refine Or.inr (Or.inl ⟨t, Or.inr rfl, hl, ?_⟩)
      simp only [dropStepFn, hl]
    | some hd =>
      refine Or.inr (Or.inr (Or.inr ⟨t, hd, rfl, hl, ?_⟩))
      simp only [dropStepFn, hl]
  | removeStep t =>
    exact Or.inl ⟨t, rfl, rfl⟩

/-! ## Claim C2: the eager check on an `Active` header

Invariant carried through the destructor cascade once header `i` has been
eagerly destroyed: its destruction is logged, and either its storage is
already freed and it is unlinked, or its final free (`removeStep`) is still
pending while it sits in the heap in the transient `Dropped` state. -/

def EagerInv (i : Nat) (c : Ctx) (pend : List DropStep) : Prop :=
  i ∈ c.destroyed ∧ (keys c.heap).Nodup ∧ c.registry.Nodup ∧
  ((i ∉ keys c.heap ∧ i ∈ c.freed ∧ i ∉ c.registry) ∨
   (DropStep.removeStep i ∈ pend ∧
     ∃ hdc, hLookup c.heap i = some hdc ∧ hdc.state = .Dropped))

theorem eagerInv_checkRef (i t : Nat) (c : Ctx) (hdt hdt' : Header)
    (rest : List DropStep)
    (hsome : hLookup c.heap t = some hdt) (hstq : hdt'.state = hdt.state)
    (hdes : i ∈ c.destroyed) (hknd : (keys c.heap).Nodup) (hrnd : c.registry.Nodup)
    (hdisj : (i ∉ keys c.heap ∧ i ∈ c.freed ∧ i ∉ c.registry) ∨
      (DropStep.removeStep i ∈ rest ∧
        ∃ hdc, hLookup c.heap i = some hdc ∧ hdc.state = .Dropped)) :
    EagerInv i (checkRefAfter c t hdt').1 ((checkRefAfter c t hdt').2 ++ rest) := by
  rcases checkRefAfter_cases c t hdt' with
    ⟨hA, hr0, hc0, heq⟩ | ⟨hA, hnot, heq⟩ | ⟨hD, heq⟩ | ⟨hTU, heq⟩
  · -- eager destruction of t
    rw [heq]
    refine ⟨List.mem_cons_of_mem _ hdes, keys_nodup_hSet _ _ _ hknd, hrnd, ?_⟩
    rcases hdisj with ⟨hnk, hf, hnr⟩ | ⟨hmem, hdc, hlc, hdcs⟩
    · exact Or.inl ⟨by rwa [keys_hSet], hf, hnr⟩
    · by_cases hti : t = i
      · subst hti
        rw [hsome] at hlc
        cases hlc
        rw [hstq, hdcs] at hA
        cases hA
      · refine Or.inr ⟨?_, hdc, ?_, hdcs⟩
        · exact List.mem_append_right _ hmem
        · rw [hLookup_hSet_ne _ _ _ _ hti]
          exact hlc
  · -- counter still positive: only the decrement is stored
    rw [heq]
    refine ⟨hdes, keys_nodup_hSet _ _ _ hknd, hrnd, ?_⟩
    rcases hdisj with ⟨hnk, hf, hnr⟩ | ⟨hmem, hdc, hlc, hdcs⟩
    · exact Or.inl ⟨by rwa [keys_hSet], hf, hnr⟩
    · by_cases hti : t = i
      · subst hti
        rw [hsome] at hlc
        cases hlc
        rw [hstq, hdcs] at hA
        cases hA
      · refine Or.inr ⟨by simpa using hmem, hdc, ?_, hdcs⟩
        rw [hLookup_hSet_ne _ _ _ _ hti]
        exact hlc
  · -- `Dropped`: unlink and free t
    rw [heq]
    refine ⟨hdes, keys_nodup_hErase _ _ hknd, hrnd.erase t, ?_⟩
    rcases hdisj with ⟨hnk, hf, hnr⟩ | ⟨hmem, hdc, hlc, hdcs⟩
    · refine Or.inl ⟨?_, List.mem_cons_of_mem _ hf, ?_⟩
      · rw [keys_hErase]
        exact fun hm => hnk ((List.erase_subset _ _) hm)
      · exact fun hm => hnr ((List.erase_subset _ _) hm)
    · by_cases hti : t = i
      · subst hti
        refine Or.inl ⟨?_, List.mem_cons_self _ _, hrnd.not_mem_erase⟩
        rw [keys_hErase]
        exact hknd.not_mem_erase
      · refine Or.inr ⟨by simpa using hmem, hdc, ?_, hdcs⟩
        rw [hLookup_hErase_ne _ _ _ hti hknd]
        exact hlc
  · -- `Tracked` / `Untracked`: the sweep owns t, nothing happens
    rw [heq]
    refine ⟨hdes, keys_nodup_hSet _ _ _ hknd, hrnd, ?_⟩
    rcases hdisj with ⟨hnk, hf, hnr⟩ | ⟨hmem, hdc, hlc, hdcs⟩
    · exact Or.inl ⟨by rwa [keys_hSet], hf, hnr⟩
    · by_cases hti : t = i
      · subst hti
        rw [hsome] at hlc
        cases hlc
        rw [hstq, hdcs] at hTU
        rcases hTU with h | h <;> cases h
      · refine Or.inr ⟨by simpa using hmem, hdc, ?_, hdcs⟩
        rw [hLookup_hSet_ne _ _ _ _ hti]
        exact hlc

theorem eagerInv_step (i : Nat) (c : Ctx) (it : DropStep) (rest : List DropStep)
    (h : EagerInv i c (it :: rest)) :
    EagerInv i (dropStepFn c it).1 ((dropStepFn c it).2 ++ rest) := by
  obtain ⟨hdes, hknd, hrnd, hdisj⟩ := h
  have hdisj' : (i ∉ keys c.heap ∧ i ∈ c.freed ∧ i ∉ c.registry) ∨
      (DropStep.removeStep i ∈ rest ∧
        ∃ hdc, hLookup c.heap i = some hdc ∧ hdc.state = .Dropped) ∨
      (it = DropStep.removeStep i ∧
        ∃ hdc, hLookup c.heap i = some hdc ∧ hdc.state = .Dropped) := by
    rcases hdisj with h2 | ⟨hmem, hrest⟩
    · exact Or.inl h2
    · rcases List.mem_cons.mp hmem with he | hm
      · exact Or.inr (Or.inr ⟨he.symm, hrest⟩)
      · exact Or.inr (Or.inl ⟨hm, hrest⟩)
  rcases dropStepFn_cases c it with
    ⟨t, hit, heq⟩ | ⟨t, hit, hnone, heq⟩ | ⟨t, hdt, hit, hsome, heq⟩ | ⟨t, hdt, hit, hsome, heq⟩
  · -- removeStep t
    rw [heq]
    refine ⟨hdes, keys_nodup_hErase _ _ hknd, hrnd.erase t, ?_⟩
    rcases hdisj' with ⟨hnk, hf, hnr⟩ | ⟨hmem, hdc, hlc, hdcs⟩ | ⟨hself, hdc, hlc, hdcs⟩
    · refine Or.inl ⟨?_, List.mem_cons_of_mem _ hf, ?_⟩
      · rw [keys_hErase]
        exact fun hm => hnk ((List.erase_subset _ _) hm)
      · exact fun hm => hnr ((List.erase_subset _ _) hm)
    · by_cases hti : t = i
      · subst hti
        refine Or.inl ⟨?_, List.mem_cons_self _ _, hrnd.not_mem_erase⟩
        rw [keys_hErase]
        exact hknd.not_mem_erase
      · refine Or.inr ⟨by simpa using hmem, hdc, ?_, hdcs⟩
        rw [hLookup_hErase_ne _ _ _ hti hknd]
        exact hlc
    · -- the head was removeStep i itself
      have hti : t = i := by
        have := hit
        rw [hself] at this
        cases this
        rfl
      subst hti
      refine Or.inl ⟨?_, List.mem_cons_self _ _, hrnd.not_mem_erase⟩
      rw [keys_hErase]
      exact hknd.not_mem_erase
  · -- dangling drop: the model records it and does nothing
    rw [heq]
    refine ⟨hdes, hknd, hrnd, ?_⟩
    rcases hdisj' with h2 | ⟨hmem, hrest⟩ | ⟨hself, hrest⟩
    · exact Or.inl h2
    · exact Or.inr ⟨by simpa using hmem, hrest⟩
    · rcases hit with he | he <;> (rw [hself] at he; cases he)
  · -- weak drop with live target
    rw [heq]
    have hrest2 : (i ∉ keys c.heap ∧ i ∈ c.freed ∧ i ∉ c.registry) ∨
        (DropStep.removeStep i ∈ rest ∧
          ∃ hdc, hLookup c.heap i = some hdc ∧ hdc.state = .Dropped) := by
      rcases hdisj' with h2 | h2 | ⟨hself, _⟩
      · exact Or.inl h2
      · exact Or.inr h2
      · rw [hself] at hit
        cases hit
    exact eagerInv_checkRef i t c hdt _ rest hsome rfl hdes hknd hrnd hrest2
  · -- strong drop with live target
    rw [heq]
    have hrest2 : (i ∉ keys c.heap ∧ i ∈ c.freed ∧ i ∉ c.registry) ∨
        (DropStep.removeStep i ∈ rest ∧
          ∃ hdc, hLookup c.heap i = some hdc ∧ hdc.state = .Dropped) := by
      rcases hdisj' with h2 | h2 | ⟨hself, _⟩
      · exact Or.inl h2
      · exact Or.inr h2
      · rw [hself] at hit
        cases hit
    exact eagerInv_checkRef i t c hdt _ rest hsome rfl hdes hknd hrnd hrest2

theorem eagerInv_runDrops (i : Nat) (c : Ctx) (pend : List DropStep)
    (h : EagerInv i c pend) : EagerInv i (runDrops c pend) [] :=
  runDrops_preserve (EagerInv i) (fun c it rest h => eagerInv_step i c it rest h) c pend h

/-- C2: a handle release (weak or strong drop) on a header `H` in state
`Active` (lib.rs:84-97 via lib.rs:242-250 / 385-393).  Writing `root'` and
`count'` for the counters after the decrement:
if `root' = 0` and `count' = 0`, then before the release returns the header
is put into the `Dropped` state, its payload destructor runs (`destroyed`),
it is unlinked from the registry, and its storage is freed (`freed`, gone
from the heap); if `root' = 0` but `count' > 0` — or `root' > 0` — nothing
happens beyond storing the decremented counter: the header stays `Active`
with its payload intact and no destructor runs. -/
theorem eager_check_on_active_release (ctx : Ctx) (i : Nat) (hd : Header)
    (hl : hLookup ctx.heap i = some hd) (hst : hd.state = .Active)
    (hknd : (keys ctx.heap).Nodup) (hrnd : ctx.registry.Nodup) :
    ((hd.root = 0 ∧ hd.count - 1 = 0 →
        hLookup (dropStepFn ctx (.weakDrop i)).1.heap i =
          some { state := .Dropped, root := hd.root, count := hd.count - 1, fields := [] } ∧
        i ∈ (dropWeakHandle ctx i).destroyed ∧ i ∈ (dropWeakHandle ctx i).freed ∧
        i ∉ keys (dropWeakHandle ctx i).heap ∧ i ∉ (dropWeakHandle ctx i).registry) ∧
     (¬(hd.root = 0 ∧ hd.count - 1 = 0) →
        dropWeakHandle ctx i =
          {ctx with heap := hSet ctx.heap i {hd with count := hd.count - 1}})) ∧
    ((hd.root - 1 = 0 ∧ hd.count = 0 →
        hLookup (dropStepFn ctx (.strongDrop i)).1.heap i =
          some { state := .Dropped, root := hd.root - 1, count := hd.count, fields := [] } ∧
        i ∈ (dropRootHandle ctx i).destroyed ∧ i ∈ (dropRootHandle ctx i).freed ∧
        i ∉ keys (dropRootHandle ctx i).heap ∧ i ∉ (dropRootHandle ctx i).registry) ∧
     (¬(hd.root - 1 = 0 ∧ hd.count = 0) →
        dropRootHandle ctx i =
          {ctx with heap := hSet ctx.heap i {hd with root := hd.root - 1}})) := by
  have hsome : (hLookup ctx.heap i).isSome := by rw [hl]; rfl
  constructor
  · constructor
    · intro hzero
      have hstep : dropStepFn ctx (.weakDrop i) = ({ctx with heap := hSet ctx.heap i { state := .Dropped, root := hd.root, count := hd.count - 1, fields := [] }, destroyed := i :: ctx.destroyed}, fieldsToDrops hd.fields ++ [.removeStep i]) := by
        simp only [dropStepFn, hl]
        unfold checkRefAfter
        simp only [hst, hzero.1, hzero.2, and_self, if_pos]
      constructor
      · rw [hstep]
        exact hLookup_hSet_self _ _ _ hsome
      · have hInit : EagerInv i (dropStepFn ctx (.weakDrop i)).1
            ((dropStepFn ctx (.weakDrop i)).2 ++ []) := by
          rw [hstep]
          refine ⟨List.mem_cons_self _ _, keys_nodup_hSet _ _ _ hknd, hrnd, Or.inr ⟨?_, ?_⟩⟩
          · simp
          · exact ⟨_, hLookup_hSet_self _ _ _ hsome, rfl⟩
        have hFin := eagerInv_runDrops i _ _ hInit
        rw [show dropWeakHandle ctx i =
            runDrops (dropStepFn ctx (.weakDrop i)).1 ((dropStepFn ctx (.weakDrop i)).2 ++ [])
          from runDrops_cons ctx _ []]
        obtain ⟨hdes, _, _, hdisj⟩ := hFin
        rcases hdisj with ⟨hnk, hf, hnr⟩ | ⟨hmem, _⟩
        · exact ⟨hdes, hf, hnk, hnr⟩
        · simp at hmem
    · intro hpos
      unfold dropWeakHandle
      rw [runDrops_cons]
      have hstep : dropStepFn ctx (.weakDrop i) =
          ({ctx with heap := hSet ctx.heap i {hd with count := hd.count - 1}}, []) := by
        simp only [dropStepFn, hl]
        unfold checkRefAfter
        simp only [hst]
        rw [if_neg (by simpa using hpos)]
      rw [hstep]
      simp
  · constructor
    · intro hzero
      have hstep : dropStepFn ctx (.strongDrop i) = ({ctx with heap := hSet ctx.heap i { state := .Dropped, root := hd.root - 1, count := hd.count, fields := [] }, destroyed := i :: ctx.destroyed}, fieldsToDrops hd.fields ++ [.removeStep i]) := by
        simp only [dropStepFn, hl]
        unfold checkRefAfter
        simp only [hst, hzero.1, hzero.2, and_self, if_pos]
      constructor
      · rw [hstep]
        exact hLookup_hSet_self _ _ _ hsome
      · have hInit : EagerInv i (dropStepFn ctx (.strongDrop i)).1
            ((dropStepFn ctx (.strongDrop i)).2 ++ []) := by
          rw [hstep]
          refine ⟨List.mem_cons_self _ _, keys_nodup_hSet _ _ _ hknd, hrnd, Or.inr ⟨?_, ?_⟩⟩
          · simp
          · exact ⟨_, hLookup_hSet_self _ _ _ hsome, rfl⟩
        have hFin := eagerInv_runDrops i _ _ hInit
        rw [show dropRootHandle ctx i =
            runDrops (dropStepFn ctx (.strongDrop i)).1 ((dropStepFn ctx (.strongDrop i)).2 ++ [])
          from runDrops_cons ctx _ []]
        obtain ⟨hdes, _, _, hdisj⟩ := hFin
        rcases hdisj with ⟨hnk, hf, hnr⟩ | ⟨hmem, _⟩
        · exact ⟨hdes, hf, hnk, hnr⟩
        · simp at hmem
    · intro hpos
      unfold dropRootHandle
      rw [runDrops_cons]
      have hstep : dropStepFn ctx (.strongDrop i) =
          ({ctx with heap := hSet ctx.heap i {hd with root := hd.root - 1}}, []) := by
        simp only [dropStepFn, hl]
        unfold checkRefAfter
        simp only [hst]
        rw [if_neg (by simpa using hpos)]
      rw [hstep]
      simp

/-- C2 witness input: two live headers, header 5 `Active` with one strong
holder and one weak holder, header 7 `Active` with the last strong holder
about to be released. -/
def ctxC2 : Ctx :=
  { heap := [(5, { state := .Active, root := 1, count := 1, fields := [] }),
             (7, { state := .Active, root := 1, count := 0, fields := [] })],
    registry := [5, 7], ctxState := .Normal, autoGc := 0, allocCount := 0,
    nextId := 8, destroyed := [], freed := [], danglingOps := [], gcCount := 0 }

theorem eager_check_on_active_release_witness :
    hLookup (dropStepFn ctxC2 (.strongDrop 7)).1.heap 7 =
      some { state := .Dropped, root := 1 - 1, count := 0, fields := [] } ∧
    7 ∈ (dropRootHandle ctxC2 7).destroyed ∧ 7 ∈ (dropRootHandle ctxC2 7).freed ∧
    7 ∉ keys (dropRootHandle ctxC2 7).heap ∧ 7 ∉ (dropRootHandle ctxC2 7).registry :=
  ((eager_check_on_active_release ctxC2 7
    { state := .Active, root := 1, count := 0, fields := [] }
    (by decide) rfl (by decide) (by decide)).2).1 (by decide)

/-! ## Claim C8: re-entrant `gc()` is a no-op -/

/-- C8: calling `gc()` while the context state is already `InSweep` (`Gc`)
returns immediately as a no-op: the resulting context is exactly the input
context, so no header state, counter, registry link, or context field is
modified (lib.rs:614, 695-696). -/
theorem gc_reentrant_noop (ctx : Ctx) (h : ctx.ctxState = .Gc) : gcRun ctx = ctx := by
  unfold gcRun
  rw [h]

def ctxInSweepW : Ctx :=
  { heap := [(0, { state := .Tracked, root := 1, count := 0, fields := [] })],
    registry := [], ctxState := .Gc, autoGc := 0, allocCount := 0,
    nextId := 1, destroyed := [], freed := [], danglingOps := [], gcCount := 1 }

theorem gc_reentrant_noop_witness : gcRun ctxInSweepW = ctxInSweepW :=
  gc_reentrant_noop ctxInSweepW rfl

/-! ## Claim C9: `token.accept` behaviour -/

/-- C9: for `token.accept(w)` during a sweep with `H` the header targeted by
`w` (lib.rs:471-481): if `H.state = Untracked` then `H.state` is set to
`Tracked` and `H` is prepended to the work list (its `next` field becomes the
old list head); in every other state the call changes neither the heap nor
the work list. -/
theorem accept_box_spec (h : Heap) (tok : List Nat) (t : Nat) (hd : Header)
    (hl : hLookup h t = some hd) :
    (hd.state = .Untracked →
      acceptStep h tok t = (hSet h t {hd with state := .Tracked}, t :: tok)) ∧
    (hd.state ≠ .Untracked → acceptStep h tok t = (h, tok)) := by
  constructor
  · intro hst
    unfold acceptStep
    rw [hl]
    simp only [hst]
  · intro hst
    unfold acceptStep
    rw [hl]
    cases hc : hd.state
    · simp only [hc]
    · simp only [hc]
    · simp only [hc]
    · exact absurd hc hst

theorem accept_box_spec_witness :
    acceptStep [(0, { state := .Untracked, root := 0, count := 1, fields := [] })] [] 0 =
      (hSet [(0, { state := .Untracked, root := 0, count := 1, fields := [] })] 0
        { state := .Tracked, root := 0, count := 1, fields := [] }, [0]) :=
  (accept_box_spec [(0, { state := .Untracked, root := 0, count := 1, fields := [] })] [] 0
    { state := .Untracked, root := 0, count := 1, fields := [] } rfl).1 rfl

/-! ## Claim C10: the strong handles' trace is a no-op -/

/-- C10: the trace implementation of the strong handle types (`GcRoot` and
`GcRootThin`, lib.rs:295-299 and 218-222) is a no-op: it reports nothing to
the trace token, and consequently tracing any payload is the same as tracing
only its weak handles — the strong handles stored in a payload contribute
nothing to the marking work list, so a header can be marked via tracing only
through a weak edge (or by starting `Tracked` because its own `root_count`
is positive). -/
theorem root_trace_reports_nothing :
    (∀ (h : Heap) (tok : List Nat) (t : Nat), rootTraceFn h tok t = (h, tok)) ∧
    (∀ (h : Heap) (tok : List Nat) (fs : List GcField),
      traceFields h tok fs = traceFields h tok (fs.filter isWeakField)) := by
  constructor
  · intro h tok t
    rfl
  · intro h tok fs
    induction fs generalizing h tok with
    | nil => rfl
    | cons f fs ih =>
      cases f with
      | weak t =>
        rw [traceFields, List.filter_cons_of_pos (by rfl), traceFields]
        exact ih _ _
      | strong t =>
        rw [traceFields, List.filter_cons_of_neg (by simp [isWeakField])]
        exact ih _ _

/-! ## Keys, frame and log bounds for the sweep phases -/

theorem acceptStep_keys (h : Heap) (tok : List Nat) (t : Nat) :
    keys (acceptStep h tok t).1 = keys h := by
  unfold acceptStep
  cases hl : hLookup h t with
  | none => rfl
  | some hd =>
    simp only [hl]
    cases hst : hd.state
    · simp only [hst]
    · simp only [hst]
    · simp only [hst]
    · simp only [hst, keys_hSet]

theorem traceFields_keys (fs : List GcField) (h : Heap) (tok : List Nat) :
    keys (traceFields h tok fs).1 = keys h := by
  induction fs generalizing h tok with
  | nil => rfl
  | cons f fs ih =>
    cases f with
    | weak t =>
      rw [traceFields]
      rw [ih]
      exact acceptStep_keys _ _ _
    | strong t =>
      rw [traceFields]
      exact ih _ _

theorem traceNode_keys (h : Heap) (tok : List Nat) (n : Nat) :
    keys (traceNode h tok n).1 = keys h := by
  unfold traceNode
  cases hl : hLookup h n with
  | none => rfl
  | some hd => exact traceFields_keys _ _ _

/-- Generic invariant-preservation principle for the trace closure. -/
theorem closure_preserve (Inv : Heap → Prop)
    (hstep : ∀ h tok n, Inv h → Inv (traceNode h tok n).1) :
    ∀ (h : Heap) (tok : List Nat), Inv h → Inv (closure h tok) := by
  intro h tok
  generalize hm : untrackedCount h + tok.length = m
  induction m using Nat.strong_induction_on generalizing h tok with
  | _ m ih =>
    cases tok with
    | nil =>
      intro hi
      simpa using hi
    | cons n rest =>
      intro hi
      rw [closure_cons]
      refine ih _ ?_ _ _ rfl (hstep h rest n hi)
      subst hm
      have := traceNode_measure h rest n
      simp only [List.length_cons]
      omega

theorem closure_keys (h : Heap) (tok : List Nat) : keys (closure h tok) = keys h := by
  have := closure_preserve (fun h2 => keys h2 = keys h)
    (fun h2 tok n hi => by
      show keys (traceNode h2 tok n).1 = keys h
      rw [traceNode_keys]
      exact hi) h tok rfl
  exact this

theorem markPhase_keys (iter : List Nat) (h : Heap) (tok : List Nat) :
    keys (markPhase h tok iter).1 = keys h := by
  induction iter generalizing h tok with
  | nil => rfl
  | cons i rest ih =>
    rw [markPhase]
    cases hl : hLookup h i with
    | none => exact ih _ _
    | some hd =>
      simp only [hl]
      split
      · rw [ih, keys_hSet]
      · rw [ih, keys_hSet]

theorem sweepWalk_frame (iter : List Nat) (c : Ctx) :
    (sweepWalk c iter).ctxState = c.ctxState ∧
    (sweepWalk c iter).autoGc = c.autoGc ∧
    (sweepWalk c iter).allocCount = c.allocCount ∧
    (sweepWalk c iter).nextId = c.nextId ∧
    (sweepWalk c iter).gcCount = c.gcCount := by
  induction iter generalizing c with
  | nil => exact ⟨rfl, rfl, rfl, rfl, rfl⟩
  | cons i rest ih =>
    rw [sweepWalk]
    cases hl : hLookup c.heap i with
    | none =>
      simp only [hl]
      exact ih c
    | some hd =>
      simp only [hl]
      cases hst : hd.state
      · simp only [hst]
        exact ih c
      · simp only [hst]
        exact ih c
      · simp only [hst]
        exact ih _
      · simp only [hst]
        have hr := runDrops_frame {c with heap := hSet c.heap i { state := GcState.Untracked, root := hd.root, count := hd.count, fields := [] }, destroyed := i :: c.destroyed} (fieldsToDrops hd.fields ++ [.removeStep i])
        have hw := ih (runDrops {c with heap := hSet c.heap i { state := GcState.Untracked, root := hd.root, count := hd.count, fields := [] }, destroyed := i :: c.destroyed} (fieldsToDrops hd.fields ++ [.removeStep i]))
        exact ⟨hw.1.trans hr.1, hw.2.1.trans hr.2.1, hw.2.2.1.trans hr.2.2.1,
          hw.2.2.2.1.trans hr.2.2.2.1, hw.2.2.2.2.trans hr.2.2.2.2⟩

theorem gcRun_shape (ctx : Ctx) (h : ctx.ctxState = .Normal) :
    ∃ c : Ctx, gcRun ctx = {c with ctxState := .Normal} ∧
      c.gcCount = ctx.gcCount + 1 ∧ c.autoGc = ctx.autoGc ∧
      c.allocCount = ctx.allocCount ∧ c.nextId = ctx.nextId := by
  unfold gcRun
  rw [h]
  simp only
  split
  · exact ⟨{ctx with ctxState := .Gc, gcCount := ctx.gcCount + 1}, rfl, rfl, rfl, rfl, rfl⟩
  · refine ⟨_, rfl, ?_, ?_, ?_, ?_⟩
    · exact (sweepWalk_frame _ _).2.2.2.2
    · exact (sweepWalk_frame _ _).2.1
    · exact (sweepWalk_frame _ _).2.2.1
    · exact (sweepWalk_frame _ _).2.2.2.1

theorem gcRun_frame (ctx : Ctx) (h : ctx.ctxState = .Normal) :
    (gcRun ctx).gcCount = ctx.gcCount + 1 ∧
    (gcRun ctx).ctxState = .Normal ∧
    (gcRun ctx).autoGc = ctx.autoGc ∧
    (gcRun ctx).allocCount = ctx.allocCount ∧
    (gcRun ctx).nextId = ctx.nextId := by
  obtain ⟨c, he, h1, h2, h3, h4⟩ := gcRun_shape ctx h
  rw [he]
  exact ⟨h1, rfl, h2, h3, h4⟩

theorem dropStepFn_destroyed_bound (c : Ctx) (it : DropStep) :
    ∀ j, j ∈ (dropStepFn c it).1.destroyed → j ∈ c.destroyed ∨ j ∈ keys c.heap := by
  rcases dropStepFn_cases c it with
    ⟨t, hit, heq⟩ | ⟨t, hit, hnone, heq⟩ | ⟨t, hdt, hit, hsome, heq⟩ | ⟨t, hdt, hit, hsome, heq⟩
  · rw [heq]
    exact fun j hj => Or.inl hj
  · rw [heq]
    exact fun j hj => Or.inl hj
  · rw [heq]
    rcases checkRefAfter_cases c t {hdt with count := hdt.count - 1} with
      ⟨_, _, _, heq2⟩ | ⟨_, _, heq2⟩ | ⟨_, heq2⟩ | ⟨_, heq2⟩ <;> rw [heq2] <;> intro j hj
    · rcases List.mem_cons.mp hj with rfl | hj
      · exact Or.inr (mem_keys_of_hLookup _ _ _ hsome)
      · exact Or.inl hj
    · exact Or.inl hj
    · exact Or.inl hj
    · exact Or.inl hj
  · rw [heq]
    rcases checkRefAfter_cases c t {hdt with root := hdt.root - 1} with
      ⟨_, _, _, heq2⟩ | ⟨_, _, heq2⟩ | ⟨_, heq2⟩ | ⟨_, heq2⟩ <;> rw [heq2] <;> intro j hj
    · rcases List.mem_cons.mp hj with rfl | hj
      · exact Or.inr (mem_keys_of_hLookup _ _ _ hsome)
      · exact Or.inl hj
    · exact Or.inl hj
    · exact Or.inl hj
    · exact Or.inl hj

theorem runDrops_bound (c0 : Ctx) (pend : List DropStep) :
    (∀ j, j ∈ keys (runDrops c0 pend).heap → j ∈ keys c0.heap) ∧
    (∀ j, j ∈ (runDrops c0 pend).destroyed → j ∈ c0.destroyed ∨ j ∈ keys c0.heap) := by
  have := runDrops_preserve
    (fun c _ => (∀ j, j ∈ keys c.heap → j ∈ keys c0.heap) ∧
      (∀ j, j ∈ c.destroyed → j ∈ c0.destroyed ∨ j ∈ keys c0.heap))
    (by
      intro c it rest h
      constructor
      · intro j hj
        exact h.1 j ((dropStepFn_shape c it).2.2.2.2 j hj)
      · intro j hj
        rcases dropStepFn_destroyed_bound c it j hj with hj2 | hj2
        · exact h.2 j hj2
        · exact Or.inr (h.1 j hj2))
    c0 pend ⟨fun _ h => h, fun _ h => Or.inl h⟩
  exact this

theorem sweepWalk_bound (iter : List Nat) (c0 : Ctx) :
    (∀ j, j ∈ keys (sweepWalk c0 iter).heap → j ∈ keys c0.heap) ∧
    (∀ j, j ∈ (sweepWalk c0 iter).destroyed → j ∈ c0.destroyed ∨ j ∈ keys c0.heap) := by
  induction iter generalizing c0 with
  | nil => exact ⟨fun _ h => h, fun _ h => Or.inl h⟩
  | cons i rest ih =>
    rw [sweepWalk]
    cases hl : hLookup c0.heap i with
    | none =>
      simp only [hl]
      exact ih c0
    | some hd =>
      simp only [hl]
      cases hst : hd.state
      · simp only [hst]
        exact ih c0
      · simp only [hst]
        exact ih c0
      · simp only [hst]
        have hw := ih {c0 with heap := hSet c0.heap i { state := GcState.Active, root := hd.root, count := hd.count, fields := hd.fields }, registry := i :: c0.registry}
        constructor
        · intro j hj
          have := hw.1 j hj
          rwa [show keys (hSet c0.heap i { state := GcState.Active, root := hd.root, count := hd.count, fields := hd.fields }) = keys c0.heap from keys_hSet _ _ _] at this
        · intro j hj
          rcases hw.2 j hj with hj2 | hj2
          · exact Or.inl hj2
          · right
            rwa [show keys (hSet c0.heap i { state := GcState.Active, root := hd.root, count := hd.count, fields := hd.fields }) = keys c0.heap from keys_hSet _ _ _] at hj2
      · simp only [hst]
        have hc1 : keys ({c0 with heap := hSet c0.heap i { state := GcState.Untracked, root := hd.root, count := hd.count, fields := [] }, destroyed := i :: c0.destroyed} : Ctx).heap = keys c0.heap := keys_hSet _ _ _
        have hrb := runDrops_bound {c0 with heap := hSet c0.heap i { state := GcState.Untracked, root := hd.root, count := hd.count, fields := [] }, destroyed := i :: c0.destroyed} (fieldsToDrops hd.fields ++ [.removeStep i])
        have hw := ih (runDrops {c0 with heap := hSet c0.heap i { state := GcState.Untracked, root := hd.root, count := hd.count, fields := [] }, destroyed := i :: c0.destroyed} (fieldsToDrops hd.fields ++ [.removeStep i]))
        constructor
        · intro j hj
          have h2 := hrb.1 j (hw.1 j hj)
          rwa [hc1] at h2
        · intro j hj
          rcases hw.2 j hj with hj2 | hj2
          · rcases hrb.2 j hj2 with hj3 | hj3
            · rcases List.mem_cons.mp hj3 with rfl | hj4
              · exact Or.inr (mem_keys_of_hLookup _ _ _ hl)
              · exact Or.inl hj4
            · right
              rwa [hc1] at hj3
          · right
            have := hrb.1 j hj2
            rwa [hc1] at this

theorem gcRun_bound (ctx : Ctx) :
    (∀ j, j ∈ keys (gcRun ctx).heap → j ∈ keys ctx.heap) ∧
    (∀ j, j ∈ (gcRun ctx).destroyed → j ∈ ctx.destroyed ∨ j ∈ keys ctx.heap) := by
  unfold gcRun
  cases hs : ctx.ctxState
  · simp only
    split
    · exact ⟨fun _ h => h, fun _ h => Or.inl h⟩
    · have hw := sweepWalk_bound (ctx.registry.reverse)
        {ctx with ctxState := .Gc, gcCount := ctx.gcCount + 1, registry := [],
                  heap := closure (markPhase ctx.heap [] ctx.registry.reverse).1
                    (markPhase ctx.heap [] ctx.registry.reverse).2}
      have hk : keys (closure (markPhase ctx.heap [] ctx.registry.reverse).1
          (markPhase ctx.heap [] ctx.registry.reverse).2) = keys ctx.heap := by
        rw [closure_keys, markPhase_keys]
      constructor
      · intro j hj
        have := hw.1 j hj
        rwa [hk] at this
      · intro j hj
        rcases hw.2 j hj with hj2 | hj2
        · exact Or.inl hj2
        · right
          rwa [hk] at hj2
  · exact ⟨fun _ h => h, fun _ h => Or.inl h⟩

theorem hLookup_append_fresh (h : Heap) (i : Nat) (hd : Header) (hn : i ∉ keys h) :
    hLookup (h ++ [(i, hd)]) i = some hd := by
  induction h with
  | nil => simp
  | cons e rest ih =>
    obtain ⟨j, hdj⟩ := e
    simp only [keys_cons, List.mem_cons] at hn
    rw [List.cons_append, hLookup_cons, if_neg (by tauto)]
    exact ih (by tauto)

/-! ## Claim C7: auto-GC cadence -/

/-- C7: `set_auto_gc` (lib.rs:574-577) stores the threshold and resets the
internal allocation counter; with the threshold `N = 0`, `alloc`
(lib.rs:579-589) never sweeps and does not even count; with `N > 0` and the
incremented counter short of `N`, the allocation only counts; when the
incremented counter reaches `N` (and the context is not already sweeping),
the counter is reset, a sweep runs (`gcCount` increments — the source's
"auto gc"/"begin gc" path), and only then is the fresh header inserted, so
the new object is never visited by that sweep: it is present afterwards as
`newHeader fs` and its destructor has not run. -/
theorem auto_gc_cadence (ctx : Ctx) (fs : List GcField) (n : Nat) :
    (setAutoGc ctx n = {ctx with autoGc := n, allocCount := 0}) ∧
    (ctx.autoGc = 0 →
      allocObj ctx fs =
        ({ctx with heap := ctx.heap ++ [(ctx.nextId, newHeader fs)],
                   registry := ctx.registry ++ [ctx.nextId],
                   nextId := ctx.nextId + 1}, ctx.nextId)) ∧
    (ctx.autoGc ≠ 0 → ctx.allocCount + 1 ≠ ctx.autoGc →
      allocObj ctx fs =
        ({ctx with allocCount := ctx.allocCount + 1,
                   heap := ctx.heap ++ [(ctx.nextId, newHeader fs)],
                   registry := ctx.registry ++ [ctx.nextId],
                   nextId := ctx.nextId + 1}, ctx.nextId)) ∧
    (ctx.autoGc ≠ 0 → ctx.allocCount + 1 = ctx.autoGc → ctx.ctxState = .Normal →
      ctx.nextId ∉ keys ctx.heap → ctx.nextId ∉ ctx.destroyed →
      (allocObj ctx fs).1.gcCount = ctx.gcCount + 1 ∧
      (allocObj ctx fs).1.allocCount = 0 ∧
      (allocObj ctx fs).2 = ctx.nextId ∧
      ctx.nextId ∉ (allocObj ctx fs).1.destroyed ∧
      hLookup (allocObj ctx fs).1.heap ctx.nextId = some (newHeader fs)) := by
  refine ⟨rfl, ?_, ?_, ?_⟩
  · intro h0
    unfold allocObj
    simp [h0]
  · intro hn0 hne
    unfold allocObj
    simp [hn0, hne]
  · intro hn0 heq hnorm hfresh hdes
    have hgc := gcRun_frame {ctx with allocCount := 0} hnorm
    have hb := gcRun_bound {ctx with allocCount := 0}
    have halloc : allocObj ctx fs =
        (let c1 := gcRun {ctx with allocCount := 0}
         ({c1 with heap := c1.heap ++ [(c1.nextId, newHeader fs)],
                   registry := c1.registry ++ [c1.nextId],
                   nextId := c1.nextId + 1}, c1.nextId)) := by
      unfold allocObj
      simp [hn0, heq]
    rw [halloc]
    simp only
    refine ⟨?_, ?_, ?_, ?_, ?_⟩
    · exact hgc.1
    · exact hgc.2.2.2.1
    · exact hgc.2.2.2.2
    · intro hmem
      rcases hb.2 ctx.nextId hmem with hj | hj
      · exact hdes hj
      · exact hfresh hj
    · rw [hgc.2.2.2.2]
      refine hLookup_append_fresh _ _ _ ?_
      intro hmem
      exact hfresh (hb.1 ctx.nextId hmem)

def ctxC7 : Ctx :=
  { heap := [], registry := [], ctxState := .Normal, autoGc := 3, allocCount := 2,
    nextId := 4, destroyed := [], freed := [], danglingOps := [], gcCount := 0 }

theorem auto_gc_cadence_witness :
    (allocObj ctxC7 []).1.gcCount = ctxC7.gcCount + 1 ∧
    (allocObj ctxC7 []).1.allocCount = 0 ∧
    (allocObj ctxC7 []).2 = ctxC7.nextId ∧
    ctxC7.nextId ∉ (allocObj ctxC7 []).1.destroyed ∧
    hLookup (allocObj ctxC7 []).1.heap ctxC7.nextId = some (newHeader []) :=
  (auto_gc_cadence ctxC7 [] 3).2.2.2 (by decide) (by decide) rfl (by decide) (by decide)

/-! ## Claim C1: upgrade after destruction

The source sweep frees an `Untracked` victim's header storage without
consulting its weak count (lib.rs:673-679).  A weak handle held across the
`gc()` call then points at freed storage, and a later `upgrade` reads the
`state` field of freed memory (lib.rs:406-412) — it cannot "safely return
none".  `ctxC1` is the reachable state after `alloc`, `downgrade`, and
dropping the strong handle: one header, `root = 0`, `weak_count = 1` for the
still-live external weak handle. -/

def ctxC1 : Ctx :=
  { heap := [(0, { state := .Active, root := 0, count := 1, fields := [] })],
    registry := [0], ctxState := .Normal, autoGc := 0, allocCount := 0,
    nextId := 1, destroyed := [], freed := [], danglingOps := [], gcCount := 0 }

/-- C1: at `ctxC1` the sweep destroys the payload (correct) but also frees
the header storage while `weak_count = 1`, i.e. while a weak handle to it is
still outstanding.  The subsequent `upgrade` on that weak handle therefore
dereferences freed memory — the model can produce no result from live
storage (`upgradeFn … = none` by missing header), instead of the safe
`None`-returning read the claim describes. -/
theorem sweep_frees_header_with_outstanding_weak :
    hLookup ctxC1.heap 0 = some { state := .Active, root := 0, count := 1, fields := [] } ∧
    (gcRun ctxC1).destroyed = [0] ∧
    (gcRun ctxC1).freed = [0] ∧
    hLookup (gcRun ctxC1).heap 0 = none ∧
    upgradeFn (gcRun ctxC1) 0 = none := by
  refine ⟨rfl, ?_, ?_, ?_, ?_⟩ <;>
    simp [gcRun, ctxC1, markPhase, sweepWalk, closure_cons, traceNode, traceFields,
      runDrops_cons, dropStepFn, checkRefAfter, upgradeFn]

/-! ## Claim C4: a weak cycle is reclaimed, but through a use-after-free

`ctxC4` is the state reached by allocating two objects that hold weak
handles to each other and dropping both external strong handles: a pure
weak two-cycle, unreachable from any root. -/

def ctxC4 : Ctx :=
  { heap := [(0, { state := .Active, root := 0, count := 1, fields := [GcField.weak 1] }),
             (1, { state := .Active, root := 0, count := 1, fields := [GcField.weak 0] })],
    registry := [0, 1], ctxState := .Normal, autoGc := 0, allocCount := 0,
    nextId := 2, destroyed := [], freed := [], danglingOps := [], gcCount := 0 }

/-- C4: a single `gc()` does destroy both members of the weak two-cycle and
free both headers, but while destroying the second member (header 0) its
payload drops the weak handle to header 1, whose storage was already freed
earlier in the same walk — the source decrements a counter in freed memory
(`danglingOps = [1]` records the access the model refused to perform). -/
theorem sweep_weak_cycle_use_after_free :
    (gcRun ctxC4).destroyed = [0, 1] ∧
    (gcRun ctxC4).freed = [0, 1] ∧
    (gcRun ctxC4).heap = [] ∧
    (gcRun ctxC4).danglingOps = [1] := by
  refine ⟨?_, ?_, ?_, ?_⟩ <;>
    simp [gcRun, ctxC4, markPhase, sweepWalk, closure_cons, traceNode, traceFields,
      runDrops_cons, dropStepFn, checkRefAfter]

/-! ## Claim C3: eager check on a `Dropped` header

`check_ref`'s `Dropped` arm is `GcState::Dropped => Self::remove(this)`
(lib.rs:94): it unlinks and frees unconditionally, without examining either
counter. -/

def ctxC3 : Ctx :=
  { heap := [(1, { state := .Dropped, root := 0, count := 2, fields := [] })],
    registry := [1], ctxState := .Normal, autoGc := 0, allocCount := 0,
    nextId := 2, destroyed := [1], freed := [], danglingOps := [], gcCount := 0 }

/-- C3 counterexample: a weak-handle release on a `Dropped` header whose
weak count is still `1` after the decrement nonetheless unlinks the header
and frees its storage, refuting "if either counter is still positive, H's
storage is not freed". -/
theorem dropped_release_frees_despite_positive_counter :
    hLookup ctxC3.heap 1 = some { state := .Dropped, root := 0, count := 2, fields := [] } ∧
    (dropWeakHandle ctxC3 1).freed = [1] ∧
    hLookup (dropWeakHandle ctxC3 1).heap 1 = none ∧
    (dropWeakHandle ctxC3 1).registry = [] := by
  refine ⟨rfl, ?_, ?_, ?_⟩ <;>
    simp [dropWeakHandle, runDrops_cons, dropStepFn, checkRefAfter, ctxC3]

/-- C3 (amended): for every handle release (weak or strong) on a header `H`
with `H.state = Dropped`, the eager check unconditionally unlinks `H` from
the registry and frees its storage, regardless of the counter values.  (In
executions this situation is only ever reached with both counters zero,
because `Dropped` exists solely as a transient inside the eager check
itself.) -/
theorem dropped_release_unlinks_and_frees_unconditionally (ctx : Ctx) (i : Nat)
    (hd : Header) (hl : hLookup ctx.heap i = some hd) (hst : hd.state = .Dropped) :
    dropWeakHandle ctx i =
      {ctx with heap := hErase ctx.heap i, registry := ctx.registry.erase i,
                freed := i :: ctx.freed} ∧
    dropRootHandle ctx i =
      {ctx with heap := hErase ctx.heap i, registry := ctx.registry.erase i,
                freed := i :: ctx.freed} := by
  constructor
  · unfold dropWeakHandle
    rw [runDrops_cons]
    simp only [dropStepFn, hl, checkRefAfter, hst, List.append_nil, runDrops_nil]
  · unfold dropRootHandle
    rw [runDrops_cons]
    simp only [dropStepFn, hl, checkRefAfter, hst, List.append_nil, runDrops_nil]

theorem dropped_release_unlinks_and_frees_unconditionally_witness :
    dropWeakHandle ctxC3 1 =
      {ctxC3 with heap := hErase ctxC3.heap 1, registry := ctxC3.registry.erase 1,
                  freed := 1 :: ctxC3.freed} ∧
    dropRootHandle ctxC3 1 =
      {ctxC3 with heap := hErase ctxC3.heap 1, registry := ctxC3.registry.erase 1,
                  freed := 1 :: ctxC3.freed} :=
  dropped_release_unlinks_and_frees_unconditionally ctxC3 1
    { state := .Dropped, root := 0, count := 2, fields := [] } rfl rfl

/-! ## Counting weak references -/

/-- Number of weak handles to `t` in a field list. -/
def countWeak (t : Nat) : List GcField → Nat
  | [] => 0
  | .weak u :: fs => (if u = t then 1 else 0) + countWeak t fs
  | .strong _ :: fs => countWeak t fs

@[simp] theorem countWeak_nil (t : Nat) : countWeak t [] = 0 := rfl

@[simp] theorem countWeak_weak (t u : Nat) (fs : List GcField) :
    countWeak t (.weak u :: fs) = (if u = t then 1 else 0) + countWeak t fs := rfl

@[simp] theorem countWeak_strong (t u : Nat) (fs : List GcField) :
    countWeak t (.strong u :: fs) = countWeak t fs := rfl

theorem countWeak_pos_of_mem (t : Nat) (fs : List GcField) (hm : t ∈ weakTargets fs) :
    1 ≤ countWeak t fs := by
  induction fs with
  | nil => simp at hm
  | cons f fs ih =>
    cases f with
    | weak u =>
      rw [weakTargets_weak, List.mem_cons] at hm
      rcases hm with rfl | hm
      · simp
      · have := ih hm
        simp only [countWeak_weak]
        omega
    | strong u =>
      rw [weakTargets_strong] at hm
      simpa using ih hm

/-- Number of weak handles to `t` held inside payloads across the heap. -/
def inCount : Heap → Nat → Nat
  | [], _ => 0
  | (_, hd) :: rest, t => countWeak t hd.fields + inCount rest t

@[simp] theorem inCount_nil (t : Nat) : inCount [] t = 0 := rfl

@[simp] theorem inCount_cons (e : Nat × Header) (rest : Heap) (t : Nat) :
    inCount (e :: rest) t = countWeak t e.2.fields + inCount rest t := rfl

theorem inCount_hSet (h : Heap) (v : Nat) (hdv hdv' : Header) (t : Nat)
    (hl : hLookup h v = some hdv) :
    inCount (hSet h v hdv') t + countWeak t hdv.fields
      = inCount h t + countWeak t hdv'.fields := by
  induction h with
  | nil => simp at hl
  | cons e rest ih =>
    obtain ⟨j, hdj⟩ := e
    rw [hLookup_cons] at hl
    rw [hSet_cons]
    by_cases hj : j = v
    · rw [if_pos hj] at hl ⊢
      cases hl
      simp only [inCount_cons]
      omega
    · rw [if_neg hj] at hl ⊢
      simp only [inCount_cons]
      have := ih hl
      omega

theorem inCount_hSet_same_fields (h : Heap) (v : Nat) (hdv hdv' : Header) (t : Nat)
    (hl : hLookup h v = some hdv) (hf : hdv'.fields = hdv.fields) :
    inCount (hSet h v hdv') t = inCount h t := by
  have := inCount_hSet h v hdv hdv' t hl
  rw [hf] at this
  omega

theorem inCount_hErase (h : Heap) (v : Nat) (hdv : Header) (t : Nat)
    (hl : hLookup h v = some hdv) :
    inCount (hErase h v) t + countWeak t hdv.fields = inCount h t := by
  induction h with
  | nil => simp at hl
  | cons e rest ih =>
    obtain ⟨j, hdj⟩ := e
    rw [hLookup_cons] at hl
    rw [hErase_cons]
    by_cases hj : j = v
    · rw [if_pos hj] at hl ⊢
      cases hl
      simp only [inCount_cons]
      omega
    · rw [if_neg hj] at hl ⊢
      simp only [inCount_cons]
      have := ih hl
      omega

theorem inCount_ge_entry (h : Heap) (a : Nat) (hda : Header) (t : Nat)
    (hl : hLookup h a = some hda) :
    countWeak t hda.fields ≤ inCount h t := by
  induction h with
  | nil => simp at hl
  | cons e rest ih =>
    obtain ⟨j, hdj⟩ := e
    rw [hLookup_cons] at hl
    by_cases hj : j = a
    · rw [if_pos hj] at hl
      cases hl
      simp only [inCount_cons]
      omega
    · rw [if_neg hj] at hl
      simp only [inCount_cons]
      have := ih hl
      omega

/-- Number of pending weak drops targeting `t` in a cascade work list. -/
def pendWeakCount : List DropStep → Nat → Nat
  | [], _ => 0
  | .weakDrop u :: rest, t => (if u = t then 1 else 0) + pendWeakCount rest t
  | .strongDrop _ :: rest, t => pendWeakCount rest t
  | .removeStep _ :: rest, t => pendWeakCount rest t

@[simp] theorem pendWeakCount_nil (t : Nat) : pendWeakCount [] t = 0 := rfl

@[simp] theorem pendWeakCount_weak (u t : Nat) (rest : List DropStep) :
    pendWeakCount (.weakDrop u :: rest) t = (if u = t then 1 else 0) + pendWeakCount rest t := rfl

@[simp] theorem pendWeakCount_strong (u t : Nat) (rest : List DropStep) :
    pendWeakCount (.strongDrop u :: rest) t = pendWeakCount rest t := rfl

@[simp] theorem pendWeakCount_remove (u t : Nat) (rest : List DropStep) :
    pendWeakCount (.removeStep u :: rest) t = pendWeakCount rest t := rfl

theorem pendWeakCount_fieldsToDrops (fs : List GcField) (t : Nat) :
    pendWeakCount (fieldsToDrops fs) t = countWeak t fs := by
  induction fs with
  | nil => rfl
  | cons f fs ih => cases f <;> simp [ih]

theorem pendWeakCount_append (a b : List DropStep) (t : Nat) :
    pendWeakCount (a ++ b) t = pendWeakCount a t + pendWeakCount b t := by
  induction a with
  | nil => simp
  | cons x a ih => cases x <;> simp [ih, Nat.add_assoc]

/-! ## Well-formed contexts (weak-only payload discipline) -/

/-- Every payload in the heap holds only weak handles (entry-based, so it is
decidable at concrete inputs). -/
def WeakOnlyHeap (h : Heap) : Prop := ∀ e ∈ h, ∀ f ∈ e.2.fields, isWeakField f = true

/-- Every header in the heap is in the `Active` steady state. -/
def AllActiveHeap (h : Heap) : Prop := ∀ e ∈ h, e.2.state = GcState.Active

/-- Every weak edge held in a payload targets a live header. -/
def EdgesClosedHeap (h : Heap) : Prop := ∀ e ∈ h, ∀ t ∈ weakTargets e.2.fields, t ∈ keys h

/-- Spec P1, the half the sweep relies on: each header's weak count is at
least the number of weak handles to it held inside live payloads (the
difference being the weak handles held outside the managed heap). -/
def CountLawHeap (h : Heap) : Prop := ∀ e ∈ h, inCount h e.1 ≤ e.2.count

/-- A well-formed resting context whose payloads use only weak handles:
not sweeping, the registry lists exactly the live headers in insertion
order, identifiers are unique, every header is `Active`, weak edges target
live headers, and the count law holds. -/
def WfCtx (ctx : Ctx) : Prop :=
  ctx.ctxState = GcContextState.Normal ∧ ctx.registry = keys ctx.heap ∧
  (keys ctx.heap).Nodup ∧ AllActiveHeap ctx.heap ∧ WeakOnlyHeap ctx.heap ∧
  EdgesClosedHeap ctx.heap ∧ CountLawHeap ctx.heap

/-- The observable component of a context: everything except the sweep
counter `gcCount` (which models the source's log output, not program
state). -/
def ctxCore (c : Ctx) :
    Heap × List Nat × GcContextState × Nat × Nat × Nat × List Nat × List Nat × List Nat :=
  (c.heap, c.registry, c.ctxState, c.autoGc, c.allocCount, c.nextId,
   c.destroyed, c.freed, c.danglingOps)

theorem hLookup_of_mem_nodup (h : Heap) (e : Nat × Header)
    (hm : e ∈ h) (hnd : (keys h).Nodup) : hLookup h e.1 = some e.2 := by
  induction h with
  | nil => simp at hm
  | cons x rest ih =>
    obtain ⟨j, hdj⟩ := x
    simp only [keys_cons, List.nodup_cons] at hnd
    rcases List.mem_cons.mp hm with rfl | hm
    · simp
    · rw [hLookup_cons]
      split
    
      · rename_i hj
        exfalso
        exact hnd.1 (hj ▸ List.mem_map_of_mem (fun p => p.1) hm)
      · exact ih hm hnd.2

theorem Reach_lookup (h : Heap) (hec : EdgesClosedHeap h) (_hnd : (keys h).Nodup)
    (i : Nat) (hr : Reach h i) : ∃ hd, hLookup h i = some hd := by
  induction hr with
  | root j hd hl _ => exact ⟨hd, hl⟩
  | step a b hd _ hl hmem _ =>
    have hmemh := hLookup_mem h a hd hl
    have hb := hec (a, hd) hmemh b hmem
    cases hx : hLookup h b with
    | none =>
      exfalso
      have := hLookup_isSome_of_mem h b hb
      rw [hx] at this
      simp at this
    | some hdb => exact ⟨hdb, rfl⟩

theorem fieldsToDrops_weakOnly (fs : List GcField)
    (hw : ∀ f ∈ fs, isWeakField f = true) :
    fieldsToDrops fs = (weakTargets fs).map DropStep.weakDrop := by
  induction fs with
  | nil => rfl
  | cons f fs ih =>
    cases f with
    | weak t =>
      simp only [fieldsToDrops_weak, weakTargets_weak, List.map_cons]
      rw [ih (fun f hf => hw f (List.mem_cons_of_mem _ hf))]
    | strong t =>
      exact absurd (hw (.strong t) (List.mem_cons_self _ _)) (by simp [isWeakField])

/-! ## The initial marking pass, characterised -/

theorem markPhase_lookup (iter : List Nat) (hnd : iter.Nodup) :
    ∀ (h : Heap) (tok : List Nat),
    (∀ i hd, hLookup h i = some hd → i ∈ iter →
      hLookup (markPhase h tok iter).1 i =
        some { state := if hd.root ≠ 0 then GcState.Tracked else GcState.Untracked,
               root := hd.root, count := hd.count, fields := hd.fields }) ∧
    (∀ i, i ∉ iter → hLookup (markPhase h tok iter).1 i = hLookup h i) ∧
    (∀ i, i ∈ (markPhase h tok iter).2 ↔
      (i ∈ tok ∨ (i ∈ iter ∧ ∃ hd, hLookup h i = some hd ∧ hd.root ≠ 0))) := by
  induction iter with
  | nil =>
    intro h tok
    refine ⟨?_, ?_, ?_⟩
    · intro i hd _ hmem
      simp at hmem
    · intro i _
      rfl
    · intro i
      simp [markPhase]
  | cons i0 rest ih =>
    intro h tok
    rw [List.nodup_cons] at hnd
    have ihr := ih hnd.2
    rw [markPhase]
    cases hl0 : hLookup h i0 with
    | none =>
      refine ⟨?_, ?_, ?_⟩
      · intro i hd hl hmem
        rcases List.mem_cons.mp hmem with rfl | hmem
        · rw [hl0] at hl
          cases hl
        · exact (ihr h tok).1 i hd hl hmem
      · intro i hmem
        exact (ihr h tok).2.1 i (fun hx => hmem (List.mem_cons_of_mem _ hx))
      · intro i
        rw [(ihr h tok).2.2 i]
        constructor
        · rintro (hx | ⟨hm, hd, hlx, hrt⟩)
          · exact Or.inl hx
          · exact Or.inr ⟨List.mem_cons_of_mem _ hm, hd, hlx, hrt⟩
        · rintro (hx | ⟨hm, hd, hlx, hrt⟩)
          · exact Or.inl hx
          · rcases List.mem_cons.mp hm with rfl | hm
            · rw [hl0] at hlx
              cases hlx
            · exact Or.inr ⟨hm, hd, hlx, hrt⟩
    | some hd0 =>
      simp only [hl0]
      have hsome0 : (hLookup h i0).isSome := by rw [hl0]; rfl
      by_cases hroot : hd0.root ≠ 0
      · rw [if_pos hroot]
        refine ⟨?_, ?_, ?_⟩
        · intro i hd hl hmem
          rcases List.mem_cons.mp hmem with rfl | hmem
          · rw [hl0] at hl
            cases hl
            rw [(ihr _ _).2.1 i hnd.1, hLookup_hSet_self _ _ _ hsome0, if_pos hroot]
          · have hne : i0 ≠ i := fun he => hnd.1 (he ▸ hmem)
            refine (ihr _ _).1 i hd ?_ hmem
            rw [hLookup_hSet_ne _ _ _ _ hne]
            exact hl
        · intro i hmem
          have hne : i0 ≠ i := fun he => hmem (he ▸ List.mem_cons_self _ _)
          rw [(ihr _ _).2.1 i (fun hx => hmem (List.mem_cons_of_mem _ hx)),
            hLookup_hSet_ne _ _ _ _ hne]
        · intro i
          rw [(ihr _ _).2.2 i]
          by_cases hii : i = i0
          · subst hii
            constructor
            · intro _
              exact Or.inr ⟨List.mem_cons_self _ _, hd0, hl0, hroot⟩
            · intro _
              exact Or.inl (List.mem_cons_self _ _)
          · have hne : i0 ≠ i := fun he => hii he.symm
            rw [hLookup_hSet_ne _ _ _ _ hne]
            constructor
            · rintro (hx | ⟨hm, hd, hlx, hrt⟩)
              · rcases List.mem_cons.mp hx with rfl | hx
                · exact absurd rfl hii
                · exact Or.inl hx
              · exact Or.inr ⟨List.mem_cons_of_mem _ hm, hd, hlx, hrt⟩
            · rintro (hx | ⟨hm, hd, hlx, hrt⟩)
              · exact Or.inl (List.mem_cons_of_mem _ hx)
              · rcases List.mem_cons.mp hm with rfl | hm
                · exact absurd rfl hii
                · exact Or.inr ⟨hm, hd, hlx, hrt⟩
      · rw [if_neg hroot]
        refine ⟨?_, ?_, ?_⟩
        · intro i hd hl hmem
          rcases List.mem_cons.mp hmem with rfl | hmem
          · rw [hl0] at hl
            cases hl
            rw [(ihr _ _).2.1 i hnd.1, hLookup_hSet_self _ _ _ hsome0, if_neg hroot]
          · have hne : i0 ≠ i := fun he => hnd.1 (he ▸ hmem)
            refine (ihr _ _).1 i hd ?_ hmem
            rw [hLookup_hSet_ne _ _ _ _ hne]
            exact hl
        · intro i hmem
          have hne : i0 ≠ i := fun he => hmem (he ▸ List.mem_cons_self _ _)
          rw [(ihr _ _).2.1 i (fun hx => hmem (List.mem_cons_of_mem _ hx)),
            hLookup_hSet_ne _ _ _ _ hne]
        · intro i
          rw [(ihr _ _).2.2 i]
          by_cases hii : i = i0
          · subst hii
            constructor
            · rintro (hx | ⟨hm, hd, hlx, hrt⟩)
              · exact Or.inl hx
              · exact absurd hm hnd.1
            · rintro (hx | ⟨hm, hd, hlx, hrt⟩)
              · exact Or.inl hx
              · rw [hl0] at hlx
                cases hlx
                exact absurd hrt hroot
          · have hne : i0 ≠ i := fun he => hii he.symm
            rw [hLookup_hSet_ne _ _ _ _ hne]
            constructor
            · rintro (hx | ⟨hm, hd, hlx, hrt⟩)
              · exact Or.inl hx
              · exact Or.inr ⟨List.mem_cons_of_mem _ hm, hd, hlx, hrt⟩
            · rintro (hx | ⟨hm, hd, hlx, hrt⟩)
              · exact Or.inl hx
              · rcases List.mem_cons.mp hm with rfl | hm
                · exact absurd rfl hii
                · exact Or.inr ⟨hm, hd, hlx, hrt⟩

theorem markPhase_inCount (iter : List Nat) :
    ∀ (h : Heap) (tok : List Nat) (t : Nat),
      inCount (markPhase h tok iter).1 t = inCount h t := by
  induction iter with
  | nil =>
    intro h tok t
    rfl
  | cons i0 rest ih =>
    intro h tok t
    rw [markPhase]
    cases hl0 : hLookup h i0 with
    | none => exact ih h tok t
    | some hd0 =>
      simp only [hl0]
      split
      · rw [ih, inCount_hSet_same_fields h i0 hd0 { state := GcState.Tracked, root := hd0.root, count := hd0.count, fields := hd0.fields } t hl0 rfl]
      · rw [ih, inCount_hSet_same_fields h i0 hd0 { state := GcState.Untracked, root := hd0.root, count := hd0.count, fields := hd0.fields } t hl0 rfl]

/-! ## The trace closure, characterised -/

theorem closure_preserve2 (Inv : Heap → List Nat → Prop)
    (hstep : ∀ h tok n, Inv h (n :: tok) → Inv (traceNode h tok n).1 (traceNode h tok n).2) :
    ∀ (h : Heap) (tok : List Nat), Inv h tok → Inv (closure h tok) [] := by
  intro h tok
  generalize hm : untrackedCount h + tok.length = m
  induction m using Nat.strong_induction_on generalizing h tok with
  | _ m ih =>
    cases tok with
    | nil =>
      intro hi
      simpa using hi
    | cons n rest =>
      intro hi
      rw [closure_cons]
      refine ih _ ?_ _ _ rfl (hstep h rest n hi)
      subst hm
      have := traceNode_measure h rest n
      simp only [List.length_cons]
      omega

theorem acceptStep_cases (h : Heap) (tok : List Nat) (t : Nat) :
    (∃ hdt, hLookup h t = some hdt ∧ hdt.state = GcState.Untracked ∧
      acceptStep h tok t = (hSet h t { state := GcState.Tracked, root := hdt.root, count := hdt.count, fields := hdt.fields }, t :: tok)) ∨
    (acceptStep h tok t = (h, tok) ∧
      (hLookup h t = none ∨ ∃ hdt, hLookup h t = some hdt ∧ hdt.state ≠ GcState.Untracked)) := by
  unfold acceptStep
  cases hl : hLookup h t with
  | none => exact Or.inr ⟨rfl, Or.inl rfl⟩
  | some hdt =>
    cases hst : hdt.state
    · exact Or.inr ⟨by simp only [hst], Or.inr ⟨hdt, rfl, by rw [hst]; intro hx; cases hx⟩⟩
    · exact Or.inr ⟨by simp only [hst], Or.inr ⟨hdt, rfl, by rw [hst]; intro hx; cases hx⟩⟩
    · exact Or.inr ⟨by simp only [hst], Or.inr ⟨hdt, rfl, by rw [hst]; intro hx; cases hx⟩⟩
    · exact Or.inl ⟨hdt, rfl, hst, by simp only [hst]⟩

/-- A header may only have been promoted `Untracked → Tracked`. -/
def stateUp (hd hd2 : Header) : Prop :=
  hd2 = hd ∨ (hd.state = GcState.Untracked ∧
    hd2 = { state := GcState.Tracked, root := hd.root, count := hd.count, fields := hd.fields })

theorem stateUp_refl (hd : Header) : stateUp hd hd := Or.inl rfl

theorem closure_pointwise (h : Heap) (tok : List Nat) :
    ∀ i, (hLookup (closure h tok) i = none ↔ hLookup h i = none) ∧
      (∀ hd, hLookup h i = some hd →
        ∃ hd2, hLookup (closure h tok) i = some hd2 ∧ stateUp hd hd2) := by
  have := closure_preserve
    (fun h2 => ∀ i, (hLookup h2 i = none ↔ hLookup h i = none) ∧
      (∀ hd, hLookup h i = some hd → ∃ hd2, hLookup h2 i = some hd2 ∧ stateUp hd hd2))
    (by
      intro h2 tok n hi
      show ∀ i, (hLookup (traceNode h2 tok n).1 i = none ↔ hLookup h i = none) ∧ _
      unfold traceNode
      cases hln : hLookup h2 n with
      | none => exact hi
      | some hdn =>
        simp only [hln]
        -- fold over the fields, each step an acceptStep
        clear hln
        induction hdn.fields generalizing h2 tok with
        | nil => exact hi
        | cons f fs ihf =>
          cases f with
          | weak t =>
            rw [traceFields]
            refine ihf _ _ ?_
            intro i
            rcases acceptStep_cases h2 tok t with ⟨hdt, hlt, hst, heq⟩ | ⟨heq, _⟩
            · rw [heq]
              simp only
              by_cases hit : t = i
              · subst hit
                constructor
                · rw [hLookup_hSet_self _ _ _ (by rw [hlt]; rfl)]
                  have h2i := (hi t).1
                  rw [hlt] at h2i
                  simp only [iff_iff_implies_and_implies] at h2i ⊢
                  constructor
                  · intro hx
                    cases hx
                  · intro hx
                    exact absurd (h2i.2 hx) (by simp)
                · intro hd hlh
                  obtain ⟨hd2, hl2, hup⟩ := (hi t).2 hd hlh
                  rw [hlt] at hl2
                  cases hl2
                  refine ⟨_, hLookup_hSet_self _ _ _ (by rw [hlt]; rfl), ?_⟩
                  rcases hup with rfl | ⟨hu, he⟩
                  · exact Or.inr ⟨hst, rfl⟩
                  · rw [he] at hst
                    cases hst
              · rw [hLookup_hSet_ne _ _ _ _ hit]
                exact hi i
            · rw [heq]
              exact hi i
          | strong t =>
            rw [traceFields]
            exact ihf _ _ hi)
    h tok
  exact this (fun i => ⟨Iff.rfl, fun hd hl => ⟨hd, hl, stateUp_refl hd⟩⟩)

/-! ### The closure invariant bundle -/

def SkelEq (h0 h2 : Heap) : Prop :=
  ∀ i, (hLookup h2 i = none ↔ hLookup h0 i = none) ∧
    (∀ hd2, hLookup h2 i = some hd2 → ∃ hd0, hLookup h0 i = some hd0 ∧
      hd2.root = hd0.root ∧ hd2.count = hd0.count ∧ hd2.fields = hd0.fields)

def DomTU (h2 : Heap) : Prop := ∀ i hd2, hLookup h2 i = some hd2 →
  hd2.state = GcState.Tracked ∨ hd2.state = GcState.Untracked

def TokTracked (h2 : Heap) (tok : List Nat) : Prop :=
  ∀ i ∈ tok, ∃ hd2, hLookup h2 i = some hd2 ∧ hd2.state = GcState.Tracked

def TrackedReach (h0 h2 : Heap) : Prop := ∀ i hd2, hLookup h2 i = some hd2 →
  hd2.state = GcState.Tracked → Reach h0 i

def TrackedClosedExcept (n : Nat) (h2 : Heap) (tok : List Nat) : Prop :=
  ∀ i hd2, hLookup h2 i = some hd2 → hd2.state = GcState.Tracked → i ∉ tok → i ≠ n →
    ∀ t ∈ weakTargets hd2.fields, ∀ hdt, hLookup h2 t = some hdt →
      hdt.state = GcState.Tracked

def TrackedClosed (h2 : Heap) (tok : List Nat) : Prop :=
  ∀ i hd2, hLookup h2 i = some hd2 → hd2.state = GcState.Tracked → i ∉ tok →
    ∀ t ∈ weakTargets hd2.fields, ∀ hdt, hLookup h2 t = some hdt →
      hdt.state = GcState.Tracked

def ClosBundle (h0 h2 : Heap) (tok : List Nat) : Prop :=
  SkelEq h0 h2 ∧ DomTU h2 ∧ TokTracked h2 tok ∧ TrackedReach h0 h2 ∧ TrackedClosed h2 tok

theorem closAccept (h0 h2 : Heap) (tok : List Nat) (t n : Nat)
    (hskel : SkelEq h0 h2) (hdom : DomTU h2) (htok : TokTracked h2 tok)
    (hreach : TrackedReach h0 h2) (hclo : TrackedClosedExcept n h2 tok)
    (hre : Reach h0 t) :
    SkelEq h0 (acceptStep h2 tok t).1 ∧ DomTU (acceptStep h2 tok t).1 ∧
    TokTracked (acceptStep h2 tok t).1 (acceptStep h2 tok t).2 ∧
    TrackedReach h0 (acceptStep h2 tok t).1 ∧
    TrackedClosedExcept n (acceptStep h2 tok t).1 (acceptStep h2 tok t).2 ∧
    (∀ i hd2, hLookup h2 i = some hd2 → hd2.state = GcState.Tracked →
      ∃ hd2b, hLookup (acceptStep h2 tok t).1 i = some hd2b ∧ hd2b.state = GcState.Tracked ∧
        hd2b.fields = hd2.fields) ∧
    (∀ hdt, hLookup (acceptStep h2 tok t).1 t = some hdt → hdt.state = GcState.Tracked) := by
  rcases acceptStep_cases h2 tok t with ⟨hdt, hlt, hst, heq⟩ | ⟨heq, hother⟩
  · rw [heq]
    simp only
    have hsome : (hLookup h2 t).isSome := by rw [hlt]; rfl
    have hlt2 : hLookup (hSet h2 t { state := GcState.Tracked, root := hdt.root, count := hdt.count, fields := hdt.fields }) t = some { state := GcState.Tracked, root := hdt.root, count := hdt.count, fields := hdt.fields } := hLookup_hSet_self _ _ _ hsome
    refine ⟨?_, ?_, ?_, ?_, ?_, ?_, ?_⟩
    · intro i
      by_cases hit : t = i
      · subst hit
        constructor
        · rw [hlt2]
          have h01 := (hskel t).1
          rw [hlt] at h01
          constructor
          · intro hx
            cases hx
          · intro hx
            cases h01.mpr hx
        · intro hd2 hl2
          rw [hlt2] at hl2
          cases hl2
          obtain ⟨hd0, hl0, hr, hc, hf⟩ := (hskel t).2 hdt hlt
          exact ⟨hd0, hl0, hr, hc, hf⟩
      · rw [hLookup_hSet_ne _ _ _ _ hit]
        exact hskel i
    · intro i hd2 hl2
      by_cases hit : t = i
      · subst hit
        rw [hlt2] at hl2
        cases hl2
        exact Or.inl rfl
      · rw [hLookup_hSet_ne _ _ _ _ hit] at hl2
        exact hdom i hd2 hl2
    · intro i hmem
      rcases List.mem_cons.mp hmem with rfl | hmem
      · exact ⟨_, hlt2, rfl⟩
      · obtain ⟨hd2, hl2, hs2⟩ := htok i hmem
        by_cases hit : t = i
        · subst hit
          exact ⟨_, hlt2, rfl⟩
        · rw [← hLookup_hSet_ne h2 t i { state := GcState.Tracked, root := hdt.root, count := hdt.count, fields := hdt.fields } hit] at hl2
          exact ⟨hd2, hl2, hs2⟩
    · intro i hd2 hl2 hs2
      by_cases hit : t = i
      · subst hit
        exact hre
      · rw [hLookup_hSet_ne _ _ _ _ hit] at hl2
        exact hreach i hd2 hl2 hs2
    · intro i hd2 hl2 hs2 hnt hnn u humem hdt2 hlu
      by_cases hit : t = i
      · subst hit
        exact absurd (List.mem_cons_self _ _) hnt
      · rw [hLookup_hSet_ne _ _ _ _ hit] at hl2
        by_cases hut : t = u
        · subst hut
          rw [hlt2] at hlu
          cases hlu
          rfl
        · rw [hLookup_hSet_ne _ _ _ _ hut] at hlu
          exact hclo i hd2 hl2 hs2 (fun hx => hnt (List.mem_cons_of_mem _ hx)) hnn u humem hdt2 hlu
    · intro i hd2 hl2 hs2
      by_cases hit : t = i
      · subst hit
        exact ⟨_, hlt2, rfl, by
          rw [hlt] at hl2
          cases hl2
          rfl⟩
      · rw [← hLookup_hSet_ne h2 t i { state := GcState.Tracked, root := hdt.root, count := hdt.count, fields := hdt.fields } hit] at hl2
        exact ⟨hd2, hl2, hs2, rfl⟩
    · intro hdt2 hlu
      rw [hlt2] at hlu
      cases hlu
      rfl
  · rw [heq]
    refine ⟨hskel, hdom, htok, hreach, ?_, ?_, ?_⟩
    · intro i hd2 hl2 hs2 hnt hnn
      exact hclo i hd2 hl2 hs2 hnt hnn
    · intro i hd2 hl2 hs2
      exact ⟨hd2, hl2, hs2, rfl⟩
    · intro hdt hlu
      rcases hother with hnone | ⟨hdt2, hlt2, hne⟩
      · rw [hnone] at hlu
        cases hlu
      · rw [hlt2] at hlu
        cases hlu
        rcases hdom t hdt hlt2 with hx | hx
        · exact hx
        · exact absurd hx hne

theorem closFields (h0 : Heap) (n : Nat) (fs : List GcField) :
    ∀ (h2 : Heap) (tok : List Nat),
    SkelEq h0 h2 → DomTU h2 → TokTracked h2 tok → TrackedReach h0 h2 →
    TrackedClosedExcept n h2 tok →
    (∀ t ∈ weakTargets fs, Reach h0 t) →
    SkelEq h0 (traceFields h2 tok fs).1 ∧ DomTU (traceFields h2 tok fs).1 ∧
    TokTracked (traceFields h2 tok fs).1 (traceFields h2 tok fs).2 ∧
    TrackedReach h0 (traceFields h2 tok fs).1 ∧
    TrackedClosedExcept n (traceFields h2 tok fs).1 (traceFields h2 tok fs).2 ∧
    (∀ i hd2, hLookup h2 i = some hd2 → hd2.state = GcState.Tracked →
      ∃ hd2b, hLookup (traceFields h2 tok fs).1 i = some hd2b ∧
        hd2b.state = GcState.Tracked ∧ hd2b.fields = hd2.fields) ∧
    (∀ t ∈ weakTargets fs, ∀ hdt, hLookup (traceFields h2 tok fs).1 t = some hdt →
      hdt.state = GcState.Tracked) := by
  induction fs with
  | nil =>
    intro h2 tok hskel hdom htok hreach hclo _
    rw [traceFields]
    exact ⟨hskel, hdom, htok, hreach, hclo,
      fun i hd2 hl2 hs2 => ⟨hd2, hl2, hs2, rfl⟩, by simp⟩
  | cons f fs ihf =>
    intro h2 tok hskel hdom htok hreach hclo hre
    cases f with
    | strong t =>
      rw [traceFields]
      refine ihf h2 tok hskel hdom htok hreach hclo ?_
      intro u hu
      exact hre u (by simpa using hu)
    | weak t =>
      rw [traceFields]
      have hacc := closAccept h0 h2 tok t n hskel hdom htok hreach hclo
        (hre t (by simp))
      obtain ⟨hskel2, hdom2, htok2, hreach2, hclo2, hpersist, htgt⟩ := hacc
      have hihr := ihf (acceptStep h2 tok t).1 (acceptStep h2 tok t).2
        hskel2 hdom2 htok2 hreach2 hclo2
        (fun u hu => hre u (List.mem_cons_of_mem _ hu))
      obtain ⟨a1, a2, a3, a4, a5, a6, a7⟩ := hihr
      refine ⟨a1, a2, a3, a4, a5, ?_, ?_⟩
      · intro i hd2 hl2 hs2
        obtain ⟨hdb, hlb, hsb, hfb⟩ := hpersist i hd2 hl2 hs2
        obtain ⟨hdc, hlc, hsc, hfc⟩ := a6 i hdb hlb hsb
        exact ⟨hdc, hlc, hsc, hfc.trans hfb⟩
      · intro u humem hdt hlu
        rcases List.mem_cons.mp humem with rfl | humem
        · -- u = t: it was made Tracked by the accept and tracking persists
          cases hlt2 : hLookup (acceptStep h2 tok u).1 u with
          | none =>
            have h0n : hLookup h0 u = none := (hskel2 u).1.mp hlt2
            have hfn : hLookup (traceFields (acceptStep h2 tok u).1
                (acceptStep h2 tok u).2 fs).1 u = none := (a1 u).1.mpr h0n
            rw [hfn] at hlu
            cases hlu
          | some hdb =>
            have hsb := htgt hdb hlt2
            obtain ⟨hdc, hlc, hsc, _⟩ := a6 u hdb hlt2 hsb
            rw [hlc] at hlu
            cases hlu
            exact hsc
        · exact a7 u humem hdt hlu

theorem closTraceNode (h0 h : Heap) (tok : List Nat) (n : Nat)
    (hb : ClosBundle h0 h (n :: tok)) :
    ClosBundle h0 (traceNode h tok n).1 (traceNode h tok n).2 := by
  obtain ⟨hskel, hdom, htok, hreach, hclo⟩ := hb
  obtain ⟨hdn, hln, hsn⟩ := htok n (List.mem_cons_self _ _)
  unfold traceNode
  simp only [hln]
  have hcloE : TrackedClosedExcept n h tok := by
    intro i hd2 hl2 hs2 hnt hnn
    refine hclo i hd2 hl2 hs2 ?_
    intro hx
    rcases List.mem_cons.mp hx with rfl | hx
    · exact hnn rfl
    · exact hnt hx
  have htokT : TokTracked h tok := fun i hi => htok i (List.mem_cons_of_mem _ hi)
  have hreT : ∀ t ∈ weakTargets hdn.fields, Reach h0 t := by
    intro t ht
    obtain ⟨hd0, hl0, _, _, hf⟩ := (hskel n).2 hdn hln
    refine Reach.step n t hd0 (hreach n hdn hln hsn) hl0 ?_
    rw [← hf]
    exact ht
  obtain ⟨a1, a2, a3, a4, a5, a6, a7⟩ :=
    closFields h0 n hdn.fields h tok hskel hdom htokT hreach hcloE hreT
  refine ⟨a1, a2, a3, a4, ?_⟩
  intro i hd2 hl2 hs2 hnt t ht hdt hlt
  by_cases hin : i = n
  · subst hin
    obtain ⟨hd2b, hlb, hsb, hfb⟩ := a6 i hdn hln hsn
    rw [hlb] at hl2
    cases hl2
    refine a7 t ?_ hdt hlt
    rw [← hfb]
    exact ht
  · exact a5 i hd2 hl2 hs2 hnt hin t ht hdt hlt

theorem closure_bundle (h0 h : Heap) (tok : List Nat) (hb : ClosBundle h0 h tok) :
    ClosBundle h0 (closure h tok) [] :=
  closure_preserve2 (ClosBundle h0) (fun h2 t2 n => closTraceNode h0 h2 t2 n) h tok hb

/-- A header that is already `Tracked` keeps its state, root and fields
through the trace closure. -/
theorem closure_tracked_persist (h : Heap) (tok : List Nat) (i : Nat) (hd : Header)
    (hl : hLookup h i = some hd) (hs : hd.state = GcState.Tracked) :
    ∃ hd2, hLookup (closure h tok) i = some hd2 ∧ hd2.state = GcState.Tracked ∧
      hd2.root = hd.root ∧ hd2.count = hd.count ∧ hd2.fields = hd.fields := by
  obtain ⟨hd2, hl2, hup⟩ := (closure_pointwise h tok i).2 hd hl
  rcases hup with rfl | ⟨hu, he⟩
  · exact ⟨hd2, hl2, hs, rfl, rfl, rfl⟩
  · rw [hu] at hs
    cases hs

theorem mark_bundle (h0 : Heap) (iter : List Nat)
    (hiter : ∀ i, i ∈ iter ↔ i ∈ keys h0) (hnd : iter.Nodup) :
    ClosBundle h0 (markPhase h0 [] iter).1 (markPhase h0 [] iter).2 := by
  obtain ⟨m1, m2, m3⟩ := markPhase_lookup iter hnd h0 []
  have hnone : ∀ i, hLookup h0 i = none → hLookup (markPhase h0 [] iter).1 i = none := by
    intro i hli
    have hnk : i ∉ keys h0 := by
      intro hm
      have := hLookup_isSome_of_mem h0 i hm
      rw [hli] at this
      simp at this
    rw [m2 i (fun hx => hnk ((hiter i).mp hx))]
    exact hli
  have hsomeMark : ∀ i hd0, hLookup h0 i = some hd0 →
      hLookup (markPhase h0 [] iter).1 i =
        some { state := if hd0.root ≠ 0 then GcState.Tracked else GcState.Untracked,
               root := hd0.root, count := hd0.count, fields := hd0.fields } := by
    intro i hd0 hl0
    exact m1 i hd0 hl0 ((hiter i).mpr (mem_keys_of_hLookup h0 i hd0 hl0))
  refine ⟨?_, ?_, ?_, ?_, ?_⟩
  · -- SkelEq
    intro i
    cases hl0 : hLookup h0 i with
    | none =>
      rw [hnone i hl0]
      exact ⟨Iff.rfl, fun hd2 hx => by cases hx⟩
    | some hd0 =>
      rw [hsomeMark i hd0 hl0]
      constructor
      · constructor
        · intro hx
          cases hx
        · intro hx
          cases hx
      · intro hd2 hx
        cases hx
        exact ⟨hd0, rfl, rfl, rfl, rfl⟩
  · -- DomTU
    intro i hd2 hl2
    cases hl0 : hLookup h0 i with
    | none =>
      rw [hnone i hl0] at hl2
      cases hl2
    | some hd0 =>
      rw [hsomeMark i hd0 hl0] at hl2
      cases hl2
      by_cases hr : hd0.root ≠ 0
      · rw [if_pos hr]
        exact Or.inl rfl
      · rw [if_neg hr]
        exact Or.inr rfl
  · -- TokTracked
    intro i hmem
    rcases (m3 i).mp hmem with hx | ⟨_, hd0, hl0, hr⟩
    · cases hx
    · refine ⟨_, hsomeMark i hd0 hl0, ?_⟩
      rw [if_pos hr]
  · -- TrackedReach
    intro i hd2 hl2 hs2
    cases hl0 : hLookup h0 i with
    | none =>
      rw [hnone i hl0] at hl2
      cases hl2
    | some hd0 =>
      rw [hsomeMark i hd0 hl0] at hl2
      cases hl2
      by_cases hr : hd0.root ≠ 0
      · exact Reach.root i hd0 hl0 hr
      · rw [if_neg hr] at hs2
        cases hs2
  · -- TrackedClosed: every Tracked node is on the token
    intro i hd2 hl2 hs2 hnt
    exfalso
    apply hnt
    cases hl0 : hLookup h0 i with
    | none =>
      rw [hnone i hl0] at hl2
      cases hl2
    | some hd0 =>
      rw [hsomeMark i hd0 hl0] at hl2
      cases hl2
      by_cases hr : hd0.root ≠ 0
      · exact (m3 i).mpr (Or.inr ⟨(hiter i).mpr (mem_keys_of_hLookup h0 i hd0 hl0),
          hd0, hl0, hr⟩)
      · rw [if_neg hr] at hs2
        cases hs2

/-- After the marking pass and the closure, every header whose root count is
positive is `Tracked`. -/
theorem roots_tracked_closure (h0 : Heap) (iter : List Nat)
    (hiter : ∀ i, i ∈ iter ↔ i ∈ keys h0) (hnd : iter.Nodup)
    (i : Nat) (hd0 : Header) (hl0 : hLookup h0 i = some hd0) (hr : hd0.root ≠ 0) :
    ∃ hd, hLookup (closure (markPhase h0 [] iter).1 (markPhase h0 [] iter).2) i = some hd ∧
      hd.state = GcState.Tracked := by
  obtain ⟨m1, m2, m3⟩ := markPhase_lookup iter hnd h0 []
  have hml := m1 i hd0 hl0 ((hiter i).mpr (mem_keys_of_hLookup h0 i hd0 hl0))
  rw [if_pos hr] at hml
  obtain ⟨hd2, hl2, hs2, _, _, _⟩ := closure_tracked_persist _ _ i _ hml rfl
  exact ⟨hd2, hl2, hs2⟩

/-- Completeness of the marking: in a heap whose `Tracked` nodes are closed
under weak edges and contain all roots, every reachable node is `Tracked`. -/
theorem reach_tracked_in (h0 hF : Heap)
    (hskel : SkelEq h0 hF) (hclosed : TrackedClosed hF [])
    (hec : EdgesClosedHeap h0)
    (hroots : ∀ i hd0, hLookup h0 i = some hd0 → hd0.root ≠ 0 →
      ∃ hd, hLookup hF i = some hd ∧ hd.state = GcState.Tracked)
    (i : Nat) (hre : Reach h0 i) :
    ∃ hd, hLookup hF i = some hd ∧ hd.state = GcState.Tracked := by
  induction hre with
  | root j hd0 hl0 hr => exact hroots j hd0 hl0 hr
  | step a b hd0 hra hla hb ih =>
    obtain ⟨hda, hlaF, hsa⟩ := ih
    obtain ⟨hd0x, hl0x, _, _, hf⟩ := (hskel a).2 hda hlaF
    rw [hla] at hl0x
    cases hl0x
    have hbk : b ∈ keys h0 := hec (a, hd0) (hLookup_mem h0 a hd0 hla) b hb
    cases hlb : hLookup hF b with
    | none =>
      exfalso
      have hb0 : hLookup h0 b = none := (hskel b).1.mp hlb
      have := hLookup_isSome_of_mem h0 b hbk
      rw [hb0] at this
      simp at this
    | some hdb =>
      refine ⟨hdb, rfl, ?_⟩
      refine hclosed a hda hlaF hsa (by simp) b ?_ hdb hlb
      rw [hf]
      exact hb

/-! ## Weak-handle counts are untouched by marking and tracing -/

theorem acceptStep_inCount (h : Heap) (tok : List Nat) (u t : Nat) :
    inCount (acceptStep h tok u).1 t = inCount h t := by
  rcases acceptStep_cases h tok u with ⟨hdu, hlu, hsu, heq⟩ | ⟨heq, _⟩
  · rw [heq]
    exact inCount_hSet_same_fields h u hdu
      { state := GcState.Tracked, root := hdu.root, count := hdu.count, fields := hdu.fields }
      t hlu rfl
  · rw [heq]

theorem traceFields_inCount (fs : List GcField) :
    ∀ (h : Heap) (tok : List Nat) (t : Nat),
      inCount (traceFields h tok fs).1 t = inCount h t := by
  induction fs with
  | nil =>
    intro h tok t
    rfl
  | cons f fs ih =>
    intro h tok t
    cases f with
    | weak u =>
      rw [traceFields, ih]
      exact acceptStep_inCount h tok u t
    | strong u =>
      rw [traceFields]
      exact ih _ _ _

theorem traceNode_inCount (h : Heap) (tok : List Nat) (n t : Nat) :
    inCount (traceNode h tok n).1 t = inCount h t := by
  unfold traceNode
  cases hl : hLookup h n with
  | none => rfl
  | some hd =>
    simp only [hl]
    exact traceFields_inCount hd.fields h tok t

theorem closure_inCount (h : Heap) (tok : List Nat) (t : Nat) :
    inCount (closure h tok) t = inCount h t := by
  exact closure_preserve (fun h2 => inCount h2 t = inCount h t)
    (fun h2 tok2 n hi => by
      show inCount (traceNode h2 tok2 n).1 t = inCount h t
      rw [traceNode_inCount]
      exact hi) h tok rfl

theorem markPhase_inCount_all (h0 : Heap) (iter : List Nat) (t : Nat) :
    inCount (markPhase h0 [] iter).1 t = inCount h0 t :=
  markPhase_inCount iter h0 [] t

/-! ## The reclamation walk on weak-only well-formed heaps -/

theorem mem_of_mem_hErase (h : Heap) (v : Nat) (e : Nat × Header)
    (hm : e ∈ hErase h v) : e ∈ h := by
  induction h with
  | nil => simp at hm
  | cons x rest ih =>
    obtain ⟨j, hdj⟩ := x
    rw [hErase_cons] at hm
    by_cases hj : j = v
    · rw [if_pos hj] at hm
      exact List.mem_cons_of_mem _ hm
    · rw [if_neg hj] at hm
      rcases List.mem_cons.mp hm with rfl | hm
      · exact List.mem_cons_self _ _
      · exact List.mem_cons_of_mem _ (ih hm)

theorem filter_erase_point (l : List Nat) (p q : Nat → Bool) (v : Nat) (hnd : l.Nodup)
    (hqv : q v = false) (hagree : ∀ j, j ≠ v → p j = q j) :
    (l.filter p).erase v = l.filter q := by
  induction l with
  | nil => rfl
  | cons a t ih =>
    rw [List.nodup_cons] at hnd
    by_cases hav : a = v
    · subst hav
      have hteq : t.filter p = t.filter q := by
        refine List.filter_congr ?_
        intro j hj
        exact hagree j (fun he => hnd.1 (he ▸ hj))
      rw [List.filter_cons, List.filter_cons, hqv]
      by_cases hpa : p a
      · rw [if_pos (by simp [hpa])]
        simp only [Bool.false_eq_true, if_false]
        rw [List.erase_cons_head]
        exact hteq
      · rw [if_neg (by simpa using hpa)]
        simp only [Bool.false_eq_true, if_false]
        rw [List.erase_of_not_mem (fun hm => hnd.1 (List.mem_of_mem_filter hm))]
        exact hteq
    · rw [List.filter_cons, List.filter_cons, hagree a hav]
      by_cases hqa : q a
      · rw [if_pos (by simp [hqa]), if_pos (by simp [hqa])]
        rw [List.erase_cons_tail]
        · rw [ih hnd.2]
        · simp
          exact hav
      · rw [if_neg (by simpa using hqa), if_neg (by simpa using hqa)]
        exact ih hnd.2

theorem filter_reverse_list (l : List Nat) (p : Nat → Bool) :
    l.reverse.filter p = (l.filter p).reverse := by
  induction l with
  | nil => rfl
  | cons a t ih =>
    by_cases hpa : p a
    · simp [List.filter_append, List.filter_cons, ih, hpa]
    · simp [List.filter_append, List.filter_cons, ih, hpa]

/-- Pointwise description of a header mid-walk: original root and fields,
the state recording whether the node is a marked survivor (already relinked
as `Active`, or still `Tracked` and awaiting its walk step) or an
unprocessed victim (`Untracked`, still ahead in the iteration). -/
def WalkNodes (h0 : Heap) (sM : Nat → Bool) (rem : List Nat) (c : Ctx) : Prop :=
  ∀ j hd, hLookup c.heap j = some hd → ∃ hd0, hLookup h0 j = some hd0 ∧
    hd.root = hd0.root ∧ hd.fields = hd0.fields ∧
    ((sM j = true ∧ ((hd.state = GcState.Active ∧ j ∉ rem) ∨
        (hd.state = GcState.Tracked ∧ j ∈ rem))) ∨
     (sM j = false ∧ j ∈ rem ∧ hd.state = GcState.Untracked))

/-- Invariant of the reclamation walk between victim cascades. -/
def WalkInv (h0 : Heap) (sM : Nat → Bool) (d0 : List Nat) (rem : List Nat) (c : Ctx) : Prop :=
  keys c.heap = (keys h0).filter (fun j => sM j || decide (j ∈ rem)) ∧
  WalkNodes h0 sM rem c ∧
  CountLawHeap c.heap ∧
  (∀ j ∈ c.registry, sM j = true) ∧
  (∀ j ∈ c.destroyed, sM j = true → j ∈ d0)

/-- Like `WalkNodes` but exempting the victim currently being destroyed. -/
def CascNodes (h0 : Heap) (sM : Nat → Bool) (rem : List Nat) (v : Nat) (c : Ctx) : Prop :=
  ∀ j hd, hLookup c.heap j = some hd → j ≠ v → ∃ hd0, hLookup h0 j = some hd0 ∧
    hd.root = hd0.root ∧ hd.fields = hd0.fields ∧
    ((sM j = true ∧ ((hd.state = GcState.Active ∧ j ∉ rem) ∨
        (hd.state = GcState.Tracked ∧ j ∈ rem))) ∨
     (sM j = false ∧ j ∈ rem ∧ hd.state = GcState.Untracked))

/-- The count law during a cascade: live weak in-edges plus pending weak
drops never exceed a header's weak counter. -/
def CascCount (c : Ctx) (pend : List DropStep) : Prop :=
  ∀ e ∈ c.heap, inCount c.heap e.1 + pendWeakCount pend e.1 ≤ e.2.count

/-- Invariant of the destructor cascade run for victim `v` during the walk:
either the final free of `v` is still pending behind a list of weak-handle
drops, or the cascade is finished and the outer walk invariant holds. -/
def CascInv (h0 : Heap) (sM : Nat → Bool) (d0 : List Nat) (r0 : List Nat)
    (rem : List Nat) (v : Nat) (c : Ctx) (pend : List DropStep) : Prop :=
  ((∃ ts : List Nat, pend = ts.map DropStep.weakDrop ++ [DropStep.removeStep v]) ∧
     keys c.heap = (keys h0).filter (fun j => sM j || decide (j ∈ rem) || decide (j = v)) ∧
     (∃ hdv, hLookup c.heap v = some hdv ∧ hdv.state = GcState.Untracked ∧ hdv.fields = []) ∧
     sM v = false ∧ v ∉ rem ∧
     CascNodes h0 sM rem v c ∧
     CascCount c pend ∧
     c.registry = r0 ∧
     (∀ j ∈ c.destroyed, sM j = true → j ∈ d0))
  ∨ (pend = [] ∧ WalkInv h0 sM d0 rem c ∧ c.registry = r0)

/-- The protection argument: a relinked survivor with zero root count that is
the target of a pending weak drop has weak counter at least 2, because a live
survivor in-edge and the pending drop are both counted. -/
theorem survivor_count_ge (h0 : Heap) (sM : Nat → Bool) (rem : List Nat) (v t : Nat)
    (c : Ctx) (pend : List DropStep) (hdt : Header)
    (_HK : (keys h0).Nodup)
    (HS4 : ∀ j hd0, hLookup h0 j = some hd0 → sM j = true → hd0.root = 0 →
      ∃ a hda, hLookup h0 a = some hda ∧ sM a = true ∧ j ∈ weakTargets hda.fields)
    (hkeys : keys c.heap = (keys h0).filter (fun j => sM j || decide (j ∈ rem) || decide (j = v)))
    (hnodes : CascNodes h0 sM rem v c)
    (hsmv : sM v = false)
    (hvd : ∃ hdv, hLookup c.heap v = some hdv ∧ hdv.state = GcState.Untracked)
    (hcnt : CascCount c pend)
    (hlt : hLookup c.heap t = some hdt) (hst : hdt.state = GcState.Active)
    (hr0 : hdt.root = 0) (hpw : 1 ≤ pendWeakCount pend t) :
    2 ≤ hdt.count := by
  obtain ⟨hdv, hlv, hsv⟩ := hvd
  have htv : t ≠ v := by
    intro he
    subst he
    rw [hlt] at hlv
    cases hlv
    rw [hst] at hsv
    cases hsv
  obtain ⟨hd0, hl0, hroot, hfld, hdisj⟩ := hnodes t hdt hlt htv
  have hsmt : sM t = true := by
    rcases hdisj with ⟨hs, _⟩ | ⟨_, _, hu⟩
    · exact hs
    · rw [hst] at hu
      cases hu
  obtain ⟨a, hda, hla0, hsa, htw⟩ := HS4 t hd0 hl0 hsmt (by rw [← hroot]; exact hr0)
  have hak : a ∈ keys c.heap := by
    rw [hkeys]
    refine List.mem_filter.mpr ⟨mem_keys_of_hLookup h0 a hda hla0, by simp [hsa]⟩
  have hsome := hLookup_isSome_of_mem c.heap a hak
  cases hla : hLookup c.heap a with
  | none =>
    rw [hla] at hsome
    simp at hsome
  | some hda' =>
    have hav : a ≠ v := by
      intro he
      subst he
      rw [hsa] at hsmv
      cases hsmv
    obtain ⟨hda0, hla0', _, hfa, _⟩ := hnodes a hda' hla hav
    rw [hla0] at hla0'
    cases hla0'
    have hwc : 1 ≤ countWeak t hda'.fields := by
      rw [hfa]
      exact countWeak_pos_of_mem t hda.fields htw
    have hic : countWeak t hda'.fields ≤ inCount c.heap t :=
      inCount_ge_entry c.heap a hda' t hla
    have hcet := hcnt (t, hdt) (hLookup_mem c.heap t hdt hlt)
    simp only at hcet
    omega

/-- Storing back a count-decremented header (the non-destroying arms of the
eager check) preserves the cascade invariant. -/
theorem cascStoreDec (h0 : Heap) (sM : Nat → Bool) (d0 : List Nat) (r0 : List Nat)
    (rem : List Nat) (v t : Nat) (c : Ctx) (hdt : Header) (rest : List DropStep) (ts' : List Nat)
    (HK : (keys h0).Nodup)
    (hrest : rest = ts'.map DropStep.weakDrop ++ [DropStep.removeStep v])
    (hkeys : keys c.heap = (keys h0).filter (fun j => sM j || decide (j ∈ rem) || decide (j = v)))
    (hvd : ∃ hdv, hLookup c.heap v = some hdv ∧ hdv.state = GcState.Untracked ∧ hdv.fields = [])
    (hsmv : sM v = false) (hvrem : v ∉ rem)
    (hnodes : CascNodes h0 sM rem v c)
    (hcnt : CascCount c (DropStep.weakDrop t :: rest))
    (hregv : c.registry = r0)
    (hdes : ∀ j ∈ c.destroyed, sM j = true → j ∈ d0)
    (hlt : hLookup c.heap t = some hdt) :
    CascInv h0 sM d0 r0 rem v
      {c with heap := hSet c.heap t {hdt with count := hdt.count - 1}} rest := by
  obtain ⟨hdv, hlv, hsv, hfv⟩ := hvd
  have hsome : (hLookup c.heap t).isSome := by rw [hlt]; rfl
  have hcknd : (keys c.heap).Nodup := by
    rw [hkeys]
    exact HK.filter _
  refine Or.inl ⟨⟨ts', hrest⟩, ?_, ?_, hsmv, hvrem, ?_, ?_, hregv, hdes⟩
  · show keys (hSet c.heap t {hdt with count := hdt.count - 1}) = _
    rw [keys_hSet]
    exact hkeys
  · by_cases htv : t = v
    · subst htv
      rw [hlt] at hlv
      cases hlv
      refine ⟨{hdt with count := hdt.count - 1}, hLookup_hSet_self _ _ _ hsome, hsv, hfv⟩
    · refine ⟨hdv, ?_, hsv, hfv⟩
      show hLookup (hSet c.heap t _) v = some hdv
      rw [hLookup_hSet_ne _ _ _ _ htv]
      exact hlv
  · intro j hd hl hjv
    by_cases hjt : t = j
    · subst hjt
      rw [hLookup_hSet_self _ _ _ hsome] at hl
      cases hl
      obtain ⟨hd0, hl0, hroot, hfld, hdisj⟩ := hnodes t hdt hlt hjv
      exact ⟨hd0, hl0, hroot, hfld, hdisj⟩
    · rw [hLookup_hSet_ne _ _ _ _ hjt] at hl
      exact hnodes j hd hl hjv
  · intro e he
    have hknd' : (keys (hSet c.heap t {hdt with count := hdt.count - 1})).Nodup := by
      rw [keys_hSet]
      exact hcknd
    have hle := hLookup_of_mem_nodup _ e he hknd'
    have hicq : ∀ x, inCount (hSet c.heap t {hdt with count := hdt.count - 1}) x
        = inCount c.heap x := by
      intro x
      exact inCount_hSet_same_fields c.heap t hdt _ x hlt rfl
    by_cases het : e.1 = t
    · rw [het, hLookup_hSet_self _ _ _ hsome] at hle
      have hold := hcnt (t, hdt) (hLookup_mem c.heap t hdt hlt)
      simp only at hold
      rw [pendWeakCount_weak, if_pos rfl] at hold
      have he2 : e.2 = {hdt with count := hdt.count - 1} := by
        injection hle with hx
        exact hx.symm
      rw [het, hicq, he2]
      simp only
      omega
    · rw [hLookup_hSet_ne c.heap t e.1 {hdt with count := hdt.count - 1}
        (fun he2 => het he2.symm)] at hle
      have hold := hcnt (e.1, e.2) (hLookup_mem c.heap e.1 e.2 hle)
      simp only at hold
      have hple : pendWeakCount rest e.1 ≤ pendWeakCount (DropStep.weakDrop t :: rest) e.1 := by
        rw [pendWeakCount_weak]
        omega
      rw [hicq]
      omega

/-- One cascade step preserves the cascade invariant: the eager check can
never destroy a header while the walk owns the heap, because every header it
can reach is `Tracked`/`Untracked` (no-op arms) or a relinked survivor whose
weak counter the count law keeps at 2 or more. -/
theorem cascStep (h0 : Heap) (sM : Nat → Bool) (d0 : List Nat) (r0 : List Nat)
    (rem : List Nat) (v : Nat)
    (HK : (keys h0).Nodup)
    (HS4 : ∀ j hd0, hLookup h0 j = some hd0 → sM j = true → hd0.root = 0 →
      ∃ a hda, hLookup h0 a = some hda ∧ sM a = true ∧ j ∈ weakTargets hda.fields)
    (hr0all : ∀ j ∈ r0, sM j = true) :
    ∀ (c : Ctx) (it : DropStep) (rest : List DropStep),
      CascInv h0 sM d0 r0 rem v c (it :: rest) →
      CascInv h0 sM d0 r0 rem v (dropStepFn c it).1 ((dropStepFn c it).2 ++ rest) := by
  intro c it rest hinv
  rcases hinv with ⟨⟨ts, hpend⟩, hkeys, hvd, hsmv, hvrem, hnodes, hcnt, hregv, hdes⟩
    | ⟨hpe, _⟩
  swap
  · exact absurd hpe (by simp)
  obtain ⟨hdv, hlv, hsv, hfv⟩ := hvd
  have hcknd : (keys c.heap).Nodup := by
    rw [hkeys]
    exact HK.filter _
  cases ts with
  | nil =>
    simp only [List.map_nil, List.nil_append, List.cons.injEq] at hpend
    obtain ⟨rfl, rfl⟩ := hpend
    simp only [dropStepFn, List.append_nil, List.nil_append]
    refine Or.inr ⟨rfl, ⟨?_, ?_, ?_, ?_, ?_⟩, ?_⟩
    · show keys (hErase c.heap v) = _
      rw [keys_hErase, hkeys]
      refine filter_erase_point (keys h0) _ _ v HK (by simp [hsmv, hvrem]) ?_
      intro j hj
      simp [hj]
    · intro j hd hl
      by_cases hjv : j = v
      · subst hjv
        rw [show hLookup (hErase c.heap j) j = none from hLookup_hErase_self c.heap j hcknd] at hl
        cases hl
      · rw [show hLookup (hErase c.heap v) j = hLookup c.heap j from
          hLookup_hErase_ne c.heap v j (fun he => hjv he.symm) hcknd] at hl
        exact hnodes j hd hl hjv
    · intro e he
      have hknd2 : (keys (hErase c.heap v)).Nodup := keys_nodup_hErase c.heap v hcknd
      have hle := hLookup_of_mem_nodup _ e he hknd2
      have hev : e.1 ≠ v := by
        intro heq
        rw [heq, hLookup_hErase_self c.heap v hcknd] at hle
        cases hle
      rw [hLookup_hErase_ne c.heap v e.1 (fun he2 => hev he2.symm) hcknd] at hle
      have hold := hcnt (e.1, e.2) (hLookup_mem c.heap e.1 e.2 hle)
      simp only [pendWeakCount_remove, pendWeakCount_nil] at hold
      have hie : inCount (hErase c.heap v) e.1 + countWeak e.1 hdv.fields = inCount c.heap e.1 :=
        inCount_hErase c.heap v hdv e.1 hlv
      rw [hfv, countWeak_nil] at hie
      show inCount (hErase c.heap v) e.1 ≤ e.2.count
      omega
    · intro j hj
      rw [hregv] at hj
      exact hr0all j (List.mem_of_mem_erase hj)
    · exact hdes
    · show c.registry.erase v = r0
      rw [hregv]
      refine List.erase_of_not_mem ?_
      intro hm
      rw [hr0all v hm] at hsmv
      cases hsmv
  | cons t ts2 =>
    simp only [List.map_cons, List.cons_append, List.cons.injEq] at hpend
    obtain ⟨rfl, hrest⟩ := hpend
    simp only [dropStepFn]
    cases hlt : hLookup c.heap t with
    | none =>
      simp only [List.nil_append]
      refine Or.inl ⟨⟨ts2, hrest⟩, hkeys, ⟨hdv, hlv, hsv, hfv⟩, hsmv, hvrem, hnodes,
        ?_, hregv, hdes⟩
      intro e he
      have hold := hcnt e he
      have hple : pendWeakCount rest e.1 ≤ pendWeakCount (DropStep.weakDrop t :: rest) e.1 := by
        rw [pendWeakCount_weak]
        exact Nat.le_add_left _ _
      show inCount c.heap e.1 + pendWeakCount rest e.1 ≤ e.2.count
      omega
    | some hdt =>
      show CascInv h0 sM d0 r0 rem v (checkRefAfter c t {hdt with count := hdt.count - 1}).1
        ((checkRefAfter c t {hdt with count := hdt.count - 1}).2 ++ rest)
      rcases checkRefAfter_cases c t {hdt with count := hdt.count - 1} with
        ⟨hA, hr0d, hc0, heq⟩ | ⟨hA, _, heq⟩ | ⟨hD, heq⟩ | ⟨hTU, heq⟩
      · exfalso
        have hA2 : hdt.state = GcState.Active := hA
        have hr2 : hdt.root = 0 := hr0d
        have hc2 : hdt.count - 1 = 0 := hc0
        have hge := survivor_count_ge h0 sM rem v t c (DropStep.weakDrop t :: rest) hdt HK HS4
          hkeys hnodes hsmv ⟨hdv, hlv, hsv⟩ hcnt hlt hA2 hr2 (by
            rw [pendWeakCount_weak, if_pos rfl]
            omega)
        omega
      · rw [heq]
        exact cascStoreDec h0 sM d0 r0 rem v t c hdt rest ts2 HK hrest hkeys
          ⟨hdv, hlv, hsv, hfv⟩ hsmv hvrem hnodes hcnt hregv hdes hlt
      · exfalso
        have hD2 : hdt.state = GcState.Dropped := hD
        by_cases htv : t = v
        · subst htv
          rw [hlt] at hlv
          cases hlv
          rw [hD2] at hsv
          cases hsv
        · obtain ⟨hd0, _, _, _, hdisj⟩ := hnodes t hdt hlt htv
          rcases hdisj with ⟨_, ⟨hs, _⟩ | ⟨hs, _⟩⟩ | ⟨_, _, hs⟩ <;> rw [hD2] at hs <;> cases hs
      · rw [heq]
        exact cascStoreDec h0 sM d0 r0 rem v t c hdt rest ts2 HK hrest hkeys
          ⟨hdv, hlv, hsv, hfv⟩ hsmv hvrem hnodes hcnt hregv hdes hlt

/-- Running a whole victim cascade from a valid starting state re-establishes
the outer walk invariant with the registry unchanged. -/
theorem cascRun (h0 : Heap) (sM : Nat → Bool) (d0 : List Nat) (r0 : List Nat)
    (rem : List Nat) (v : Nat)
    (HK : (keys h0).Nodup)
    (HS4 : ∀ j hd0, hLookup h0 j = some hd0 → sM j = true → hd0.root = 0 →
      ∃ a hda, hLookup h0 a = some hda ∧ sM a = true ∧ j ∈ weakTargets hda.fields)
    (hr0all : ∀ j ∈ r0, sM j = true)
    (c : Ctx) (pend : List DropStep)
    (hinv : CascInv h0 sM d0 r0 rem v c pend) :
    WalkInv h0 sM d0 rem (runDrops c pend) ∧ (runDrops c pend).registry = r0 := by
  have hres := runDrops_preserve (CascInv h0 sM d0 r0 rem v)
    (cascStep h0 sM d0 r0 rem v HK HS4 hr0all) c pend hinv
  rcases hres with ⟨⟨ts, hpend⟩, _⟩ | ⟨_, hw, hr⟩
  · exfalso
    cases ts with
    | nil => simp at hpend
    | cons a b => simp at hpend
  · exact ⟨hw, hr⟩

theorem sweepWalk_cons_none (c : Ctx) (i : Nat) (rem : List Nat)
    (hl : hLookup c.heap i = none) :
    sweepWalk c (i :: rem) = sweepWalk c rem := by
  rw [sweepWalk]
  simp only [hl]

theorem sweepWalk_cons_tracked (c : Ctx) (i : Nat) (rem : List Nat) (hd : Header)
    (hl : hLookup c.heap i = some hd) (hs : hd.state = GcState.Tracked) :
    sweepWalk c (i :: rem)
      = sweepWalk {c with heap := hSet c.heap i {hd with state := GcState.Active},
                          registry := i :: c.registry} rem := by
  rw [sweepWalk]
  simp only [hl, hs]

theorem sweepWalk_cons_untracked (c : Ctx) (i : Nat) (rem : List Nat) (hd : Header)
    (hl : hLookup c.heap i = some hd) (hs : hd.state = GcState.Untracked) :
    sweepWalk c (i :: rem)
      = sweepWalk (runDrops {c with heap := hSet c.heap i {hd with fields := []},
                                    destroyed := i :: c.destroyed}
          (fieldsToDrops hd.fields ++ [DropStep.removeStep i])) rem := by
  rw [sweepWalk]
  simp only [hl, hs]

/-- The reclamation walk: marked survivors are relinked untouched (their
weak counters can only shrink), victims are destroyed, and the registry
collects exactly the live marked nodes in iteration order. -/
theorem sweepWalk_spec (h0 : Heap) (sM : Nat → Bool) (d0 : List Nat)
    (HK : (keys h0).Nodup)
    (HW : WeakOnlyHeap h0)
    (HS4 : ∀ j hd0, hLookup h0 j = some hd0 → sM j = true → hd0.root = 0 →
      ∃ a hda, hLookup h0 a = some hda ∧ sM a = true ∧ j ∈ weakTargets hda.fields) :
    ∀ (rem : List Nat) (c : Ctx), rem.Nodup →
      WalkInv h0 sM d0 rem c →
      WalkInv h0 sM d0 [] (sweepWalk c rem) ∧
      (sweepWalk c rem).registry
        = (rem.filter (fun j => sM j && decide (j ∈ keys h0))).reverse ++ c.registry := by
  intro rem
  induction rem with
  | nil =>
    intro c _ hinv
    rw [sweepWalk]
    exact ⟨hinv, by simp⟩
  | cons i rem ih =>
    intro c hnd hinv
    rw [List.nodup_cons] at hnd
    obtain ⟨hkeys, hnodes, hcnt, hreg, hdes⟩ := hinv
    cases hli : hLookup c.heap i with
    | none =>
      rw [sweepWalk_cons_none c i rem hli]
      have hik : i ∉ keys h0 := by
        intro hmem
        have hkc : i ∈ keys c.heap := by
          rw [hkeys]
          exact List.mem_filter.mpr ⟨hmem, by simp⟩
        have hs := hLookup_isSome_of_mem c.heap i hkc
        rw [hli] at hs
        simp at hs
      have hinv2 : WalkInv h0 sM d0 rem c := by
        refine ⟨?_, ?_, hcnt, hreg, hdes⟩
        · rw [hkeys]
          refine List.filter_congr ?_
          intro j hj
          have hji : j ≠ i := fun he => hik (he ▸ hj)
          by_cases hjr : j ∈ rem
          · simp [List.mem_cons, hji, hjr]
          · simp [List.mem_cons, hji, hjr]
        · intro j hd hl
          obtain ⟨hd0, hl0, hroot, hfld, hdisj⟩ := hnodes j hd hl
          have hji : j ≠ i := fun he => hik (he ▸ mem_keys_of_hLookup h0 j hd0 hl0)
          refine ⟨hd0, hl0, hroot, hfld, ?_⟩
          rcases hdisj with ⟨hs, ⟨ha, hm⟩ | ⟨ha, hm⟩⟩ | ⟨hs, hm, ha⟩
          · exact Or.inl ⟨hs, Or.inl ⟨ha, fun hx => hm (List.mem_cons_of_mem _ hx)⟩⟩
          · refine Or.inl ⟨hs, Or.inr ⟨ha, ?_⟩⟩
            rcases List.mem_cons.mp hm with heq | hm2
            · exact absurd heq hji
            · exact hm2
          · refine Or.inr ⟨hs, ?_, ha⟩
            rcases List.mem_cons.mp hm with heq | hm2
            · exact absurd heq hji
            · exact hm2
      obtain ⟨hw, hr⟩ := ih c hnd.2 hinv2
      refine ⟨hw, ?_⟩
      rw [hr]
      simp only [List.filter_cons]
      rw [if_neg (show ¬((sM i && decide (i ∈ keys h0)) = true) by simp [hik])]
    | some hdi =>
      obtain ⟨hd0, hl0, hroot, hfld, hdisj⟩ := hnodes i hdi hli
      have hsome : (hLookup c.heap i).isSome := by rw [hli]; rfl
      cases hst : hdi.state with
      | Active =>
        exfalso
        rcases hdisj with ⟨_, ⟨_, hm⟩ | ⟨hs, _⟩⟩ | ⟨_, _, hs⟩
        · exact hm (List.mem_cons_self _ _)
        · rw [hst] at hs
          cases hs
        · rw [hst] at hs
          cases hs
      | Dropped =>
        exfalso
        rcases hdisj with ⟨_, ⟨hs, _⟩ | ⟨hs, _⟩⟩ | ⟨_, _, hs⟩ <;> rw [hst] at hs <;> cases hs
      | Tracked =>
        rw [sweepWalk_cons_tracked c i rem hdi hli hst]
        have hsmi : sM i = true := by
          rcases hdisj with ⟨hs, _⟩ | ⟨_, _, hs⟩
          · exact hs
          · rw [hst] at hs
            cases hs
        have hinv2 : WalkInv h0 sM d0 rem
            {c with heap := hSet c.heap i {hdi with state := GcState.Active},
                    registry := i :: c.registry} := by
          refine ⟨?_, ?_, ?_, ?_, hdes⟩
          · show keys (hSet c.heap i {hdi with state := GcState.Active}) = _
            rw [keys_hSet, hkeys]
            refine List.filter_congr ?_
            intro j hj
            by_cases hji : j = i
            · subst hji
              simp [hsmi]
            · by_cases hjr : j ∈ rem
              · simp [List.mem_cons, hji, hjr]
              · simp [List.mem_cons, hji, hjr]
          · intro j hd hl
            by_cases hji : j = i
            · subst hji
              rw [show hLookup (hSet c.heap j {hdi with state := GcState.Active}) j
                  = some {hdi with state := GcState.Active} from
                  hLookup_hSet_self _ _ _ hsome] at hl
              cases hl
              exact ⟨hd0, hl0, hroot, hfld, Or.inl ⟨hsmi, Or.inl ⟨rfl, hnd.1⟩⟩⟩
            · rw [show hLookup (hSet c.heap i {hdi with state := GcState.Active}) j
                  = hLookup c.heap j from hLookup_hSet_ne _ _ _ _ (fun he => hji he.symm)] at hl
              obtain ⟨hd0j, hl0j, hrootj, hfldj, hdisjj⟩ := hnodes j hd hl
              refine ⟨hd0j, hl0j, hrootj, hfldj, ?_⟩
              rcases hdisjj with ⟨hs, ⟨ha, hm⟩ | ⟨ha, hm⟩⟩ | ⟨hs, hm, ha⟩
              · exact Or.inl ⟨hs, Or.inl ⟨ha, fun hx => hm (List.mem_cons_of_mem _ hx)⟩⟩
              · refine Or.inl ⟨hs, Or.inr ⟨ha, ?_⟩⟩
                rcases List.mem_cons.mp hm with heq | hm2
                · exact absurd heq hji
                · exact hm2
              · refine Or.inr ⟨hs, ?_, ha⟩
                rcases List.mem_cons.mp hm with heq | hm2
                · exact absurd heq hji
                · exact hm2
          · intro e he
            have hknd2 : (keys (hSet c.heap i {hdi with state := GcState.Active})).Nodup := by
              rw [keys_hSet, hkeys]
              exact HK.filter _
            have hle := hLookup_of_mem_nodup _ e he hknd2
            have hicq : ∀ x, inCount (hSet c.heap i {hdi with state := GcState.Active}) x
                = inCount c.heap x := fun x =>
              inCount_hSet_same_fields c.heap i hdi _ x hli rfl
            by_cases hei : e.1 = i
            · rw [hei, hLookup_hSet_self _ _ _ hsome] at hle
              have hold := hcnt (i, hdi) (hLookup_mem c.heap i hdi hli)
              simp only at hold
              have he2 : e.2 = {hdi with state := GcState.Active} := by
                injection hle with hx
                exact hx.symm
              rw [hei, hicq, he2]
              exact hold
            · rw [hLookup_hSet_ne c.heap i e.1 _ (fun he2 => hei he2.symm)] at hle
              have hold := hcnt (e.1, e.2) (hLookup_mem c.heap e.1 e.2 hle)
              rw [hicq]
              exact hold
          · intro j hj
            rcases List.mem_cons.mp hj with rfl | hj2
            · exact hsmi
            · exact hreg j hj2
        obtain ⟨hw, hr⟩ := ih _ hnd.2 hinv2
        refine ⟨hw, ?_⟩
        rw [hr]
        simp only [List.filter_cons]
        rw [if_pos (show (sM i && decide (i ∈ keys h0)) = true by
          simp [hsmi, mem_keys_of_hLookup h0 i hd0 hl0])]
        simp [List.reverse_cons, List.append_assoc]
      | Untracked =>
        rw [sweepWalk_cons_untracked c i rem hdi hli hst]
        have hsmf : sM i = false := by
          rcases hdisj with ⟨_, ⟨hs, _⟩ | ⟨hs, _⟩⟩ | ⟨hs, _, _⟩
          · rw [hst] at hs
            cases hs
          · rw [hst] at hs
            cases hs
          · exact hs
        have hwf : ∀ f ∈ hdi.fields, isWeakField f = true := by
          intro f hf
          rw [hfld] at hf
          exact HW (i, hd0) (hLookup_mem h0 i hd0 hl0) f hf
        have hftd : fieldsToDrops hdi.fields = (weakTargets hdi.fields).map DropStep.weakDrop :=
          fieldsToDrops_weakOnly hdi.fields hwf
        have hcasc : CascInv h0 sM d0 c.registry rem i
            {c with heap := hSet c.heap i {hdi with fields := []},
                    destroyed := i :: c.destroyed}
            (fieldsToDrops hdi.fields ++ [DropStep.removeStep i]) := by
          refine Or.inl ⟨⟨weakTargets hdi.fields, by rw [hftd]⟩, ?_, ?_, hsmf, hnd.1,
            ?_, ?_, rfl, ?_⟩
          · show keys (hSet c.heap i {hdi with fields := []}) = _
            rw [keys_hSet, hkeys]
            refine List.filter_congr ?_
            intro j hj
            by_cases hji : j = i
            · subst hji
              simp [List.mem_cons]
            · by_cases hjr : j ∈ rem
              · simp [List.mem_cons, hji, hjr]
              · simp [List.mem_cons, hji, hjr]
          · exact ⟨{hdi with fields := []}, hLookup_hSet_self _ _ _ hsome, hst, rfl⟩
          · intro j hd hl hji
            rw [show hLookup (hSet c.heap i {hdi with fields := []}) j = hLookup c.heap j from
              hLookup_hSet_ne _ _ _ _ (fun he => hji he.symm)] at hl
            obtain ⟨hd0j, hl0j, hrootj, hfldj, hdisjj⟩ := hnodes j hd hl
            refine ⟨hd0j, hl0j, hrootj, hfldj, ?_⟩
            rcases hdisjj with ⟨hs, ⟨ha, hm⟩ | ⟨ha, hm⟩⟩ | ⟨hs, hm, ha⟩
            · exact Or.inl ⟨hs, Or.inl ⟨ha, fun hx => hm (List.mem_cons_of_mem _ hx)⟩⟩
            · refine Or.inl ⟨hs, Or.inr ⟨ha, ?_⟩⟩
              rcases List.mem_cons.mp hm with heq | hm2
              · exact absurd heq hji
              · exact hm2
            · refine Or.inr ⟨hs, ?_, ha⟩
              rcases List.mem_cons.mp hm with heq | hm2
              · exact absurd heq hji
              · exact hm2
          · intro e he
            have hknd2 : (keys (hSet c.heap i {hdi with fields := []})).Nodup := by
              rw [keys_hSet, hkeys]
              exact HK.filter _
            have hle := hLookup_of_mem_nodup _ e he hknd2
            have hpw : ∀ x, pendWeakCount (fieldsToDrops hdi.fields ++ [DropStep.removeStep i]) x
                = countWeak x hdi.fields := by
              intro x
              rw [pendWeakCount_append, pendWeakCount_fieldsToDrops]
              simp
            have hicq : ∀ x, inCount (hSet c.heap i {hdi with fields := []}) x
                + countWeak x hdi.fields = inCount c.heap x := by
              intro x
              have h1 := inCount_hSet c.heap i hdi {hdi with fields := []} x hli
              have h2 : countWeak x ({hdi with fields := []} : Header).fields = 0 := rfl
              omega
            by_cases hei : e.1 = i
            · rw [hei, hLookup_hSet_self _ _ _ hsome] at hle
              have hold := hcnt (i, hdi) (hLookup_mem c.heap i hdi hli)
              simp only at hold
              have he2 : e.2 = {hdi with fields := []} := by
                injection hle with hx
                exact hx.symm
              have hq := hicq i
              have hp := hpw i
              rw [hei, he2]
              show inCount (hSet c.heap i {hdi with fields := []}) i
                  + pendWeakCount (fieldsToDrops hdi.fields ++ [DropStep.removeStep i]) i
                  ≤ ({hdi with fields := []} : Header).count
              have hc3 : ({hdi with fields := []} : Header).count = hdi.count := rfl
              omega
            · rw [hLookup_hSet_ne c.heap i e.1 _ (fun he2 => hei he2.symm)] at hle
              have hold := hcnt (e.1, e.2) (hLookup_mem c.heap e.1 e.2 hle)
              simp only at hold
              have hq := hicq e.1
              have hp := hpw e.1
              show inCount (hSet c.heap i {hdi with fields := []}) e.1
                  + pendWeakCount (fieldsToDrops hdi.fields ++ [DropStep.removeStep i]) e.1
                  ≤ e.2.count
              omega
          · intro j hj
            rcases List.mem_cons.mp hj with rfl | hj2
            · intro hs
              rw [hs] at hsmf
              cases hsmf
            · exact hdes j hj2
        obtain ⟨hw2, hreg2⟩ := cascRun h0 sM d0 c.registry rem i HK HS4 hreg _ _ hcasc
        obtain ⟨hw, hr⟩ := ih _ hnd.2 hw2
        refine ⟨hw, ?_⟩
        rw [hr, hreg2]
        simp only [List.filter_cons]
        rw [if_neg (show ¬((sM i && decide (i ∈ keys h0)) = true) by simp [hsmf])]

/-! ## Assembling a full collection on a well-formed weak-only context -/

/-- The marked-survivor indicator read off the closed (marked) heap. -/
def trackedIn (h : Heap) (i : Nat) : Bool :=
  match hLookup h i with
  | some hd => decide (hd.state = GcState.Tracked)
  | none => false

theorem trackedIn_true_iff (h : Heap) (i : Nat) :
    trackedIn h i = true ↔ ∃ hd, hLookup h i = some hd ∧ hd.state = GcState.Tracked := by
  unfold trackedIn
  cases hl : hLookup h i with
  | none =>
    constructor
    · intro hx
      cases hx
    · rintro ⟨hd, hx, _⟩
      cases hx
  | some hd =>
    constructor
    · intro hx
      exact ⟨hd, rfl, of_decide_eq_true hx⟩
    · rintro ⟨hd2, hx, hs⟩
      cases hx
      exact decide_eq_true hs

theorem heap_nil_of_keys_nil (h : Heap) (hk : keys h = []) : h = [] := by
  cases h with
  | nil => rfl
  | cons e t => simp [keys] at hk

theorem gcRun_eq_of_empty (ctx : Ctx) (hn : ctx.ctxState = GcContextState.Normal)
    (he : ctx.registry = []) :
    gcRun ctx = {ctx with ctxState := GcContextState.Normal,
                          gcCount := ctx.gcCount + 1} := by
  unfold gcRun
  rw [hn]
  split
  · rename_i heq
    cases heq
  · simp [he]

theorem gcRun_eq_of_normal (ctx : Ctx) (hn : ctx.ctxState = GcContextState.Normal)
    (hne : ctx.registry ≠ []) :
    gcRun ctx =
      {sweepWalk {ctx with ctxState := GcContextState.Gc, gcCount := ctx.gcCount + 1,
                           registry := [],
                           heap := closure (markPhase ctx.heap [] ctx.registry.reverse).1
                                           (markPhase ctx.heap [] ctx.registry.reverse).2}
          ctx.registry.reverse
        with ctxState := GcContextState.Normal} := by
  unfold gcRun
  rw [hn]
  split
  · rename_i heq
    cases heq
  · simp [hne]

/-- Reachability transfers along a pointwise root- and field-preserving
correspondence of heaps. -/
theorem Reach_transfer (h0 h1 : Heap)
    (hpt : ∀ i, Reach h0 i → ∃ hd0 hd1, hLookup h0 i = some hd0 ∧ hLookup h1 i = some hd1 ∧
      hd1.root = hd0.root ∧ hd1.fields = hd0.fields) :
    ∀ i, Reach h0 i → Reach h1 i := by
  intro i hre
  induction hre with
  | root j hd hl hr =>
    obtain ⟨hd0, hd1, hl0, hl1, hro, _⟩ := hpt j (Reach.root j hd hl hr)
    rw [hl] at hl0
    cases hl0
    refine Reach.root j hd1 hl1 ?_
    rw [hro]
    exact hr
  | step a b hd hra hla hb ih =>
    obtain ⟨hd0, hd1, hl0, hl1, _, hfo⟩ := hpt a hra
    rw [hla] at hl0
    cases hl0
    refine Reach.step a b hd1 ih hl1 ?_
    rw [hfo]
    exact hb

theorem Reach_inv (h : Heap) (j : Nat) (hre : Reach h j) :
    (∃ hd, hLookup h j = some hd ∧ hd.root ≠ 0) ∨
    (∃ a hda, Reach h a ∧ hLookup h a = some hda ∧ j ∈ weakTargets hda.fields) := by
  cases hre with
  | root i hd hl hr => exact Or.inl ⟨hd, hl, hr⟩
  | step a b hd hra hla hb => exact Or.inr ⟨a, hd, hra, hla, hb⟩

/-- What one `gc()` call does to a well-formed weak-only context: survivors
are exactly the reachable headers, they come back `Active` with original
root count and payload, the registry again lists exactly the live headers,
the count law is preserved, and no reachable header is newly destroyed. -/
theorem gcRun_wf_spec (ctx : Ctx) (hwf : WfCtx ctx) :
    (gcRun ctx).ctxState = GcContextState.Normal ∧
    (gcRun ctx).registry = keys (gcRun ctx).heap ∧
    (keys (gcRun ctx).heap).Nodup ∧
    (∀ i, i ∈ keys (gcRun ctx).heap ↔ (i ∈ keys ctx.heap ∧ Reach ctx.heap i)) ∧
    (∀ i hd, hLookup (gcRun ctx).heap i = some hd → ∃ hd0,
      hLookup ctx.heap i = some hd0 ∧ hd.state = GcState.Active ∧
      hd.root = hd0.root ∧ hd.fields = hd0.fields) ∧
    (∀ i, Reach ctx.heap i → ∃ hd, hLookup (gcRun ctx).heap i = some hd) ∧
    CountLawHeap (gcRun ctx).heap ∧
    (∀ j, j ∈ (gcRun ctx).destroyed → Reach ctx.heap j → j ∈ ctx.destroyed) ∧
    (gcRun ctx).autoGc = ctx.autoGc ∧ (gcRun ctx).allocCount = ctx.allocCount ∧
    (gcRun ctx).nextId = ctx.nextId := by
  obtain ⟨hn, hrk, hknd, hact, hwk, hec, hcl⟩ := hwf
  by_cases hereg : ctx.registry = []
  · have hk0 : keys ctx.heap = [] := by rw [← hrk, hereg]
    have hh0 : ctx.heap = [] := heap_nil_of_keys_nil ctx.heap hk0
    have hnore : ∀ i, ¬ Reach ctx.heap i := by
      intro i hre
      cases hre with
      | root j hd hl hr =>
        rw [hh0] at hl
        cases hl
      | step a b hd hra hla hb =>
        rw [hh0] at hla
        cases hla
    rw [gcRun_eq_of_empty ctx hn hereg]
    refine ⟨rfl, hrk, hknd, ?_, ?_, ?_, ?_, ?_, rfl, rfl, rfl⟩
    · intro i
      constructor
      · intro hm
        replace hm : i ∈ keys ctx.heap := hm
        rw [hk0] at hm
        cases hm
      · intro hm
        exact hm.1
    · intro i hd hl
      replace hl : hLookup ctx.heap i = some hd := hl
      rw [hh0] at hl
      cases hl
    · intro i hre
      exact absurd hre (hnore i)
    · show CountLawHeap ctx.heap
      rw [hh0]
      intro e he
      cases he
    · intro j hj _
      exact hj
  · rw [gcRun_eq_of_normal ctx hn hereg]
    dsimp only
    set CL := closure (markPhase ctx.heap [] ctx.registry.reverse).1
        (markPhase ctx.heap [] ctx.registry.reverse).2 with hCL
    set cW : Ctx := {ctx with ctxState := GcContextState.Gc, gcCount := ctx.gcCount + 1,
                              registry := [], heap := CL} with hcW
    have hiterm : ∀ i, i ∈ ctx.registry.reverse ↔ i ∈ keys ctx.heap := by
      intro i
      rw [List.mem_reverse, hrk]
    have hiternd : ctx.registry.reverse.Nodup := by
      rw [hrk]
      exact List.nodup_reverse.mpr hknd
    have hbund := closure_bundle ctx.heap _ _
      (mark_bundle ctx.heap ctx.registry.reverse hiterm hiternd)
    obtain ⟨hskel, hdom, _, hreachC, hclosedC⟩ := hbund
    have hkC : keys CL = keys ctx.heap := by
      rw [hCL, closure_keys, markPhase_keys]
    have hroots : ∀ j hd0, hLookup ctx.heap j = some hd0 → hd0.root ≠ 0 →
        ∃ hd, hLookup CL j = some hd ∧ hd.state = GcState.Tracked :=
      fun j hd0 hl0 hr =>
        roots_tracked_closure ctx.heap ctx.registry.reverse hiterm hiternd j hd0 hl0 hr
    have hreach_sm : ∀ i, Reach ctx.heap i → trackedIn CL i = true := by
      intro i hre
      obtain ⟨hd, hl, hs⟩ := reach_tracked_in ctx.heap CL hskel hclosedC hec hroots i hre
      exact (trackedIn_true_iff CL i).mpr ⟨hd, hl, hs⟩
    have hsm_reach : ∀ i, trackedIn CL i = true → Reach ctx.heap i := by
      intro i hx
      obtain ⟨hd, hl, hs⟩ := (trackedIn_true_iff CL i).mp hx
      exact hreachC i hd hl hs
    have HS4 : ∀ j hd0, hLookup ctx.heap j = some hd0 → trackedIn CL j = true →
        hd0.root = 0 → ∃ a hda, hLookup ctx.heap a = some hda ∧ trackedIn CL a = true ∧
          j ∈ weakTargets hda.fields := by
      intro j hd0 hl0 hsm hr0
      rcases Reach_inv ctx.heap j (hsm_reach j hsm) with ⟨hd, hl, hr⟩ | ⟨a, hda, hra, hla, hb⟩
      · rw [hl0] at hl
        cases hl
        exact absurd hr0 hr
      · exact ⟨a, hda, hla, hreach_sm a hra, hb⟩
    have hinit : WalkInv ctx.heap (trackedIn CL) ctx.destroyed ctx.registry.reverse cW := by
      refine ⟨?_, ?_, ?_, ?_, ?_⟩
      · show keys CL = _
        rw [hkC]
        symm
        refine List.filter_eq_self.mpr ?_
        intro j hj
        simp [(hiterm j).mpr hj]
      · intro j hd hl
        replace hl : hLookup CL j = some hd := hl
        obtain ⟨hd0, hl0, hro, hco, hfo⟩ := (hskel j).2 hd hl
        have hmemj : j ∈ ctx.registry.reverse := (hiterm j).mpr (mem_keys_of_hLookup _ _ _ hl0)
        rcases hdom j hd hl with hsT | hsU
        · exact ⟨hd0, hl0, hro, hfo,
            Or.inl ⟨(trackedIn_true_iff CL j).mpr ⟨hd, hl, hsT⟩, Or.inr ⟨hsT, hmemj⟩⟩⟩
        · have hsmF : trackedIn CL j = false := by
            cases hxx : trackedIn CL j
            · rfl
            · obtain ⟨hd2, hl2b, hs2⟩ := (trackedIn_true_iff CL j).mp hxx
              rw [hl] at hl2b
              cases hl2b
              rw [hsU] at hs2
              cases hs2
          exact ⟨hd0, hl0, hro, hfo, Or.inr ⟨hsmF, hmemj, hsU⟩⟩
      · intro e he
        replace he : e ∈ CL := he
        have hndC : (keys CL).Nodup := by
          rw [hkC]
          exact hknd
        have hle := hLookup_of_mem_nodup CL e he hndC
        obtain ⟨hd0, hl0, _, hco, _⟩ := (hskel e.1).2 e.2 hle
        have hicq : inCount CL e.1 = inCount ctx.heap e.1 := by
          rw [hCL, closure_inCount, markPhase_inCount_all]
        have hold := hcl (e.1, hd0) (hLookup_mem _ _ _ hl0)
        simp only at hold
        show inCount CL e.1 ≤ e.2.count
        rw [hicq, hco]
        exact hold
      · intro j hj
        replace hj : j ∈ ([] : List Nat) := hj
        cases hj
      · intro j hj _
        exact hj
    obtain ⟨hwfin, hregfin⟩ := sweepWalk_spec ctx.heap (trackedIn CL) ctx.destroyed
      hknd hwk HS4 ctx.registry.reverse cW hiternd hinit
    have hkfin2 : keys (sweepWalk cW ctx.registry.reverse).heap
        = (keys ctx.heap).filter (fun j => trackedIn CL j) := by
      rw [hwfin.1]
      refine List.filter_congr ?_
      intro j hj
      simp
    have hfreg : (sweepWalk cW ctx.registry.reverse).registry
        = (keys ctx.heap).filter (fun j => trackedIn CL j) := by
      rw [hregfin]
      have hcwr : cW.registry = ([] : List Nat) := rfl
      rw [hcwr, List.append_nil]
      have hrev : ctx.registry.reverse = (keys ctx.heap).reverse := by rw [hrk]
      rw [hrev, filter_reverse_list, List.reverse_reverse]
      refine List.filter_congr ?_
      intro j hj
      simp [hj]
    refine ⟨rfl, ?_, ?_, ?_, ?_, ?_, ?_, ?_, ?_, ?_, ?_⟩
    · show (sweepWalk cW ctx.registry.reverse).registry
        = keys (sweepWalk cW ctx.registry.reverse).heap
      rw [hkfin2, hfreg]
    · show (keys (sweepWalk cW ctx.registry.reverse).heap).Nodup
      rw [hkfin2]
      exact hknd.filter _
    · intro i
      show i ∈ keys (sweepWalk cW ctx.registry.reverse).heap ↔ _
      rw [hkfin2, List.mem_filter]
      constructor
      · rintro ⟨hm, ht⟩
        exact ⟨hm, hsm_reach i ht⟩
      · rintro ⟨hm, hre⟩
        exact ⟨hm, hreach_sm i hre⟩
    · intro i hd hl
      replace hl : hLookup (sweepWalk cW ctx.registry.reverse).heap i = some hd := hl
      obtain ⟨hd0, hl0, hroot, hfld, hdisj⟩ := hwfin.2.1 i hd hl
      refine ⟨hd0, hl0, ?_, hroot, hfld⟩
      rcases hdisj with ⟨_, ⟨hs, _⟩ | ⟨_, hm⟩⟩ | ⟨_, hm, _⟩
      · exact hs
      · cases hm
      · cases hm
    · intro i hre
      have hsm := hreach_sm i hre
      have hik : i ∈ keys ctx.heap := by
        obtain ⟨hd, hl⟩ := Reach_lookup ctx.heap hec hknd i hre
        exact mem_keys_of_hLookup _ _ _ hl
      have hmem : i ∈ keys (sweepWalk cW ctx.registry.reverse).heap := by
        rw [hkfin2]
        exact List.mem_filter.mpr ⟨hik, hsm⟩
      have hsome := hLookup_isSome_of_mem _ i hmem
      cases hlx : hLookup (sweepWalk cW ctx.registry.reverse).heap i with
      | none =>
        rw [hlx] at hsome
        simp at hsome
      | some hd =>
        exact ⟨hd, rfl⟩
    · show CountLawHeap (sweepWalk cW ctx.registry.reverse).heap
      exact hwfin.2.2.1
    · intro j hj hre
      replace hj : j ∈ (sweepWalk cW ctx.registry.reverse).destroyed := hj
      exact hwfin.2.2.2.2 j hj (hreach_sm j hre)
    · show (sweepWalk cW ctx.registry.reverse).autoGc = ctx.autoGc
      exact (sweepWalk_frame ctx.registry.reverse cW).2.1
    · show (sweepWalk cW ctx.registry.reverse).allocCount = ctx.allocCount
      exact (sweepWalk_frame ctx.registry.reverse cW).2.2.1
    · show (sweepWalk cW ctx.registry.reverse).nextId = ctx.nextId
      exact (sweepWalk_frame ctx.registry.reverse cW).2.2.2.1

/-- A well-formed singleton context: one rooted header with no fields. -/
def ctxC5W : Ctx :=
  { heap := [(0, { state := GcState.Active, root := 1, count := 0, fields := [] })],
    registry := [0], ctxState := GcContextState.Normal, autoGc := 0, allocCount := 0,
    nextId := 1, destroyed := [], freed := [], danglingOps := [], gcCount := 0 }

/-- C5 (amended to weak-only payloads): on a well-formed context whose
payloads hold only weak handles, every header reachable through weak edges
from a positive root count survives `gc()`: its destructor is not run, it
keeps its root count and payload fields, returns to state `Active`, and is
linked in the registry again. -/
theorem sweep_preserves_reachable_weak_only (ctx : Ctx) (i : Nat)
    (hwf : WfCtx ctx) (hre : Reach ctx.heap i) :
    (∃ hd0 hd, hLookup ctx.heap i = some hd0 ∧ hLookup (gcRun ctx).heap i = some hd ∧
      hd.state = GcState.Active ∧ hd.root = hd0.root ∧ hd.fields = hd0.fields) ∧
    i ∈ (gcRun ctx).registry ∧
    (i ∈ (gcRun ctx).destroyed → i ∈ ctx.destroyed) := by
  obtain ⟨_, hreg, _, _, hnodes, hpres, _, hdes, _⟩ := gcRun_wf_spec ctx hwf
  obtain ⟨hd, hl⟩ := hpres i hre
  obtain ⟨hd0, hl0, hsA, hro, hfo⟩ := hnodes i hd hl
  refine ⟨⟨hd0, hd, hl0, hl, hsA, hro, hfo⟩, ?_, fun hj => hdes i hj hre⟩
  rw [hreg]
  exact mem_keys_of_hLookup _ _ _ hl

theorem sweep_preserves_reachable_weak_only_witness :
    WfCtx ctxC5W ∧ Reach ctxC5W.heap 0 ∧
    ((∃ hd0 hd, hLookup ctxC5W.heap 0 = some hd0 ∧ hLookup (gcRun ctxC5W).heap 0 = some hd ∧
        hd.state = GcState.Active ∧ hd.root = hd0.root ∧ hd.fields = hd0.fields) ∧
      0 ∈ (gcRun ctxC5W).registry ∧
      (0 ∈ (gcRun ctxC5W).destroyed → 0 ∈ ctxC5W.destroyed)) := by
  have hwf : WfCtx ctxC5W := by
    refine ⟨rfl, rfl, by decide, ?_, ?_, ?_, ?_⟩
    · show ∀ e ∈ ctxC5W.heap, e.2.state = GcState.Active
      decide
    · show ∀ e ∈ ctxC5W.heap, ∀ f ∈ e.2.fields, isWeakField f = true
      decide
    · show ∀ e ∈ ctxC5W.heap, ∀ t ∈ weakTargets e.2.fields, t ∈ keys ctxC5W.heap
      decide
    · show ∀ e ∈ ctxC5W.heap, inCount ctxC5W.heap e.1 ≤ e.2.count
      decide
  have hre : Reach ctxC5W.heap 0 :=
    Reach.root 0 { state := GcState.Active, root := 1, count := 0, fields := [] } rfl (by decide)
  exact ⟨hwf, hre, sweep_preserves_reachable_weak_only ctxC5W 0 hwf hre⟩

theorem heap_ext (h1 h2 : Heap) (hk : keys h1 = keys h2) (hnd : (keys h1).Nodup)
    (hp : ∀ j, hLookup h1 j = hLookup h2 j) : h1 = h2 := by
  induction h1 generalizing h2 with
  | nil =>
    cases h2 with
    | nil => rfl
    | cons e t => simp [keys] at hk
  | cons e t ih =>
    obtain ⟨j, hd⟩ := e
    cases h2 with
    | nil => simp [keys] at hk
    | cons e2 t2 =>
      obtain ⟨j2, hd2⟩ := e2
      simp only [keys_cons] at hk
      injection hk with hj hkt
      subst hj
      simp only [keys_cons, List.nodup_cons] at hnd
      have hhd : hd = hd2 := by
        have hpj := hp j
        rw [hLookup_cons, if_pos rfl, hLookup_cons, if_pos rfl] at hpj
        exact Option.some.inj hpj
      subst hhd
      have hpt : ∀ x, hLookup t x = hLookup t2 x := by
        intro x
        by_cases hxj : x = j
        · subst hxj
          rw [hLookup_none_of_not_mem t x hnd.1, hLookup_none_of_not_mem t2 x (hkt ▸ hnd.1)]
        · have hpx := hp x
          rw [hLookup_cons, if_neg (fun he => hxj he.symm),
              hLookup_cons, if_neg (fun he => hxj he.symm)] at hpx
          exact hpx
      rw [ih t2 hkt hnd.2 hpt]

/-- On a heap whose nodes are all `Tracked`, the reclamation walk is a pure
relink: every node returns to `Active` with its data intact, nothing is
destroyed or freed, and the registry collects the live nodes in order. -/
theorem sweepWalk_all_tracked :
    ∀ (rem : List Nat) (c : Ctx), rem.Nodup → (keys c.heap).Nodup →
      (∀ j ∈ rem, ∀ hd, hLookup c.heap j = some hd → hd.state = GcState.Tracked) →
      keys (sweepWalk c rem).heap = keys c.heap ∧
      (∀ j, j ∉ rem → hLookup (sweepWalk c rem).heap j = hLookup c.heap j) ∧
      (∀ j ∈ rem, ∀ hd, hLookup c.heap j = some hd →
        hLookup (sweepWalk c rem).heap j
          = some { state := GcState.Active, root := hd.root, count := hd.count,
                   fields := hd.fields }) ∧
      (∀ j ∈ rem, hLookup c.heap j = none → hLookup (sweepWalk c rem).heap j = none) ∧
      (sweepWalk c rem).registry
        = (rem.filter (fun j => decide (j ∈ keys c.heap))).reverse ++ c.registry ∧
      (sweepWalk c rem).destroyed = c.destroyed ∧
      (sweepWalk c rem).freed = c.freed ∧
      (sweepWalk c rem).danglingOps = c.danglingOps := by
  intro rem
  induction rem with
  | nil =>
    intro c _ _ _
    rw [sweepWalk]
    exact ⟨rfl, fun j _ => rfl, fun j hj => absurd hj (List.not_mem_nil j),
      fun j hj => absurd hj (List.not_mem_nil j), by simp, rfl, rfl, rfl⟩
  | cons i rem ih =>
    intro c hnd hknd htr
    rw [List.nodup_cons] at hnd
    cases hli : hLookup c.heap i with
    | none =>
      rw [sweepWalk_cons_none c i rem hli]
      obtain ⟨hk, hout, hin, hnone, hreg, hde, hfr, hda⟩ :=
        ih c hnd.2 hknd (fun j hj hd hl => htr j (List.mem_cons_of_mem _ hj) hd hl)
      have hik : i ∉ keys c.heap := by
        intro hm
        have hs := hLookup_isSome_of_mem c.heap i hm
        rw [hli] at hs
        simp at hs
      refine ⟨hk, ?_, ?_, ?_, ?_, hde, hfr, hda⟩
      · intro j hj
        exact hout j (fun hx => hj (List.mem_cons_of_mem _ hx))
      · intro j hj hd hl
        rcases List.mem_cons.mp hj with rfl | hj2
        · rw [hli] at hl
          cases hl
        · exact hin j hj2 hd hl
      · intro j hj hl
        rcases List.mem_cons.mp hj with rfl | hj2
        · by_cases hjr : j ∈ rem
          · exact hnone j hjr hl
          · rw [hout j hjr]
            exact hl
        · exact hnone j hj2 hl
      · rw [hreg]
        simp only [List.filter_cons]
        rw [if_neg (show ¬(decide (i ∈ keys c.heap) = true) by simp [hik])]
    | some hdi =>
      have hst := htr i (List.mem_cons_self _ _) hdi hli
      rw [sweepWalk_cons_tracked c i rem hdi hli hst]
      have hsome : (hLookup c.heap i).isSome := by rw [hli]; rfl
      have hk2 : keys (hSet c.heap i {hdi with state := GcState.Active}) = keys c.heap :=
        keys_hSet _ _ _
      obtain ⟨hk, hout, hin, hnone, hreg, hde, hfr, hda⟩ :=
        ih {c with heap := hSet c.heap i {hdi with state := GcState.Active},
                   registry := i :: c.registry} hnd.2
          (show (keys (hSet c.heap i {hdi with state := GcState.Active})).Nodup by
            rw [keys_hSet]
            exact hknd)
          (by
            intro j hj hd hl
            replace hl : hLookup (hSet c.heap i {hdi with state := GcState.Active}) j
                = some hd := hl
            by_cases hji : j = i
            · subst hji
              exact absurd hj hnd.1
            · rw [hLookup_hSet_ne _ _ _ _ (fun he => hji he.symm)] at hl
              exact htr j (List.mem_cons_of_mem _ hj) hd hl)
      refine ⟨?_, ?_, ?_, ?_, ?_, hde, hfr, hda⟩
      · exact hk.trans hk2
      · intro j hj
        have hji : j ≠ i := fun he => hj (he ▸ List.mem_cons_self _ _)
        have h1 := hout j (fun hx => hj (List.mem_cons_of_mem _ hx))
        rw [h1]
        show hLookup (hSet c.heap i {hdi with state := GcState.Active}) j = hLookup c.heap j
        exact hLookup_hSet_ne _ _ _ _ (fun he => hji he.symm)
      · intro j hj hd hl
        rcases List.mem_cons.mp hj with rfl | hj2
        · rw [hli] at hl
          cases hl
          rw [hout j hnd.1]
          show hLookup (hSet c.heap j {hdi with state := GcState.Active}) j = _
          rw [hLookup_hSet_self _ _ _ hsome]
        · have hji : j ≠ i := fun he => hnd.1 (he ▸ hj2)
          refine hin j hj2 hd ?_
          show hLookup (hSet c.heap i {hdi with state := GcState.Active}) j = some hd
          rw [hLookup_hSet_ne _ _ _ _ (fun he => hji he.symm)]
          exact hl
      · intro j hj hl
        rcases List.mem_cons.mp hj with rfl | hj2
        · rw [hli] at hl
          cases hl
        · by_cases hji : j = i
          · subst hji
            rw [hli] at hl
            cases hl
          · refine hnone j hj2 ?_
            show hLookup (hSet c.heap i {hdi with state := GcState.Active}) j = none
            rw [hLookup_hSet_ne _ _ _ _ (fun he => hji he.symm)]
            exact hl
      · rw [hreg]
        rw [show keys ({c with heap := hSet c.heap i {hdi with state := GcState.Active}, registry := i :: c.registry} : Ctx).heap = keys c.heap from hk2]
        simp only [List.filter_cons]
        rw [if_pos (show decide (i ∈ keys c.heap) = true by
          simp [mem_keys_of_hLookup c.heap i hdi hli])]
        simp [List.reverse_cons, List.append_assoc]

/-- On a well-formed weak-only context in which every live header is
already reachable, `gc()` changes nothing observable: marking promotes
every node to `Tracked` and the walk relinks them all back. -/
theorem gcRun_fixpoint (c : Ctx) (hwf : WfCtx c)
    (hall : ∀ i ∈ keys c.heap, Reach c.heap i) :
    ctxCore (gcRun c) = ctxCore c := by
  obtain ⟨hn, hrk, hknd, hact, hwk, hec, hcl⟩ := hwf
  by_cases hereg : c.registry = []
  · rw [gcRun_eq_of_empty c hn hereg]
    unfold ctxCore
    dsimp only
    rw [hn]
  · rw [gcRun_eq_of_normal c hn hereg]
    dsimp only
    set CL := closure (markPhase c.heap [] c.registry.reverse).1
        (markPhase c.heap [] c.registry.reverse).2 with hCL
    set cW : Ctx := {c with ctxState := GcContextState.Gc, gcCount := c.gcCount + 1,
                            registry := [], heap := CL} with hcW
    have hiterm : ∀ i, i ∈ c.registry.reverse ↔ i ∈ keys c.heap := by
      intro i
      rw [List.mem_reverse, hrk]
    have hiternd : c.registry.reverse.Nodup := by
      rw [hrk]
      exact List.nodup_reverse.mpr hknd
    have hbund := closure_bundle c.heap _ _
      (mark_bundle c.heap c.registry.reverse hiterm hiternd)
    obtain ⟨hskel, hdom, _, hreachC, hclosedC⟩ := hbund
    have hkC : keys CL = keys c.heap := by
      rw [hCL, closure_keys, markPhase_keys]
    have hroots : ∀ j hd0, hLookup c.heap j = some hd0 → hd0.root ≠ 0 →
        ∃ hd, hLookup CL j = some hd ∧ hd.state = GcState.Tracked :=
      fun j hd0 hl0 hr =>
        roots_tracked_closure c.heap c.registry.reverse hiterm hiternd j hd0 hl0 hr
    have hallT : ∀ j ∈ c.registry.reverse, ∀ hd, hLookup cW.heap j = some hd →
        hd.state = GcState.Tracked := by
      intro j hj hd hl
      replace hl : hLookup CL j = some hd := hl
      have hjk : j ∈ keys c.heap := by
        rw [← hkC]
        exact mem_keys_of_hLookup _ _ _ hl
      obtain ⟨hd2, hl2, hs2⟩ := reach_tracked_in c.heap CL hskel hclosedC hec hroots j
        (hall j hjk)
      rw [hl] at hl2
      cases hl2
      exact hs2
    have hCLnd : (keys CL).Nodup := by
      rw [hkC]
      exact hknd
    obtain ⟨hk, hout, hin, hnone, hreg, hde, hfr, hda⟩ :=
      sweepWalk_all_tracked c.registry.reverse cW hiternd
        (show (keys cW.heap).Nodup from hCLnd) hallT
    have hheap : (sweepWalk cW c.registry.reverse).heap = c.heap := by
      refine heap_ext _ _ (hk.trans hkC) ?_ ?_
      · rw [hk]
        exact hCLnd
      · intro x
        by_cases hxk : x ∈ keys c.heap
        · have hmemrem : x ∈ c.registry.reverse := (hiterm x).mpr hxk
          cases hlx : hLookup c.heap x with
          | none =>
            exfalso
            have hs := hLookup_isSome_of_mem c.heap x hxk
            rw [hlx] at hs
            simp at hs
          | some hd0 =>
            cases hlC : hLookup CL x with
            | none =>
              exfalso
              have hnn := (hskel x).1.mp hlC
              rw [hlx] at hnn
              cases hnn
            | some hdT =>
              have h1 := hin x hmemrem hdT (show hLookup cW.heap x = some hdT from hlC)
              rw [h1]
              obtain ⟨hd0b, hl0b, hro, hco, hfo⟩ := (hskel x).2 hdT hlC
              rw [hlx] at hl0b
              cases hl0b
              have hsA : hd0.state = GcState.Active := hact (x, hd0) (hLookup_mem _ _ _ hlx)
              rw [hro, hco, hfo, ← hsA]
        · have hlx : hLookup c.heap x = none := hLookup_none_of_not_mem _ _ hxk
          have hlC : hLookup CL x = none := (hskel x).1.mpr hlx
          by_cases hxr : x ∈ c.registry.reverse
          · rw [hnone x hxr (show hLookup cW.heap x = none from hlC), hlx]
          · rw [hout x hxr]
            show hLookup CL x = hLookup c.heap x
            rw [hlC, hlx]
    have hregeq : (sweepWalk cW c.registry.reverse).registry = c.registry := by
      rw [hreg]
      have hcwr : cW.registry = ([] : List Nat) := rfl
      rw [hcwr, List.append_nil]
      have hfil : c.registry.reverse.filter (fun j => decide (j ∈ keys cW.heap))
          = c.registry.reverse := by
        refine List.filter_eq_self.mpr ?_
        intro j hj
        have hjk : j ∈ keys c.heap := (hiterm j).mp hj
        have hjk2 : j ∈ keys cW.heap := by
          show j ∈ keys CL
          rw [hkC]
          exact hjk
        simp [hjk2]
      rw [hfil, List.reverse_reverse]
    have hfrm := sweepWalk_frame c.registry.reverse cW
    unfold ctxCore
    dsimp only
    rw [hheap, hregeq, hde, hfr, hda, hfrm.2.1, hfrm.2.2.1, hfrm.2.2.2.1, hn]

/-- After one collection on a well-formed weak-only context the context is
again well formed and every live header is reachable. -/
theorem gcRun_wf_next (ctx : Ctx) (hwf : WfCtx ctx) :
    WfCtx (gcRun ctx) ∧ (∀ i ∈ keys (gcRun ctx).heap, Reach (gcRun ctx).heap i) := by
  obtain ⟨hst, hreg, hnd, hmemiff, hnodes, hpres, hcnt, _, _⟩ := gcRun_wf_spec ctx hwf
  obtain ⟨hn0, hrk0, hknd0, hact0, hwk0, hec0, hcl0⟩ := hwf
  have hpt : ∀ i, Reach ctx.heap i → ∃ hd0 hd1, hLookup ctx.heap i = some hd0 ∧
      hLookup (gcRun ctx).heap i = some hd1 ∧ hd1.root = hd0.root ∧ hd1.fields = hd0.fields := by
    intro i hre
    obtain ⟨hd1, hl1⟩ := hpres i hre
    obtain ⟨hd0, hl0, _, hro, hfo⟩ := hnodes i hd1 hl1
    exact ⟨hd0, hd1, hl0, hl1, hro, hfo⟩
  have htrans := Reach_transfer ctx.heap (gcRun ctx).heap hpt
  refine ⟨⟨hst, hreg, hnd, ?_, ?_, ?_, hcnt⟩, ?_⟩
  · intro e he
    have hle := hLookup_of_mem_nodup _ e he hnd
    obtain ⟨hd0, _, hsA, _, _⟩ := hnodes e.1 e.2 hle
    exact hsA
  · intro e he f hf
    have hle := hLookup_of_mem_nodup _ e he hnd
    obtain ⟨hd0, hl0, _, _, hfo⟩ := hnodes e.1 e.2 hle
    rw [hfo] at hf
    exact hwk0 (e.1, hd0) (hLookup_mem _ _ _ hl0) f hf
  · intro e he t ht
    have hle := hLookup_of_mem_nodup _ e he hnd
    obtain ⟨hd0, hl0, _, _, hfo⟩ := hnodes e.1 e.2 hle
    rw [hfo] at ht
    have hre1 : Reach ctx.heap e.1 := ((hmemiff e.1).mp (mem_keys_of_hLookup _ _ _ hle)).2
    have hret : Reach ctx.heap t := Reach.step e.1 t hd0 hre1 hl0 ht
    have htk : t ∈ keys ctx.heap := hec0 (e.1, hd0) (hLookup_mem _ _ _ hl0) t ht
    exact (hmemiff t).mpr ⟨htk, hret⟩
  · intro i hi
    exact htrans i ((hmemiff i).mp hi).2

/-- A well-formed two-node context: a rooted header holding one weak handle
to a second, unrooted header. -/
def ctxC6W : Ctx :=
  { heap := [(0, { state := GcState.Active, root := 1, count := 0,
                   fields := [GcField.weak 1] }),
             (1, { state := GcState.Active, root := 0, count := 1, fields := [] })],
    registry := [0, 1], ctxState := GcContextState.Normal, autoGc := 0, allocCount := 0,
    nextId := 2, destroyed := [], freed := [], danglingOps := [], gcCount := 0 }

/-- C6 (amended to well-formed weak-only contexts): starting from a
well-formed context whose payloads hold only weak handles, running `gc()`
twice with no intervening handle operations is observationally the same as
running it once: the second call leaves the heap, registry, context state,
counters, and all logs unchanged (only the internal sweep counter that
models the begin-gc log line advances). -/
theorem gc_idempotent_weak_only (ctx : Ctx) (hwf : WfCtx ctx) :
    ctxCore (gcRun (gcRun ctx)) = ctxCore (gcRun ctx) := by
  obtain ⟨hwf2, hall2⟩ := gcRun_wf_next ctx hwf
  exact gcRun_fixpoint (gcRun ctx) hwf2 hall2

theorem gc_idempotent_weak_only_witness :
    WfCtx ctxC6W ∧ ctxCore (gcRun (gcRun ctxC6W)) = ctxCore (gcRun ctxC6W) := by
  have hwf : WfCtx ctxC6W := by
    refine ⟨rfl, rfl, by decide, ?_, ?_, ?_, ?_⟩
    · show ∀ e ∈ ctxC6W.heap, e.2.state = GcState.Active
      decide
    · show ∀ e ∈ ctxC6W.heap, ∀ f ∈ e.2.fields, isWeakField f = true
      decide
    · show ∀ e ∈ ctxC6W.heap, ∀ t ∈ weakTargets e.2.fields, t ∈ keys ctxC6W.heap
      decide
    · show ∀ e ∈ ctxC6W.heap, inCount ctxC6W.heap e.1 ≤ e.2.count
      decide
  exact ⟨hwf, gc_idempotent_weak_only ctxC6W hwf⟩

/-! ## Claim C5 (as stated) fails: a reachable header destroyed by the sweep

`ctxC5` is reachable by: alloc V (id 0); alloc V2 (id 1); alloc X (id 2);
alloc T (id 3); store a strong handle to X in V's payload and drop the
external strong to X; store a strong handle to T in V2's payload and drop
the external strong to T; store a weak handle to T in X's payload; take
external weak handles to V and V2 and drop their external strongs.  At
`gc()` time X and T both have `root_count = 1` (the units held inside the
victims' payloads), X holds a weak edge to T, and V, V2 are unreachable
victims. -/

def ctxC5 : Ctx :=
  { heap := [(0, { state := .Active, root := 0, count := 1, fields := [GcField.strong 2] }),
             (1, { state := .Active, root := 0, count := 1, fields := [GcField.strong 3] }),
             (2, { state := .Active, root := 1, count := 0, fields := [GcField.weak 3] }),
             (3, { state := .Active, root := 1, count := 1, fields := [] })],
    registry := [0, 1, 2, 3], ctxState := .Normal, autoGc := 0, allocCount := 0,
    nextId := 4, destroyed := [], freed := [], danglingOps := [], gcCount := 0 }

/-- C5 counterexample: header 3 is, at the start of `gc()`, reachable
through a weak edge from header 2, which has `root_count = 1 > 0`; yet the
sweep runs header 3's payload destructor and frees its storage in that same
`gc()` call.  (During the reclamation walk the victims 0 and 1 are
destroyed after 2 and 3 were already relinked as `Active`; dropping the
victims' strong handles drives `root_count` of 2 and then the weak count of
3 to zero, and the mid-sweep eager check destroys both.) -/
theorem reachable_header_destroyed_by_sweep_cex :
    hLookup ctxC5.heap 2 =
      some { state := .Active, root := 1, count := 0, fields := [GcField.weak 3] } ∧
    hLookup ctxC5.heap 3 =
      some { state := .Active, root := 1, count := 1, fields := [] } ∧
    Reach ctxC5.heap 3 ∧
    (gcRun ctxC5).destroyed = [3, 2, 0, 1] ∧
    hLookup (gcRun ctxC5).heap 3 = none := by
  refine ⟨rfl, rfl, ?_, ?_, ?_⟩
  · exact Reach.step 2 3
      { state := .Active, root := 1, count := 0, fields := [GcField.weak 3] }
      (Reach.root 2 { state := .Active, root := 1, count := 0, fields := [GcField.weak 3] }
        rfl (by decide))
      rfl (by decide)
  · simp [gcRun, ctxC5, markPhase, sweepWalk, closure_cons, traceNode, traceFields,
      acceptStep, runDrops_cons, dropStepFn, checkRefAfter]
  · simp [gcRun, ctxC5, markPhase, sweepWalk, closure_cons, traceNode, traceFields,
      acceptStep, runDrops_cons, dropStepFn, checkRefAfter]

/-! ## Claim C6 (as stated) fails: a second `gc()` can destroy more

`ctxC6` is reachable by: alloc T (id 0); wT = T.downgrade(); alloc V (id 1)
with a clone of the strong handle to T stored in V's payload; wV =
V.downgrade(); drop the external strongs to T and V.  T's only root-count
unit is the strong handle inside the victim V's payload. -/

def ctxC6 : Ctx :=
  { heap := [(0, { state := .Active, root := 1, count := 1, fields := [] }),
             (1, { state := .Active, root := 0, count := 1, fields := [GcField.strong 0] })],
    registry := [0, 1], ctxState := .Normal, autoGc := 0, allocCount := 0,
    nextId := 2, destroyed := [], freed := [], danglingOps := [], gcCount := 0 }

/-- C6 counterexample: with no handle operations in between, the first
`gc()` destroys only the victim 1 (header 0 is marked `Tracked` before the
victim's strong handle to it is dropped, so it survives with
`root_count = 0`), but the second `gc()` then destroys header 0 as well:
running `gc()` twice is not equivalent to running it once. -/
theorem gc_twice_not_idempotent_cex :
    (gcRun ctxC6).destroyed = [1] ∧
    hLookup (gcRun ctxC6).heap 0 =
      some { state := .Active, root := 0, count := 1, fields := [] } ∧
    (gcRun (gcRun ctxC6)).destroyed = [0, 1] ∧
    hLookup (gcRun (gcRun ctxC6)).heap 0 = none := by
  refine ⟨?_, ?_, ?_, ?_⟩ <;>
    simp [gcRun, ctxC6, markPhase, sweepWalk, closure_cons, traceNode, traceFields,
      acceptStep, runDrops_cons, dropStepFn, checkRefAfter]

end Regc
